import Mathlib

/-!
Verification model of `merge_endsongs.py`.

The script reconciles two sqlite tables, `endsong` (primary records, defective
on platform `ios`) and `history` (secondary records), into `endsong_modified`
(reconciled records), then enriches album/URI fields, normalizes Spotify URIs,
drops sentinel rows and exports.

Modelling conventions:
 - Python/SQL strings are `List Char`; SQL `LIKE 'p%'` (no wildcards inside
   `p` in this program's data) is ASCII-case-insensitive prefix matching.
 - Nullable TEXT columns that matter to the claims (`master_metadata_track_name`,
   `master_metadata_album_artist_name`, `master_metadata_album_album_name`,
   `spotify_track_uri`, `offline_timestamp`) are `Option`s with SQL ternary
   equality (`NULL = x` is never true).  Columns the program always populates
   (`ts`, `platform`, `ms_played`, `endTime`, `msPlayed`, `id`) are modelled
   non-null.
 - A sqlite table is a list of rows in rowid order; a full scan, and a
   `WHERE id IN (...)` scan, return rows in ascending rowid order, inserts
   append, updates and deletes keep the order of the remaining rows.
 - Python `set` iteration order is unspecified; it is modelled as insertion
   order.  Python `dict` preserves insertion order (modelled as an
   association list whose value updates keep the key's position).
 - The interactive pieces (operator `input()` and the Selenium lookup of
   lines 230-284) are functions supplied to the pipeline: the operator answer
   is keyed by the endsong id being disambiguated, the oracle outcome by the
   (track, artist) pair being looked up; the oracle outcome carries exactly
   the store effect of the interaction (accepted album plus clipboard text,
   or rejection, or timeout).
-/

namespace Merge

abbrev Str := List Char

/-- ASCII lower-casing of one character, as used by sqlite `LIKE`. -/
def asciiLower (c : Char) : Char :=
  if 'A' ≤ c ∧ c ≤ 'Z' then Char.ofNat (c.toNat + 32) else c

/-- ASCII lower-casing of a string. -/
def lowerStr (s : Str) : Str := s.map asciiLower

/-- sqlite `s LIKE 'p%'` for a pattern `p` that contains no wildcard
characters: ASCII-case-insensitive prefix test. -/
def likePrefix (p s : Str) : Bool :=
  lowerStr (s.take p.length) = lowerStr p

/-- Python `s.replace("T", " ", 1)`. -/
def replaceFirstT : Str → Str
  | [] => []
  | c :: cs => if c = 'T' then ' ' :: cs else c :: replaceFirstT cs

/-- Python `s.replace(" ", "T")`. -/
def spaceToT (s : Str) : Str := s.map (fun c => if c = ' ' then 'T' else c)

/-- Line 148: `row[0][:16].replace("T", " ", 1)` — truncate an endsong
timestamp to minute precision in `history` format. -/
def minuteKey (ts : Str) : Str := replaceFirstT (ts.take 16)

/-- Line 173: `history[0][0].replace(" ", "T")`, the prefix of the LIKE
pattern used to find endsong rows in the cluster's minute. -/
def tsLikeKey (endTime : Str) : Str := spaceToT endTime

/-- SQL `a = b` between two nullable values: never true when either is NULL. -/
def sqlEqO (a b : Option Str) : Bool :=
  match a, b with
  | some x, some y => x = y
  | _, _ => false

/-- Lexicographic byte order on strings (sqlite BINARY text comparison);
`lexLe a b` is `a <= b`. -/
def lexLe : Str → Str → Bool
  | [], _ => true
  | _ :: _, [] => false
  | a :: as, b :: bs =>
    if a = b then lexLe as bs else decide (a < b)

def iosStr : Str := "ios".toList
def sentinelTrack : Str := "Unknown Track".toList
def sentinelArtist : Str := "Unknown Artist".toList
def httpsStr : Str := "https".toList
def spotifyStr : Str := "spotify".toList
def spotifyTrackPrefix : Str := "spotify:track:".toList
def trackUrlPrefix : Str := "https://open.spotify.com/track/".toList

/-- One row of the `history` table (a SecondaryRecord): `id` is the
monotonically increasing sequence id assigned at load time. -/
structure HistoryRow where
  endTime : Str
  artistName : Option Str
  trackName : Option Str
  msPlayed : Int
  id : Nat
  deriving DecidableEq

/-- One row of the `endsong` table (a PrimaryRecord).  Fields not read or
written by the merge logic are omitted; a reconciled row (`endsong_modified`)
is a copy of such a row with some fields overwritten. -/
structure EndsongRow where
  ts : Str
  platform : Str
  ms_played : Int
  track_name : Option Str
  artist_name : Option Str
  album_name : Option Str
  track_uri : Option Str
  offline_timestamp : Option Int
  id : Nat
  deriving DecidableEq

/-- `SELECT COUNT(id) FROM endsong_modified WHERE id = ? > 0`. -/
def modifiedHas (m : List EndsongRow) (i : Nat) : Bool :=
  m.any (fun r => r.id == i)

/-- Lines 154-155 / 182-183 / 209-210: copy the endsong row into
`endsong_modified` and overwrite track and artist names from the match. -/
def resolveWith (r : EndsongRow) (track artist : Option Str) : EndsongRow :=
  { r with track_name := track, artist_name := artist }

/-- Membership-checked insertion, modelling `set.add` for cluster keys. -/
def setAddList (s : List (List Nat)) (t : List Nat) : List (List Nat) :=
  if t ∈ s then s else s ++ [t]

/-- Membership-checked insertion, modelling `set.add` for row ids. -/
def setAddNat (s : List Nat) (n : Nat) : List Nat :=
  if n ∈ s then s else s ++ [n]

/-- Insert into an ascending list of ids (used to model Python
`list.sort()` on the cluster's match ids). -/
def insertNat (n : Nat) : List Nat → List Nat
  | [] => [n]
  | m :: ms => if n ≤ m then n :: m :: ms else m :: insertNat n ms

/-- Python `list.sort()` on ids. -/
def sortNat (l : List Nat) : List Nat := l.foldr insertNat []

/-- Stable insertion by ascending `id` (sqlite returns rows of
`WHERE id IN (...)` in ascending rowid order). -/
def insertById (r : HistoryRow) : List HistoryRow → List HistoryRow
  | [] => [r]
  | s :: ss => if r.id ≤ s.id then r :: s :: ss else s :: insertById r ss

def sortById (l : List HistoryRow) : List HistoryRow := l.foldr insertById []

/-- `ORDER BY offline_timestamp` comparison: sqlite sorts NULLs first. -/
def otLe (a b : Option Int) : Bool :=
  match a, b with
  | none, _ => true
  | some _, none => false
  | some x, some y => x ≤ y

/-- Stable insertion by ascending `offline_timestamp`. -/
def insertByOT (r : EndsongRow) : List EndsongRow → List EndsongRow
  | [] => [r]
  | s :: ss =>
    if otLe r.offline_timestamp s.offline_timestamp then r :: s :: ss
    else s :: insertByOT r ss

/-- `ORDER BY offline_timestamp` (stable on ties). -/
def sortByOT (l : List EndsongRow) : List EndsongRow := l.foldr insertByOT []

/-- Line 149: `SELECT * FROM history WHERE endTime = ? AND msPlayed = ?`
with the minute-truncated timestamp and the play duration of `r`. -/
def exactMatches (history : List HistoryRow) (r : EndsongRow) : List HistoryRow :=
  history.filter (fun h => h.endTime = minuteKey r.ts ∧ h.msPlayed = r.ms_played)

/-- State threaded through the whole run (lines 139-314): the
`endsong_modified` table, the `multiple` and `none` sets, the `missing`,
`unsure` and `skipped` report sets, the `no_extra` work queue, the update
counter `i`, and a log of the operator prompts issued during the fallback
pass (timestamp shown and option list displayed). -/
structure PassState where
  modified : List EndsongRow
  multiple : List (List Nat)
  noneIds : List Nat
  missing : List Nat
  unsure : List Nat
  noExtra : List ((Option Str × Option Str) × Nat)
  skipped : List Nat
  updated : Nat
  prompts : List (Str × List (Option Str × Option Str))
  deriving DecidableEq

def PassState.initial (modified0 : List EndsongRow) : PassState :=
  { modified := modified0, multiple := [], noneIds := [], missing := [],
    unsure := [], noExtra := [], skipped := [], updated := 0, prompts := [] }

/-- Lines 147-166, body of the initial pass for one defective row. -/
def initialStep (history : List HistoryRow) (st : PassState) (r : EndsongRow) :
    PassState :=
  match exactMatches history r with
  | [] => { st with noneIds := setAddNat st.noneIds r.id }
  | [m] =>
    if modifiedHas st.modified r.id then st
    else { st with
           modified := st.modified ++ [resolveWith r m.trackName m.artistName],
           updated := st.updated + 1 }
  | ms =>
    { st with multiple := setAddList st.multiple (sortNat (ms.map (·.id))) }

/-- Lines 145-166: the initial exact-key pass over
`SELECT * FROM endsong WHERE platform = 'ios'`. -/
def initialPass (endsong : List EndsongRow) (history : List HistoryRow)
    (st : PassState) : PassState :=
  (endsong.filter (fun r => r.platform = iosStr)).foldl (initialStep history) st

/-- Line 171: `SELECT * FROM history WHERE id IN (...)` — the cluster's
history rows, in ascending id order. -/
def clusterHistory (history : List HistoryRow) (entry : List Nat) :
    List HistoryRow :=
  sortById (history.filter (fun h => h.id ∈ entry))

/-- Line 174: `SELECT id FROM endsong WHERE platform = 'ios' AND
ms_played = ... AND ts LIKE '...%' ORDER BY offline_timestamp` — the
endsong candidates sharing the cluster's duration and minute. -/
def clusterCands (endsong : List EndsongRow) (h0 : HistoryRow) :
    List EndsongRow :=
  sortByOT (endsong.filter (fun e =>
    e.platform = iosStr ∧ e.ms_played = h0.msPlayed ∧
    likePrefix (tsLikeKey h0.endTime) e.ts))

/-- Lines 176-184: process the positional pairs of a cluster. -/
def resolvePairs (pairs : List (HistoryRow × EndsongRow)) (st : PassState) :
    PassState :=
  pairs.foldl
    (fun acc p =>
      if modifiedHas acc.modified p.2.id then acc
      else { acc with
             modified := acc.modified ++
               [resolveWith p.2 p.1.trackName p.1.artistName],
             updated := acc.updated + 1 }) st

/-- Lines 169-184, body of the multiple-match pass for one cluster key:
re-fetch the cluster's history rows (ascending id), fetch the endsong
candidates in the cluster's minute with the cluster's duration (ascending
offline_timestamp) and pair the two lists positionally.  An empty cluster
key would make `history[0]` on line 173 raise `IndexError`. -/
def clusterStep (endsong : List EndsongRow) (history : List HistoryRow)
    (st : PassState) (entry : List Nat) : Except String PassState :=
  match clusterHistory history entry with
  | [] => .error "IndexError"
  | h0 :: hrest =>
    .ok (resolvePairs ((h0 :: hrest).zip (clusterCands endsong h0)) st)

/-- Lines 168-184: `for entry in tqdm(multiple)`. -/
def clusterPass (endsong : List EndsongRow) (history : List HistoryRow)
    (st : PassState) : Except String PassState :=
  st.multiple.foldlM (clusterStep endsong history) st

/-- Decimal digit string to number; `none` if empty or non-digit. -/
def digitsToNat : Str → Option Nat
  | [] => none
  | l => l.foldl (fun acc c =>
      match acc with
      | none => none
      | some n => if c.isDigit then some (n * 10 + (c.toNat - 48)) else none)
      (some 0)

/-- Python `int(x)` on a decimal literal: optional sign then digits. -/
def parseInt (s : Str) : Option Int :=
  match s with
  | '-' :: rest => (digitsToNat rest).map (fun n => -(n : Int))
  | '+' :: rest => (digitsToNat rest).map (fun n => (n : Int))
  | _ => (digitsToNat s).map (fun n => (n : Int))

/-- Python list indexing `l[k]`: negative indices count from the end,
out-of-range raises (`none` here). -/
def pythonGet {α : Type} (l : List α) (k : Int) : Option α :=
  let j : Int := if k < 0 then k + l.length else k
  if 0 ≤ j ∧ j < l.length then l.get? j.toNat else none

/-- First-occurrence deduplication, modelling `list(set(matches))` (the
set's iteration order is unspecified in Python; first-occurrence order is
the model's choice). -/
def firstDedup {α : Type} [DecidableEq α] (l : List α) : List α :=
  l.foldl (fun acc x => if x ∈ acc then acc else acc ++ [x]) []

/-- Line 193: `SELECT artistName, trackName FROM history WHERE
msPlayed = ?` — all (artist, track) pairs of secondary records with the
entry's play duration. -/
def fallbackMatches (history : List HistoryRow) (e : EndsongRow) :
    List (Option Str × Option Str) :=
  (history.filter (fun h => h.msPlayed = e.ms_played)).map
    (fun h => (h.artistName, h.trackName))

/-- Lines 189-213, body of the no-match (duration fallback) pass for one
entry of the `none` set.  `op` is the operator's console answer, keyed by
the endsong id being disambiguated.  A non-integer answer other than
`u`/`U` raises `ValueError`; an out-of-range index raises `IndexError`. -/
def noMatchStep (endsong : List EndsongRow) (history : List HistoryRow)
    (op : Nat → Str) (st : PassState) (entry : Nat) : Except String PassState :=
  if modifiedHas st.modified entry then .ok st
  else
    match endsong.find? (fun e => e.id == entry) with
    | none => .error "TypeError"
    | some e =>
      match fallbackMatches history e with
      | [] => .ok { st with missing := setAddNat st.missing entry }
      | m0 :: mrest =>
        let options := firstDedup (m0 :: mrest)
        if 1 < options.length then
          let st' := { st with prompts := st.prompts ++ [(e.ts, options)] }
          let x := op entry
          if x = ['u'] ∨ x = ['U'] then
            .ok { st' with unsure := setAddNat st'.unsure entry }
          else
            match parseInt x with
            | none => .error "ValueError"
            | some k =>
              match pythonGet options k with
              | none => .error "IndexError"
              | some chosen =>
                .ok { st' with
                      modified := st'.modified ++ [resolveWith e chosen.2 chosen.1],
                      updated := st'.updated + 1 }
        else
          .ok { st with
                modified := st.modified ++ [resolveWith e m0.2 m0.1],
                updated := st.updated + 1 }

/-- Lines 186-213: `for entry in tqdm(none)`. -/
def nonePass (endsong : List EndsongRow) (history : List HistoryRow)
    (op : Nat → Str) (st : PassState) : Except String PassState :=
  st.noneIds.foldlM (noMatchStep endsong history op) st

/-- Keep the first occurrence of each (album, uri) pair together with the
`ts` of the row that first produced it (sqlite's evaluation of
`SELECT DISTINCT a, b ... ORDER BY ts ...`: the dedup runs in scan order
and each distinct pair is tagged with its first row's `ts`). -/
def firstOccTags (l : List ((Option Str × Option Str) × Str)) :
    List ((Option Str × Option Str) × Str) :=
  l.foldl (fun acc p => if acc.any (fun q => q.1 = p.1) then acc else acc ++ [p]) []

/-- Stable insertion by descending `ts` tag (`ORDER BY ts DESC`). -/
def insertTsDesc (p : (Option Str × Option Str) × Str) :
    List ((Option Str × Option Str) × Str) →
    List ((Option Str × Option Str) × Str)
  | [] => [p]
  | q :: qs => if lexLe q.2 p.2 then p :: q :: qs else q :: insertTsDesc p qs

def sortTsDesc (l : List ((Option Str × Option Str) × Str)) :
    List ((Option Str × Option Str) × Str) :=
  l.foldr insertTsDesc []

/-- Line 219: `SELECT DISTINCT master_metadata_album_album_name,
spotify_track_uri FROM endsong WHERE master_metadata_track_name = ? AND
master_metadata_album_artist_name = ? ORDER BY ts DESC LIMIT 1`.
Distinct (album, uri) pairs are keyed by their first occurrence in table
order and the pair whose first occurrence has the greatest `ts` wins. -/
def enrichLookup (endsong : List EndsongRow) (tn an : Option Str) :
    Option (Option Str × Option Str) :=
  match sortTsDesc (firstOccTags
      ((endsong.filter (fun e =>
          sqlEqO e.track_name tn ∧ sqlEqO e.artist_name an)).map
        (fun e => ((e.album_name, e.track_uri), e.ts)))) with
  | [] => none
  | p :: _ => some p.1

/-- Line 218's target query: rows of `endsong_modified` with NULL album
or NULL uri. -/
def enrichTargets (m : List EndsongRow) : List EndsongRow :=
  m.filter (fun r => r.album_name.isNone ∨ r.track_uri.isNone)

/-- `UPDATE endsong_modified SET ... WHERE id = ?`. -/
def updateById (m : List EndsongRow) (i : Nat) (f : EndsongRow → EndsongRow) :
    List EndsongRow :=
  m.map (fun r => if r.id = i then f r else r)

/-- Python dict insertion: overwrite in place if the key exists, else
append. -/
def dictInsert (d : List ((Option Str × Option Str) × Nat))
    (k : Option Str × Option Str) (v : Nat) :
    List ((Option Str × Option Str) × Nat) :=
  if d.any (fun p => p.1 = k) then d.map (fun p => if p.1 = k then (k, v) else p)
  else d ++ [(k, v)]

/-- Lines 218-223, body of the enrichment pass for one target row. -/
def enrichStep (endsong : List EndsongRow) (st : PassState) (t : EndsongRow) :
    PassState :=
  match enrichLookup endsong t.track_name t.artist_name with
  | none =>
    { st with noExtra := dictInsert st.noExtra (t.track_name, t.artist_name) t.id }
  | some du =>
    let m := updateById st.modified t.id
      (fun r => { r with album_name := du.1, track_uri := du.2 })
    { st with modified := m }

/-- Lines 215-223: the enrichment pass. -/
def enrichPass (endsong : List EndsongRow) (st : PassState) : PassState :=
  (enrichTargets st.modified).foldl (enrichStep endsong) st

def sentinelKey : Option Str × Option Str := (some sentinelTrack, some sentinelArtist)

/-- Line 225: `del no_extra[("Unknown Track", "Unknown Artist")]` —
raises `KeyError` when the sentinel pair was never queued. -/
def delSentinel (st : PassState) : Except String PassState :=
  if st.noExtra.any (fun p => p.1 = sentinelKey) then
    .ok { st with noExtra := st.noExtra.filter (fun p => ¬(p.1 = sentinelKey)) }
  else .error "KeyError"

/-- Store effect of one Selenium lookup (lines 232-282): the interaction
either times out (nothing recorded), ends with the operator rejecting all
candidates (the id is added to `skipped`), or ends with an accepted
candidate carrying an album name and the clipboard contents of the
track's share link. -/
inductive OracleOutcome where
  | timeout
  | reject
  | accept (album : Str) (clipboard : Str)
  deriving DecidableEq

/-- Line 276: `search_bar.get_attribute("value").split("?")[0][31:]`. -/
def spotifyUriOf (clipboard : Str) : Str :=
  (clipboard.takeWhile (fun c => ¬(c = '?'))).drop 31

/-- Line 278: `UPDATE endsong_modified SET ... WHERE
master_metadata_track_name = ? AND master_metadata_album_artist_name = ?`. -/
def updateByNames (m : List EndsongRow) (tn an : Option Str)
    (a u : Option Str) : List EndsongRow :=
  m.map (fun r =>
    if sqlEqO r.track_name tn ∧ sqlEqO r.artist_name an then
      { r with album_name := a, track_uri := u }
    else r)

/-- Lines 232-282, store effect of the oracle loop body for one queued
(track, artist) pair. -/
def oracleStep (orc : Option Str × Option Str → OracleOutcome)
    (st : PassState) (kv : (Option Str × Option Str) × Nat) : PassState :=
  match orc kv.1 with
  | .timeout => st
  | .reject => { st with skipped := setAddNat st.skipped kv.2 }
  | .accept album clip =>
    let m := updateByNames st.modified kv.1.1 kv.1.2
      (some album) (some (spotifyUriOf clip))
    { st with modified := m }

/-- Lines 227-284: the oracle loop over the queued pairs. -/
def oraclePass (orc : Option Str × Option Str → OracleOutcome)
    (st : PassState) : PassState :=
  st.noExtra.foldl (oracleStep orc) st

/-- Lines 288-291: rewrite URL-form URIs (`LIKE 'https%'`) to
`spotify:track:` plus the URL path past its fixed 31-character prefix,
query string stripped. -/
def fixupHttps (r : EndsongRow) : EndsongRow :=
  match r.track_uri with
  | none => r
  | some u =>
    if likePrefix httpsStr u then
      { r with track_uri := some (spotifyTrackPrefix ++
          ((u.takeWhile (fun c => ¬(c = '?'))).drop 31)) }
    else r

def fixupPass1 (m : List EndsongRow) : List EndsongRow := m.map fixupHttps

/-- Lines 293-297: wrap any remaining URI not `LIKE 'spotify%'` as a bare
identifier (`NULL NOT LIKE ...` is not true, so NULL URIs are kept). -/
def fixupWrap (r : EndsongRow) : EndsongRow :=
  match r.track_uri with
  | none => r
  | some u =>
    if likePrefix spotifyStr u then r
    else { r with track_uri := some (spotifyTrackPrefix ++ u) }

def fixupPass2 (m : List EndsongRow) : List EndsongRow := m.map fixupWrap

/-- The combined URI normalizer applied to one URI value (the two fixup
passes run back to back over the whole table, so their composition is the
per-value normalization; `fixup_composition` below proves the link). -/
def normalizeUri (u : Option Str) : Option Str :=
  match u with
  | none => none
  | some s =>
    let s1 := if likePrefix httpsStr s then
        spotifyTrackPrefix ++ ((s.takeWhile (fun c => ¬(c = '?'))).drop 31)
      else s
    if likePrefix spotifyStr s1 then some s1
    else some (spotifyTrackPrefix ++ s1)

/-- Lines 299-300: `DELETE FROM endsong_modified WHERE
master_metadata_track_name = 'Unknown Track' AND
master_metadata_album_artist_name = 'Unknown Artist'`. -/
def exportDelete (m : List EndsongRow) : List EndsongRow :=
  m.filter (fun r => ¬(sqlEqO r.track_name (some sentinelTrack) ∧
                       sqlEqO r.artist_name (some sentinelArtist)))

/-- Lines 139-297: all stages before the exporter's sentinel delete,
starting from the given `endsong_modified` contents (empty on a fresh
database). -/
def runStages (endsong : List EndsongRow) (history : List HistoryRow)
    (op : Nat → Str) (orc : Option Str × Option Str → OracleOutcome)
    (modified0 : List EndsongRow) : Except String PassState := do
  let st1 := initialPass endsong history (PassState.initial modified0)
  let st2 ← clusterPass endsong history st1
  let st3 ← nonePass endsong history op st2
  let st4 := enrichPass endsong st3
  let st5 ← delSentinel st4
  let st6 := oraclePass orc st5
  return { st6 with modified := fixupPass2 (fixupPass1 st6.modified) }

/-- Lines 139-314: the whole merge session over loaded tables, starting
from the given `endsong_modified` contents (empty on a fresh database). -/
def runPipeline (endsong : List EndsongRow) (history : List HistoryRow)
    (op : Nat → Str) (orc : Option Str × Option Str → OracleOutcome)
    (modified0 : List EndsongRow) : Except String PassState :=
  (runStages endsong history op orc modified0).map
    (fun st => { st with modified := exportDelete st.modified })

deriving instance DecidableEq for Except

/-! ### Concrete example data

A small worked dataset (also exercised against the Python script's logic):
one single-match row, one three-way minute/duration collision over a
two-member cluster, one duration-fallback row with two distinct candidate
pairs, one zero-match row, one row resolving to the sentinel names, and
two rows whose resolved names need the external oracle. -/

def S (s : String) : Str := s.toList

def exH1 : HistoryRow := ⟨S "2022-01-01 10:15", some (S "Y"), some (S "X"), 180000, 1⟩
def exH2 : HistoryRow := ⟨S "2022-02-02 09:00", some (S "A2"), some (S "T2"), 5000, 2⟩
def exH3 : HistoryRow := ⟨S "2022-02-02 09:00", some (S "A3"), some (S "T3"), 5000, 3⟩
def exH4 : HistoryRow := ⟨S "2021-05-05 05:05", some (S "AF1"), some (S "TF1"), 42000, 4⟩
def exH5 : HistoryRow := ⟨S "2021-06-06 06:06", some (S "AF2"), some (S "TF2"), 42000, 5⟩
def exH6 : HistoryRow := ⟨S "2021-07-07 07:07", some (S "AF1"), some (S "TF1"), 42000, 6⟩
def exH7 : HistoryRow :=
  ⟨S "2020-01-01 00:00", some (S "Unknown Artist"), some (S "Unknown Track"), 999, 7⟩
def exH8 : HistoryRow := ⟨S "2020-02-01 00:00", some (S "AO"), some (S "TO"), 31337, 8⟩
def exH9 : HistoryRow := ⟨S "2020-03-01 00:00", some (S "AR"), some (S "TR"), 555, 9⟩

def exHistory : List HistoryRow :=
  [exH1, exH2, exH3, exH4, exH5, exH6, exH7, exH8, exH9]

def exE10 : EndsongRow :=
  ⟨S "2022-01-01T10:15:32Z", S "ios", 180000, none, none, none, none, some 100, 10⟩
def exE11 : EndsongRow :=
  ⟨S "2022-02-02T09:00:05Z", S "ios", 5000, none, none, none, none, some 300, 11⟩
def exE12 : EndsongRow :=
  ⟨S "2022-02-02T09:00:50Z", S "ios", 5000, none, none, none, none, some 200, 12⟩
def exE13 : EndsongRow :=
  ⟨S "2022-02-02T09:00:59Z", S "ios", 5000, none, none, none, none, some 400, 13⟩
def exE14 : EndsongRow :=
  ⟨S "2023-03-03T03:03:03Z", S "ios", 42000, none, none, none, none, some 500, 14⟩
def exE15 : EndsongRow :=
  ⟨S "2023-04-04T04:04:04Z", S "ios", 777, none, none, none, none, some 600, 15⟩
def exE16 : EndsongRow :=
  ⟨S "2020-01-01T00:00:30Z", S "ios", 999, none, none, none, none, some 700, 16⟩
def exE17 : EndsongRow :=
  ⟨S "2023-05-05T05:05:05Z", S "ios", 31337, none, none, none, none, some 800, 17⟩
def exE18 : EndsongRow :=
  ⟨S "2023-06-06T06:06:06Z", S "ios", 555, none, none, none, none, some 900, 18⟩
def exE20 : EndsongRow :=
  ⟨S "2021-01-01T00:00:00Z", S "android", 1000, some (S "TF2"), some (S "AF2"),
   some (S "AlbumZ"), some (S "https://open.spotify.com/track/ABC123?si=q"), none, 20⟩
def exE21 : EndsongRow :=
  ⟨S "2021-02-01T00:00:00Z", S "android", 1000, some (S "X"), some (S "Y"),
   some (S "AX"), some (S "xyz"), none, 21⟩
def exE22 : EndsongRow :=
  ⟨S "2021-03-01T00:00:00Z", S "android", 1000, some (S "T2"), some (S "A2"),
   some (S "Alb2"), some (S "spotify:track:T2ID"), none, 22⟩
def exE23 : EndsongRow :=
  ⟨S "2021-04-01T00:00:00Z", S "android", 1000, some (S "T3"), some (S "A3"),
   some (S "Alb3"), some (S "spotify:track:T3ID"), none, 23⟩

def exEndsong : List EndsongRow :=
  [exE10, exE11, exE12, exE13, exE14, exE15, exE16, exE17, exE18,
   exE20, exE21, exE22, exE23]

/-- Operator script: picks index 1 for record 14, answers unsure elsewhere. -/
def exOp : Nat → Str := fun i => if i = 14 then S "1" else S "u"

/-- Operator script giving a malformed answer for record 14. -/
def exOpBad : Nat → Str := fun i => if i = 14 then S "oops" else S "u"

/-- Oracle script: accepts a candidate for (TO, AO), rejects for (TR, AR). -/
def exOrc : Option Str × Option Str → OracleOutcome := fun k =>
  if k = (some (S "TO"), some (S "AO")) then
    .accept (S "AlbO") (S "https://open.spotify.com/track/ZZZ99?si=1")
  else if k = (some (S "TR"), some (S "AR")) then .reject
  else .timeout

/-- A defective-platform row whose track and artist names are already
non-null (used to show nullness plays no role in pipeline entry). -/
def exC6Row : EndsongRow :=
  ⟨S "2022-01-01T10:15:32Z", S "ios", 180000, some (S "Already"), some (S "Here"),
   none, none, some 100, 30⟩

/-- History rows whose (album, uri) first occurrences make the enrichment
query return a pair that is not the most recent one: pair A occurs at ts
1 and 3, pair B at ts 2, in rowid order A(1), B(2), A(3). -/
def exC8a1 : EndsongRow :=
  ⟨S "2021-01-01T00:00:00Z", S "android", 1000, some (S "T"), some (S "A"),
   some (S "AlbA"), some (S "spotify:track:uA"), none, 40⟩
def exC8b : EndsongRow :=
  ⟨S "2021-02-01T00:00:00Z", S "android", 1000, some (S "T"), some (S "A"),
   some (S "AlbB"), some (S "spotify:track:uB"), none, 41⟩
def exC8a2 : EndsongRow :=
  ⟨S "2021-03-01T00:00:00Z", S "android", 1000, some (S "T"), some (S "A"),
   some (S "AlbA"), some (S "spotify:track:uA"), none, 42⟩

def exC8Endsong : List EndsongRow := [exC8a1, exC8b, exC8a2]

/-- Stable insertion of whole rows by descending `ts`. -/
def insertRowTsDesc (r : EndsongRow) : List EndsongRow → List EndsongRow
  | [] => [r]
  | s :: ss => if lexLe s.ts r.ts then r :: s :: ss else s :: insertRowTsDesc r ss

def sortRowTsDesc (l : List EndsongRow) : List EndsongRow :=
  l.foldr insertRowTsDesc []

/-- The enrichment selection as the spec words it (§4.5), for comparison
with `enrichLookup`: look up the primary rows matching the names, order
them by timestamp descending, and take the most recent row whose album
and uri are both non-null. -/
def specMostRecentNonNull (endsong : List EndsongRow) (tn an : Option Str) :
    Option (Str × Str) :=
  match sortRowTsDesc (endsong.filter (fun e =>
      sqlEqO e.track_name tn ∧ sqlEqO e.artist_name an ∧
      e.album_name.isSome ∧ e.track_uri.isSome)) with
  | [] => none
  | e :: _ =>
    match e.album_name, e.track_uri with
    | some a, some u => some (a, u)
    | _, _ => none

/-- A reconciled row carrying the reserved sentinel names (deleted by the
exporter on line 300). -/
def sentinelNamed (r : EndsongRow) : Prop :=
  r.track_name = some sentinelTrack ∧ r.artist_name = some sentinelArtist

instance (r : EndsongRow) : Decidable (sentinelNamed r) := by
  rw [sentinelNamed]; infer_instance

/-- Data hypothesis for the idempotence theorem: on the loaded tables,
the LIKE minute-prefix test of line 174 agrees with the exact minute-key
equality of line 149 (true of well-formed ISO timestamps, where the only
case-insensitive character is the `T` separator). -/
def tsConsistent (endsong : List EndsongRow) (history : List HistoryRow) : Prop :=
  ∀ e ∈ endsong, ∀ h ∈ history,
    (likePrefix (tsLikeKey h.endTime) e.ts = true ↔ minuteKey e.ts = h.endTime)

instance (endsong : List EndsongRow) (history : List HistoryRow) :
    Decidable (tsConsistent endsong history) := by
  rw [tsConsistent]; infer_instance

/-- The row the fallback pass would insert for a pending entry — the
branch structure of lines 189-213 — which depends only on the loaded
tables and the operator answer, never on `endsong_modified`. -/
def fallbackRow (endsong : List EndsongRow) (history : List HistoryRow)
    (op : Nat → Str) (entry : Nat) : Option EndsongRow :=
  match endsong.find? (fun x => x.id == entry) with
  | none => none
  | some e =>
    match fallbackMatches history e with
    | [] => none
    | m0 :: mrest =>
      let options := firstDedup (m0 :: mrest)
      if 1 < options.length then
        let x := op entry
        if x = ['u'] ∨ x = ['U'] then none
        else
          match parseInt x with
          | none => none
          | some k =>
            match pythonGet options k with
            | none => none
            | some chosen => some (resolveWith e chosen.2 chosen.1)
      else some (resolveWith e m0.2 m0.1)

/-- Pointwise effect of the enrichment pass on one reconciled row (the
pass is a fold of by-id updates; over duplicate-free ids it acts as this
map). -/
def enrichFun (endsong : List EndsongRow) (r : EndsongRow) : EndsongRow :=
  if r.album_name = none ∨ r.track_uri = none then
    match enrichLookup endsong r.track_name r.artist_name with
    | none => r
    | some du => { r with album_name := du.1, track_uri := du.2 }
  else r

/-- One by-id update of the enrichment pass, seen pointwise on a row. -/
def enrichStepFun (endsong : List EndsongRow) (t r : EndsongRow) : EndsongRow :=
  match enrichLookup endsong t.track_name t.artist_name with
  | none => r
  | some du => if r.id = t.id then { r with album_name := du.1, track_uri := du.2 } else r

/-- The whole enrichment fold, seen pointwise on a row. -/
def enrichFoldFun (endsong : List EndsongRow) (ts : List EndsongRow)
    (r : EndsongRow) : EndsongRow :=
  ts.foldl (fun r t => enrichStepFun endsong t r) r

/-- One oracle consultation, seen pointwise on a row: a row matching an
accepted key by SQL name equality receives the album and clipboard URI. -/
def oracleStepFun (orc : Option Str × Option Str → OracleOutcome)
    (kv : (Option Str × Option Str) × Nat) (r : EndsongRow) : EndsongRow :=
  match orc kv.1 with
  | .timeout => r
  | .reject => r
  | .accept album clip =>
    if sqlEqO r.track_name kv.1.1 ∧ sqlEqO r.artist_name kv.1.2 then
      { r with album_name := some album, track_uri := some (spotifyUriOf clip) }
    else r

/-- Pointwise effect of the oracle loop on one reconciled row, given the
queued keys (the loop is a fold of by-name updates, i.e. of maps). -/
def oracleFun (orc : Option Str × Option Str → OracleOutcome)
    (keys : List ((Option Str × Option Str) × Nat)) (r : EndsongRow) : EndsongRow :=
  keys.foldl (fun r kv => oracleStepFun orc kv r) r

/-- Check a predicate on the state of a completed run (false on abort). -/
def runOkCheck (res : Except String PassState) (p : PassState → Bool) : Bool :=
  match res with
  | .ok st => p st
  | .error _ => false

/-- The state produced by the example run's pre-export stages. -/
def exStagesSt : PassState :=
  match runStages exEndsong exHistory exOp exOrc [] with
  | .ok st => st
  | .error _ => PassState.initial []

/-- The exported state of a first full run over the example data. -/
def exPipeSt : PassState :=
  match runPipeline exEndsong exHistory exOp exOrc [] with
  | .ok st => st
  | .error _ => PassState.initial []

/-- The exported state of a second full run, replayed on the snapshot the
first run produced. -/
def exPipeSt2 : PassState :=
  match runPipeline exEndsong exHistory exOp exOrc exPipeSt.modified with
  | .ok st => st
  | .error _ => PassState.initial []

/-! ### Basic lemmas -/

theorem mem_insertNat {b n : Nat} {l : List Nat} :
    b ∈ insertNat n l ↔ b = n ∨ b ∈ l := by
  induction l with
  | nil => simp [insertNat]
  | cons m ms ih =>
    by_cases h : n ≤ m
    · simp [insertNat, h]
    · simp only [insertNat, if_neg h, List.mem_cons, ih]
      tauto

theorem sorted_insertNat {n : Nat} {l : List Nat} (h : l.Sorted (· ≤ ·)) :
    (insertNat n l).Sorted (· ≤ ·) := by
  induction l with
  | nil => simp [insertNat]
  | cons m ms ih =>
    rw [List.sorted_cons] at h
    by_cases hnm : n ≤ m
    · rw [insertNat, if_pos hnm]
      refine List.sorted_cons.mpr ⟨?_, List.sorted_cons.mpr h⟩
      intro b hb
      rcases List.mem_cons.mp hb with rfl | hb'
      · exact hnm
      · exact Nat.le_trans hnm (h.1 b hb')
    · rw [insertNat, if_neg hnm]
      refine List.sorted_cons.mpr ⟨?_, ih h.2⟩
      intro b hb
      rcases mem_insertNat.mp hb with rfl | hb'
      · exact Nat.le_of_not_le hnm
      · exact h.1 b hb'

theorem sorted_sortNat (l : List Nat) : (sortNat l).Sorted (· ≤ ·) := by
  induction l with
  | nil => simp [sortNat]
  | cons a l ih => exact sorted_insertNat ih

theorem mem_setAddList_self (s : List (List Nat)) (t : List Nat) :
    t ∈ setAddList s t := by
  by_cases h : t ∈ s
  · simp [setAddList, h]
  · simp [setAddList, h]

/-! ### C1: the exact-key matcher -/

/-- C1: for a defective primary record, the exact-key matcher truncates
the timestamp to minute precision and queries secondary records with that
end-timestamp and the record's duration (conjunct 1); zero results add
the record to the unmatched set (conjunct 2); exactly one result resolves
it, copying track and artist from the match (conjunct 3); two or more
results record the collision as the sorted set of matched secondary ids
(conjunct 4); registering an already-known cluster is a no-op and the
cluster set stays duplicate-free, so a collision shared by several
primary records is processed once (conjuncts 5 and 6). -/
theorem claimC1 (history : List HistoryRow) (r : EndsongRow) (st : PassState) :
    (∀ h, h ∈ exactMatches history r ↔
        h ∈ history ∧ h.endTime = minuteKey r.ts ∧ h.msPlayed = r.ms_played)
    ∧ (exactMatches history r = [] →
        initialStep history st r = { st with noneIds := setAddNat st.noneIds r.id })
    ∧ (∀ m, exactMatches history r = [m] →
        modifiedHas st.modified r.id = false →
        initialStep history st r =
          { st with
            modified := st.modified ++ [resolveWith r m.trackName m.artistName],
            updated := st.updated + 1 })
    ∧ (2 ≤ (exactMatches history r).length →
        initialStep history st r =
          { st with multiple := setAddList st.multiple (sortNat ((exactMatches history r).map (fun h => h.id))) }
        ∧ (sortNat ((exactMatches history r).map (fun h => h.id))).Sorted (· ≤ ·)
        ∧ sortNat ((exactMatches history r).map (fun h => h.id)) ∈
            (initialStep history st r).multiple)
    ∧ (∀ (s : List (List Nat)) (t : List Nat), t ∈ s → setAddList s t = s)
    ∧ (∀ (s : List (List Nat)) (t : List Nat), s.Nodup → (setAddList s t).Nodup) := by
  refine ⟨?_, ?_, ?_, ?_, ?_, ?_⟩
  · intro h; simp [exactMatches, List.mem_filter]
  · intro he; simp [initialStep, he]
  · intro m hm hmod; simp [initialStep, hm, hmod]
  · intro hlen
    obtain ⟨a, b, t, habt⟩ : ∃ a b t, exactMatches history r = a :: b :: t := by
      match hx : exactMatches history r with
      | [] => rw [hx] at hlen; simp at hlen
      | [m] => rw [hx] at hlen; simp at hlen
      | a :: b :: t => exact ⟨a, b, t, rfl⟩
    rw [habt]
    have hstep : initialStep history st r =
        { st with multiple := setAddList st.multiple (sortNat ((a :: b :: t).map (fun h => h.id))) } := by
      simp [initialStep, habt]
    exact ⟨hstep, sorted_sortNat _, by rw [hstep]; exact mem_setAddList_self _ _⟩
  · intro s t ht; simp [setAddList, ht]
  · intro s t hnd
    by_cases h : t ∈ s
    · simpa [setAddList, h] using hnd
    · simp [setAddList, h, List.nodup_append, hnd]

theorem claimC1_witness :
    exactMatches exHistory exE10 = [exH1] ∧
    modifiedHas (PassState.initial []).modified exE10.id = false ∧
    initialStep exHistory (PassState.initial []) exE10 =
      { PassState.initial [] with
        modified := (PassState.initial []).modified ++
          [resolveWith exE10 exH1.trackName exH1.artistName],
        updated := (PassState.initial []).updated + 1 } :=
  ⟨by decide, by decide,
    (claimC1 exHistory exE10 (PassState.initial [])).2.2.1 exH1
      (by decide) (by decide)⟩

theorem mem_insertById {b r : HistoryRow} {l : List HistoryRow} :
    b ∈ insertById r l ↔ b = r ∨ b ∈ l := by
  induction l with
  | nil => simp [insertById]
  | cons m ms ih =>
    by_cases h : r.id ≤ m.id
    · simp [insertById, h]
    · simp only [insertById, if_neg h, List.mem_cons, ih]
      tauto

theorem mem_sortById {b : HistoryRow} {l : List HistoryRow} :
    b ∈ sortById l ↔ b ∈ l := by
  induction l with
  | nil => simp [sortById]
  | cons a l ih =>
    show b ∈ insertById a (sortById l) ↔ _
    simp [mem_insertById, ih]

theorem sorted_insertById {r : HistoryRow} {l : List HistoryRow}
    (h : l.Sorted (fun a b => a.id ≤ b.id)) :
    (insertById r l).Sorted (fun a b => a.id ≤ b.id) := by
  induction l with
  | nil => simp [insertById]
  | cons m ms ih =>
    rw [List.sorted_cons] at h
    by_cases hrm : r.id ≤ m.id
    · rw [insertById, if_pos hrm]
      refine List.sorted_cons.mpr ⟨?_, List.sorted_cons.mpr h⟩
      intro b hb
      rcases List.mem_cons.mp hb with rfl | hb'
      · exact hrm
      · exact Nat.le_trans hrm (h.1 b hb')
    · rw [insertById, if_neg hrm]
      refine List.sorted_cons.mpr ⟨?_, ih h.2⟩
      intro b hb
      rcases mem_insertById.mp hb with rfl | hb'
      · exact Nat.le_of_not_le hrm
      · exact h.1 b hb'

theorem sorted_sortById (l : List HistoryRow) :
    (sortById l).Sorted (fun a b => a.id ≤ b.id) := by
  induction l with
  | nil => simp [sortById]
  | cons a l ih => exact sorted_insertById ih

theorem otLe_total (a b : Option Int) : otLe a b = true ∨ otLe b a = true := by
  match a, b with
  | none, _ => left; rfl
  | some x, none => right; rfl
  | some x, some y =>
    simp only [otLe, decide_eq_true_eq]
    omega

theorem otLe_trans {a b c : Option Int} (h1 : otLe a b = true) (h2 : otLe b c = true) :
    otLe a c = true := by
  match a, b, c with
  | none, _, _ => rfl
  | some x, none, _ => simp [otLe] at h1
  | some x, some y, none => simp [otLe] at h2
  | some x, some y, some z =>
    simp only [otLe, decide_eq_true_eq] at *
    omega

theorem mem_insertByOT {b r : EndsongRow} {l : List EndsongRow} :
    b ∈ insertByOT r l ↔ b = r ∨ b ∈ l := by
  induction l with
  | nil => simp [insertByOT]
  | cons m ms ih =>
    by_cases h : otLe r.offline_timestamp m.offline_timestamp = true
    · simp [insertByOT, h]
    · simp only [insertByOT, if_neg h, List.mem_cons, ih]
      tauto

theorem mem_sortByOT {b : EndsongRow} {l : List EndsongRow} :
    b ∈ sortByOT l ↔ b ∈ l := by
  induction l with
  | nil => simp [sortByOT]
  | cons a l ih =>
    show b ∈ insertByOT a (sortByOT l) ↔ _
    simp [mem_insertByOT, ih]

theorem sorted_insertByOT {r : EndsongRow} {l : List EndsongRow}
    (h : l.Sorted (fun a b => otLe a.offline_timestamp b.offline_timestamp = true)) :
    (insertByOT r l).Sorted (fun a b => otLe a.offline_timestamp b.offline_timestamp = true) := by
  induction l with
  | nil => simp [insertByOT]
  | cons m ms ih =>
    rw [List.sorted_cons] at h
    by_cases hrm : otLe r.offline_timestamp m.offline_timestamp = true
    · rw [insertByOT, if_pos hrm]
      refine List.sorted_cons.mpr ⟨?_, List.sorted_cons.mpr h⟩
      intro b hb
      rcases List.mem_cons.mp hb with rfl | hb'
      · exact hrm
      · exact otLe_trans hrm (h.1 b hb')
    · rw [insertByOT, if_neg hrm]
      refine List.sorted_cons.mpr ⟨?_, ih h.2⟩
      intro b hb
      rcases mem_insertByOT.mp hb with heq | hb'
      · rw [heq]
        rcases otLe_total r.offline_timestamp m.offline_timestamp with h' | h'
        · exact absurd h' hrm
        · exact h'
      · exact h.1 b hb'

theorem sorted_sortByOT (l : List EndsongRow) :
    (sortByOT l).Sorted (fun a b => otLe a.offline_timestamp b.offline_timestamp = true) := by
  induction l with
  | nil => simp [sortByOT]
  | cons a l ih => exact sorted_insertByOT ih

theorem resolveWith_id (r : EndsongRow) (t a : Option Str) :
    (resolveWith r t a).id = r.id := rfl

theorem modifiedHas_eq_false {m : List EndsongRow} {i : Nat} :
    modifiedHas m i = false ↔ ∀ r ∈ m, r.id ≠ i := by
  simp [modifiedHas, List.any_eq_true]

theorem modifiedHas_append (m m' : List EndsongRow) (i : Nat) :
    modifiedHas (m ++ m') i = (modifiedHas m i || modifiedHas m' i) := by
  simp [modifiedHas, List.any_append]

theorem zip_map_snd {α β : Type} (l1 : List α) (l2 : List β) :
    (List.zip l1 l2).map Prod.snd = l2.take l1.length := by
  induction l1 generalizing l2 with
  | nil => simp
  | cons a l1 ih =>
    match l2 with
    | [] => simp
    | b :: l2 => simp [List.zip_cons_cons, ih]

/-- Folding the cluster's guarded inserts over pairs whose endsong ids are
distinct and not yet reconciled appends one resolution per pair. -/
theorem resolvePairs_fresh (pairs : List (HistoryRow × EndsongRow)) (st : PassState)
    (hnd : (pairs.map (fun p => p.2.id)).Nodup)
    (hfresh : ∀ p ∈ pairs, modifiedHas st.modified p.2.id = false) :
    resolvePairs pairs st =
      { st with
        modified := st.modified ++ pairs.map (fun p => resolveWith p.2 p.1.trackName p.1.artistName),
        updated := st.updated + pairs.length } := by
  induction pairs generalizing st with
  | nil => simp [resolvePairs]
  | cons p ps ih =>
    have hp := hfresh p (List.mem_cons_self _ _)
    rw [List.map_cons, List.nodup_cons] at hnd
    rw [resolvePairs, List.foldl_cons, hp]
    simp only [Bool.false_eq_true, if_false]
    rw [show (ps.foldl _ _) = resolvePairs ps _ from rfl, ih _ hnd.2]
    · simp [List.append_assoc, Nat.add_assoc, Nat.add_comm 1 ps.length]
    · intro q hq
      rw [modifiedHas_append, hfresh q (List.mem_cons_of_mem p hq)]
      simp only [Bool.false_or]
      rw [modifiedHas_eq_false]
      intro r hr
      rcases List.mem_singleton.mp hr with rfl
      rw [resolveWith_id]
      intro hid
      exact hnd.1 (hid ▸ List.mem_map_of_mem (fun p => p.2.id) hq)

/-! ### C2: the ambiguity resolver -/

/-- C2: for an ambiguous cluster, the resolver re-fetches the cluster's
secondary records ordered by sequence id ascending (conjuncts 1 and 3)
and the primary candidates on the defective platform with the cluster's
duration and minute-prefixed timestamp, ordered by offline_timestamp
ascending (conjuncts 2 and 4); it pairs the two lists positionally,
resolving exactly the common prefix — one insert per pair, track and
artist copied from the paired secondary record (conjunct 5, with the pair
count `min` of the two lengths, conjunct 6) — while surplus candidates
beyond the common prefix receive no resolution (conjunct 7). -/
theorem claimC2 (endsong : List EndsongRow) (history : List HistoryRow)
    (st : PassState) (entry : List Nat) (h0 : HistoryRow) (hrest : List HistoryRow)
    (hcl : clusterHistory history entry = h0 :: hrest)
    (hnd : ((clusterCands endsong h0).map (fun e => e.id)).Nodup)
    (hfresh : ∀ e ∈ clusterCands endsong h0, modifiedHas st.modified e.id = false) :
    (clusterHistory history entry).Sorted (fun a b => a.id ≤ b.id)
    ∧ (clusterCands endsong h0).Sorted
        (fun a b => otLe a.offline_timestamp b.offline_timestamp = true)
    ∧ (∀ h, h ∈ clusterHistory history entry ↔ h ∈ history ∧ h.id ∈ entry)
    ∧ (∀ e, e ∈ clusterCands endsong h0 ↔ e ∈ endsong ∧ e.platform = iosStr ∧
          e.ms_played = h0.msPlayed ∧ likePrefix (tsLikeKey h0.endTime) e.ts = true)
    ∧ clusterStep endsong history st entry =
        .ok { st with modified := st.modified ++ ((h0 :: hrest).zip (clusterCands endsong h0)).map (fun p => resolveWith p.2 p.1.trackName p.1.artistName), updated := st.updated + ((h0 :: hrest).zip (clusterCands endsong h0)).length }
    ∧ ((h0 :: hrest).zip (clusterCands endsong h0)).length =
        min (h0 :: hrest).length (clusterCands endsong h0).length
    ∧ (∀ e ∈ (clusterCands endsong h0).drop (h0 :: hrest).length,
        e.id ∉ (st.modified ++ ((h0 :: hrest).zip (clusterCands endsong h0)).map (fun p => resolveWith p.2 p.1.trackName p.1.artistName)).map (fun x => x.id)) := by
  have hsnd : ((h0 :: hrest).zip (clusterCands endsong h0)).map (fun p => p.2) =
      (clusterCands endsong h0).take (h0 :: hrest).length := zip_map_snd _ _
  have hndz : (((h0 :: hrest).zip (clusterCands endsong h0)).map (fun p => p.2.id)).Nodup := by
    have h1 : ((h0 :: hrest).zip (clusterCands endsong h0)).map (fun p => p.2.id) =
        ((clusterCands endsong h0).take (h0 :: hrest).length).map (fun e => e.id) := by
      rw [← hsnd, List.map_map]; rfl
    rw [h1]
    exact hnd.sublist (List.Sublist.map _ (List.take_sublist _ _))
  refine ⟨?_, ?_, ?_, ?_, ?_, ?_, ?_⟩
  · rw [clusterHistory]; exact sorted_sortById _
  · rw [clusterCands]; exact sorted_sortByOT _
  · intro h; simp [clusterHistory, mem_sortById, List.mem_filter]
  · intro e; simp [clusterCands, mem_sortByOT, List.mem_filter]
  · have hfr : ∀ p ∈ (h0 :: hrest).zip (clusterCands endsong h0),
        modifiedHas st.modified p.2.id = false :=
      fun p hp => hfresh p.2 (List.of_mem_zip hp).2
    simp only [clusterStep, hcl]
    rw [resolvePairs_fresh _ _ hndz hfr]
  · exact List.length_zip _ _
  · intro e he
    have hemem : e ∈ clusterCands endsong h0 := by
      have := List.drop_subset (h0 :: hrest).length (clusterCands endsong h0)
      exact this he
    rw [List.map_append]
    intro hmem
    rcases List.mem_append.mp hmem with hin | hin
    · have := modifiedHas_eq_false.mp (hfresh e hemem)
      rcases List.mem_map.mp hin with ⟨r, hr, hrid⟩
      exact this r hr hrid
    · rcases List.mem_map.mp hin with ⟨x, hx, hxid⟩
      rcases List.mem_map.mp hx with ⟨p, hp, rfl⟩
      simp only [resolveWith_id] at hxid
      have hsplit := hnd
      rw [show (clusterCands endsong h0) =
          (clusterCands endsong h0).take (h0 :: hrest).length ++
          (clusterCands endsong h0).drop (h0 :: hrest).length from
          (List.take_append_drop _ _).symm, List.map_append] at hsplit
      have hdisj := (List.nodup_append.mp hsplit).2.2
      have hpin : p.2.id ∈ ((clusterCands endsong h0).take (h0 :: hrest).length).map (fun e => e.id) := by
        rw [← hsnd]
        exact List.mem_map_of_mem _ (List.mem_map_of_mem (fun p => p.2) hp)
      have hein : e.id ∈ ((clusterCands endsong h0).drop (h0 :: hrest).length).map (fun e => e.id) :=
        List.mem_map_of_mem _ he
      rw [hxid] at hpin
      exact hdisj hpin hein

theorem claimC2_witness :
    clusterHistory exHistory [2, 3] = [exH2, exH3] ∧
    ((clusterCands exEndsong exH2).map (fun e => e.id)).Nodup ∧
    (∀ e ∈ clusterCands exEndsong exH2,
      modifiedHas (PassState.initial []).modified e.id = false) ∧
    clusterStep exEndsong exHistory (PassState.initial []) [2, 3] =
      .ok { PassState.initial [] with modified := (PassState.initial []).modified ++ ([exH2, exH3].zip (clusterCands exEndsong exH2)).map (fun p => resolveWith p.2 p.1.trackName p.1.artistName), updated := (PassState.initial []).updated + ([exH2, exH3].zip (clusterCands exEndsong exH2)).length } :=
  ⟨by decide, by decide, by decide,
    (claimC2 exEndsong exHistory (PassState.initial []) [2, 3] exH2 [exH3]
      (by decide) (by decide) (by decide)).2.2.2.2.1⟩

/-! ### C4: the duration-fallback resolver -/

theorem foldlDedup_mem {α : Type} [DecidableEq α] (l : List α) (acc : List α) (b : α) :
    b ∈ l.foldl (fun acc x => if x ∈ acc then acc else acc ++ [x]) acc ↔
      b ∈ acc ∨ b ∈ l := by
  induction l generalizing acc with
  | nil => simp
  | cons x xs ih =>
    rw [List.foldl_cons, ih]
    by_cases hx : x ∈ acc
    · simp only [if_pos hx, List.mem_cons]
      constructor
      · tauto
      · rintro (h | rfl | h)
        · exact Or.inl h
        · exact Or.inl hx
        · exact Or.inr h
    · simp only [if_neg hx, List.mem_append, List.mem_singleton, List.mem_cons]
      tauto

theorem mem_firstDedup {α : Type} [DecidableEq α] {b : α} {l : List α} :
    b ∈ firstDedup l ↔ b ∈ l := by
  rw [firstDedup, foldlDedup_mem]
  simp

theorem foldlDedup_nodup {α : Type} [DecidableEq α] (l : List α) (acc : List α)
    (hacc : acc.Nodup) :
    (l.foldl (fun acc x => if x ∈ acc then acc else acc ++ [x]) acc).Nodup := by
  induction l generalizing acc with
  | nil => simpa
  | cons x xs ih =>
    rw [List.foldl_cons]
    by_cases hx : x ∈ acc
    · rw [if_pos hx]; exact ih acc hacc
    · rw [if_neg hx]
      exact ih _ (by simp [List.nodup_append, hacc, hx])

theorem nodup_firstDedup {α : Type} [DecidableEq α] (l : List α) :
    (firstDedup l).Nodup := by
  rw [firstDedup]
  exact foldlDedup_nodup l [] List.nodup_nil

/-- C4: for a still-unmatched primary record, the fallback resolver
queries all secondary records with equal duration (conjunct 1, the
candidate pairs); zero matches add the record to the Missing set
(conjunct 2); exactly one distinct (artist, title) pair auto-resolves to
that pair (conjunct 3); two or more distinct pairs prompt the operator
with the record's timestamp and the de-duplicated candidate list, where
the unsure signal adds the record to the Unsure set without resolving it
(conjunct 4) and an index answer resolves to the displayed candidate at
that index (conjunct 5); the displayed list holds each candidate pair of
the matches exactly once (conjuncts 6 and 7). -/
theorem claimC4 (endsong : List EndsongRow) (history : List HistoryRow)
    (op : Nat → Str) (st : PassState) (entry : Nat) (e : EndsongRow)
    (hfind : endsong.find? (fun x => x.id == entry) = some e)
    (hmod : modifiedHas st.modified entry = false) :
    (∀ p, p ∈ fallbackMatches history e ↔
        ∃ h ∈ history, h.msPlayed = e.ms_played ∧ p = (h.artistName, h.trackName))
    ∧ (fallbackMatches history e = [] →
        noMatchStep endsong history op st entry =
          .ok { st with missing := setAddNat st.missing entry })
    ∧ (∀ m0 rest, fallbackMatches history e = m0 :: rest →
        firstDedup (m0 :: rest) = [m0] →
        noMatchStep endsong history op st entry =
          .ok { st with modified := st.modified ++ [resolveWith e m0.2 m0.1], updated := st.updated + 1 })
    ∧ (∀ m0 rest, fallbackMatches history e = m0 :: rest →
        1 < (firstDedup (m0 :: rest)).length →
        (op entry = ['u'] ∨ op entry = ['U']) →
        noMatchStep endsong history op st entry =
          .ok { st with unsure := setAddNat st.unsure entry, prompts := st.prompts ++ [(e.ts, firstDedup (m0 :: rest))] })
    ∧ (∀ m0 rest k chosen, fallbackMatches history e = m0 :: rest →
        1 < (firstDedup (m0 :: rest)).length →
        ¬(op entry = ['u'] ∨ op entry = ['U']) →
        parseInt (op entry) = some k →
        pythonGet (firstDedup (m0 :: rest)) k = some chosen →
        noMatchStep endsong history op st entry =
          .ok { st with modified := st.modified ++ [resolveWith e chosen.2 chosen.1], updated := st.updated + 1, prompts := st.prompts ++ [(e.ts, firstDedup (m0 :: rest))] })
    ∧ (∀ (l : List (Option Str × Option Str)) (q : Option Str × Option Str),
        q ∈ firstDedup l ↔ q ∈ l)
    ∧ (∀ l : List (Option Str × Option Str), (firstDedup l).Nodup) := by
  refine ⟨?_, ?_, ?_, ?_, ?_, ?_, ?_⟩
  · intro p
    simp only [fallbackMatches, List.mem_map, List.mem_filter, decide_eq_true_eq]
    constructor
    · rintro ⟨h, ⟨hh, hms⟩, rfl⟩; exact ⟨h, hh, hms, rfl⟩
    · rintro ⟨h, hh, hms, rfl⟩; exact ⟨h, ⟨hh, hms⟩, rfl⟩
  · intro hz
    simp [noMatchStep, hmod, hfind, hz]
  · intro m0 rest hm hd
    simp [noMatchStep, hmod, hfind, hm, hd]
  · intro m0 rest hm hlen hu
    simp only [noMatchStep, hmod, Bool.false_eq_true, if_false, hfind, hm]
    rw [if_pos hlen, if_pos hu]
  · intro m0 rest k chosen hm hlen hu hk hget
    simp only [noMatchStep, hmod, Bool.false_eq_true, if_false, hfind, hm]
    rw [if_pos hlen, if_neg hu, hk]
    simp only [hget]
  · intro l q; exact mem_firstDedup
  · intro l; exact nodup_firstDedup l

theorem claimC4_witness :
    exEndsong.find? (fun x => x.id == 14) = some exE14 ∧
    modifiedHas (PassState.initial []).modified 14 = false ∧
    fallbackMatches exHistory exE14 =
      (some (S "AF1"), some (S "TF1")) :: [(some (S "AF2"), some (S "TF2")), (some (S "AF1"), some (S "TF1"))] ∧
    1 < (firstDedup ((some (S "AF1"), some (S "TF1")) :: [(some (S "AF2"), some (S "TF2")), (some (S "AF1"), some (S "TF1"))])).length ∧
    ¬(exOp 14 = ['u'] ∨ exOp 14 = ['U']) ∧
    parseInt (exOp 14) = some 1 ∧
    pythonGet (firstDedup ((some (S "AF1"), some (S "TF1")) :: [(some (S "AF2"), some (S "TF2")), (some (S "AF1"), some (S "TF1"))])) 1 =
      some (some (S "AF2"), some (S "TF2")) ∧
    noMatchStep exEndsong exHistory exOp (PassState.initial []) 14 =
      .ok { PassState.initial [] with modified := (PassState.initial []).modified ++ [resolveWith exE14 (some (S "TF2")) (some (S "AF2"))], updated := (PassState.initial []).updated + 1, prompts := (PassState.initial []).prompts ++ [(exE14.ts, firstDedup ((some (S "AF1"), some (S "TF1")) :: [(some (S "AF2"), some (S "TF2")), (some (S "AF1"), some (S "TF1"))]))] } :=
  ⟨by decide, by decide, by decide, by decide, by decide, by decide, by decide,
    (claimC4 exEndsong exHistory exOp (PassState.initial []) 14 exE14
        (by decide) (by decide)).2.2.2.2.1
      (some (S "AF1"), some (S "TF1"))
      [(some (S "AF2"), some (S "TF2")), (some (S "AF1"), some (S "TF1"))]
      1 (some (S "AF2"), some (S "TF2"))
      (by decide) (by decide) (by decide) (by decide) (by decide)⟩

/-! ### Pass-level bookkeeping lemmas -/

theorem mem_setAddNat {i n : Nat} {s : List Nat} :
    i ∈ setAddNat s n ↔ i ∈ s ∨ i = n := by
  by_cases h : n ∈ s
  · simp only [setAddNat, if_pos h]
    constructor
    · tauto
    · rintro (hi | rfl)
      · exact hi
      · exact h
  · simp [setAddNat, if_neg h]

theorem find?_id {endsong : List EndsongRow} {entry : Nat} {e : EndsongRow}
    (h : endsong.find? (fun x => x.id == entry) = some e) : e.id = entry := by
  have := List.find?_some h
  simpa using this

theorem except_bind_ok {α β : Type} {x : Except String α} {f : α → Except String β}
    {b : β} (h : (x >>= f) = .ok b) : ∃ a, x = .ok a ∧ f a = .ok b := by
  match x with
  | .ok a => exact ⟨a, rfl, h⟩
  | .error m => exact absurd h (by simp [Bind.bind, Except.bind])

/-- The initial pass only ever appends to `modified` and extends `noneIds`
and `multiple`; the report fields are untouched. -/
theorem initialStep_fields (history : List HistoryRow) (st : PassState) (r : EndsongRow) :
    (∃ t, (initialStep history st r).modified = st.modified ++ t)
    ∧ (initialStep history st r).missing = st.missing
    ∧ (initialStep history st r).unsure = st.unsure
    ∧ (initialStep history st r).noExtra = st.noExtra
    ∧ (initialStep history st r).skipped = st.skipped
    ∧ (initialStep history st r).prompts = st.prompts := by
  match hx : exactMatches history r with
  | [] =>
    simp only [initialStep, hx]
    exact ⟨⟨[], by simp⟩, by simp, by simp, by simp, by simp, by simp⟩
  | [m] =>
    by_cases hmod : modifiedHas st.modified r.id
    · simp only [initialStep, hx, if_pos hmod]
      exact ⟨⟨[], by simp⟩, by simp, by simp, by simp, by simp, by simp⟩
    · simp only [initialStep, hx, if_neg hmod]
      exact ⟨⟨_, rfl⟩, by simp, by simp, by simp, by simp, by simp⟩
  | a :: b :: t =>
    simp only [initialStep, hx]
    exact ⟨⟨[], by simp⟩, by simp, by simp, by simp, by simp, by simp⟩

theorem foldl_initialStep_fields (history : List HistoryRow) (l : List EndsongRow)
    (st : PassState) :
    (∃ t, (l.foldl (initialStep history) st).modified = st.modified ++ t)
    ∧ (l.foldl (initialStep history) st).missing = st.missing
    ∧ (l.foldl (initialStep history) st).unsure = st.unsure
    ∧ (l.foldl (initialStep history) st).noExtra = st.noExtra
    ∧ (l.foldl (initialStep history) st).skipped = st.skipped
    ∧ (l.foldl (initialStep history) st).prompts = st.prompts := by
  induction l generalizing st with
  | nil => exact ⟨⟨[], by simp⟩, rfl, rfl, rfl, rfl, rfl⟩
  | cons r rs ih =>
    rw [List.foldl_cons]
    obtain ⟨⟨t1, ht1⟩, hm1, hu1, hx1, hs1, hp1⟩ := initialStep_fields history st r
    obtain ⟨⟨t2, ht2⟩, hm2, hu2, hx2, hs2, hp2⟩ := ih (initialStep history st r)
    exact ⟨⟨t1 ++ t2, by rw [ht2, ht1, List.append_assoc]⟩,
      hm2.trans hm1, hu2.trans hu1, hx2.trans hx1, hs2.trans hs1, hp2.trans hp1⟩

theorem initialPass_fields (endsong : List EndsongRow) (history : List HistoryRow)
    (st : PassState) :
    (∃ t, (initialPass endsong history st).modified = st.modified ++ t)
    ∧ (initialPass endsong history st).missing = st.missing
    ∧ (initialPass endsong history st).unsure = st.unsure := by
  obtain ⟨h1, h2, h3, _⟩ := foldl_initialStep_fields history
    (endsong.filter (fun r => r.platform = iosStr)) st
  exact ⟨h1, h2, h3⟩

theorem modifiedHas_mono {m : List EndsongRow} {t : List EndsongRow} {i : Nat}
    (h : modifiedHas m i = true) : modifiedHas (m ++ t) i = true := by
  rw [modifiedHas_append, h, Bool.true_or]

/-- Membership in the `none` set after the initial pass: exactly the ids
of defective-platform rows with zero exact matches (plus whatever was
there before). -/
theorem foldl_initialStep_noneIds (history : List HistoryRow) (l : List EndsongRow)
    (st : PassState) (i : Nat) :
    i ∈ (l.foldl (initialStep history) st).noneIds ↔
      i ∈ st.noneIds ∨ ∃ r ∈ l, r.id = i ∧ exactMatches history r = [] := by
  induction l generalizing st with
  | nil => simp
  | cons r rs ih =>
    rw [List.foldl_cons, ih]
    have hstep : i ∈ (initialStep history st r).noneIds ↔
        i ∈ st.noneIds ∨ (r.id = i ∧ exactMatches history r = []) := by
      match hx : exactMatches history r with
      | [] =>
        simp only [initialStep, hx, mem_setAddNat, and_true]
        constructor
        · rintro (h | rfl)
          · exact Or.inl h
          · exact Or.inr rfl
        · rintro (h | rfl)
          · exact Or.inl h
          · exact Or.inr rfl
      | [m] =>
        by_cases hmod : modifiedHas st.modified r.id
        · simp only [initialStep, hx, if_pos hmod]; simp [hx]
        · simp only [initialStep, hx, if_neg hmod]; simp [hx]
      | a :: b :: t => simp only [initialStep, hx]; simp [hx]
    rw [hstep]
    simp only [List.mem_cons]
    constructor
    · rintro ((h | ⟨rfl, hz⟩) | ⟨r', hr', hz⟩)
      · exact Or.inl h
      · exact Or.inr ⟨r, Or.inl rfl, rfl, hz⟩
      · exact Or.inr ⟨r', Or.inr hr', hz⟩
    · rintro (h | ⟨r', hr' | hr', hz⟩)
      · exact Or.inl (Or.inl h)
      · exact Or.inl (Or.inr (by rw [hr'] at hz; exact hz))
      · exact Or.inr ⟨r', hr', hz⟩

theorem initialPass_noneIds (endsong : List EndsongRow) (history : List HistoryRow)
    (st : PassState) (i : Nat) :
    i ∈ (initialPass endsong history st).noneIds ↔
      i ∈ st.noneIds ∨
        ∃ r ∈ endsong, r.platform = iosStr ∧ r.id = i ∧ exactMatches history r = [] := by
  rw [initialPass, foldl_initialStep_noneIds]
  simp only [List.mem_filter, decide_eq_true_eq]
  constructor
  · rintro (h | ⟨r, ⟨hr, hp⟩, hz⟩)
    · exact Or.inl h
    · exact Or.inr ⟨r, hr, hp, hz⟩
  · rintro (h | ⟨r, hr, hp, hz⟩)
    · exact Or.inl h
    · exact Or.inr ⟨r, ⟨hr, hp⟩, hz⟩

/-- A defective-platform row with exactly one exact match always ends up
reconciled by the initial pass. -/
theorem foldl_initialStep_covers (history : List HistoryRow) (l : List EndsongRow)
    (st : PassState) (r : EndsongRow) (m : HistoryRow) (hr : r ∈ l)
    (hm : exactMatches history r = [m]) :
    modifiedHas (l.foldl (initialStep history) st).modified r.id = true := by
  induction l generalizing st with
  | nil => cases hr
  | cons a rs ih =>
    rw [List.foldl_cons]
    rcases List.mem_cons.mp hr with rfl | hr'
    · have hcov : modifiedHas (initialStep history st r).modified r.id = true := by
        by_cases hmod : modifiedHas st.modified r.id
        · simp only [initialStep, hm, if_pos hmod]; exact hmod
        · simp only [initialStep, hm, if_neg hmod]
          simp [modifiedHas_append, modifiedHas, resolveWith_id]
      obtain ⟨t, ht⟩ := (foldl_initialStep_fields history rs (initialStep history st r)).1
      rw [ht]
      exact modifiedHas_mono hcov
    · exact ih _ hr'

theorem initialPass_covers (endsong : List EndsongRow) (history : List HistoryRow)
    (st : PassState) (r : EndsongRow) (m : HistoryRow) (hr : r ∈ endsong)
    (hios : r.platform = iosStr) (hm : exactMatches history r = [m]) :
    modifiedHas (initialPass endsong history st).modified r.id = true := by
  rw [initialPass]
  exact foldl_initialStep_covers history _ st r m
    (List.mem_filter.mpr ⟨hr, by simp [hios]⟩) hm

/-- The cluster pass only appends to `modified`; every other tracked
field is untouched. -/
theorem resolvePairs_fields (pairs : List (HistoryRow × EndsongRow)) (st : PassState) :
    (∃ t, (resolvePairs pairs st).modified = st.modified ++ t)
    ∧ (resolvePairs pairs st).noneIds = st.noneIds
    ∧ (resolvePairs pairs st).missing = st.missing
    ∧ (resolvePairs pairs st).unsure = st.unsure
    ∧ (resolvePairs pairs st).multiple = st.multiple
    ∧ (resolvePairs pairs st).noExtra = st.noExtra
    ∧ (resolvePairs pairs st).skipped = st.skipped := by
  induction pairs generalizing st with
  | nil => exact ⟨⟨[], by simp [resolvePairs]⟩, rfl, rfl, rfl, rfl, rfl, rfl⟩
  | cons p ps ih =>
    rw [resolvePairs, List.foldl_cons]
    set st1 := if modifiedHas st.modified p.2.id then st
      else { st with
             modified := st.modified ++ [resolveWith p.2 p.1.trackName p.1.artistName],
             updated := st.updated + 1 } with hst1
    have hfields : (∃ t, st1.modified = st.modified ++ t)
        ∧ st1.noneIds = st.noneIds ∧ st1.missing = st.missing ∧ st1.unsure = st.unsure
        ∧ st1.multiple = st.multiple ∧ st1.noExtra = st.noExtra ∧ st1.skipped = st.skipped := by
      rw [hst1]
      by_cases hmod : modifiedHas st.modified p.2.id
      · rw [if_pos hmod]; exact ⟨⟨[], by simp⟩, rfl, rfl, rfl, rfl, rfl, rfl⟩
      · rw [if_neg hmod]; exact ⟨⟨_, rfl⟩, rfl, rfl, rfl, rfl, rfl, rfl⟩
    obtain ⟨⟨t1, ht1⟩, h2, h3, h4, h5, h6, h7⟩ := hfields
    obtain ⟨⟨t2, ht2⟩, g2, g3, g4, g5, g6, g7⟩ := ih st1
    rw [show (ps.foldl _ st1) = resolvePairs ps st1 from rfl] at *
    exact ⟨⟨t1 ++ t2, by rw [ht2, ht1, List.append_assoc]⟩,
      g2.trans h2, g3.trans h3, g4.trans h4, g5.trans h5, g6.trans h6, g7.trans h7⟩

theorem clusterStep_ok_fields {endsong : List EndsongRow} {history : List HistoryRow}
    {st : PassState} {entry : List Nat} {st₁ : PassState}
    (h : clusterStep endsong history st entry = .ok st₁) :
    (∃ t, st₁.modified = st.modified ++ t)
    ∧ st₁.noneIds = st.noneIds ∧ st₁.missing = st.missing ∧ st₁.unsure = st.unsure
    ∧ st₁.multiple = st.multiple ∧ st₁.noExtra = st.noExtra ∧ st₁.skipped = st.skipped := by
  rw [clusterStep] at h
  match hch : clusterHistory history entry with
  | [] => rw [hch] at h; cases h
  | h0 :: hrest =>
    rw [hch] at h
    have := resolvePairs_fields ((h0 :: hrest).zip (clusterCands endsong h0)) st
    simp only [Except.ok.injEq] at h
    rw [← h]
    exact this

theorem foldlM_clusterStep_fields {endsong : List EndsongRow} {history : List HistoryRow}
    (l : List (List Nat)) (st st' : PassState)
    (h : l.foldlM (clusterStep endsong history) st = .ok st') :
    (∃ t, st'.modified = st.modified ++ t)
    ∧ st'.noneIds = st.noneIds ∧ st'.missing = st.missing ∧ st'.unsure = st.unsure
    ∧ st'.noExtra = st.noExtra ∧ st'.skipped = st.skipped := by
  induction l generalizing st with
  | nil =>
    simp only [List.foldlM_nil, pure, Except.pure, Except.ok.injEq] at h
    rw [← h]
    exact ⟨⟨[], by simp⟩, rfl, rfl, rfl, rfl, rfl⟩
  | cons a as ih =>
    rw [List.foldlM_cons] at h
    obtain ⟨st₁, hstep, hrest⟩ := except_bind_ok h
    obtain ⟨⟨t1, ht1⟩, h2, h3, h4, _, h6, h7⟩ := clusterStep_ok_fields hstep
    obtain ⟨⟨t2, ht2⟩, g2, g3, g4, g6, g7⟩ := ih st₁ hrest
    exact ⟨⟨t1 ++ t2, by rw [ht2, ht1, List.append_assoc]⟩,
      g2.trans h2, g3.trans h3, g4.trans h4, g6.trans h6, g7.trans h7⟩

theorem clusterPass_ok_fields {endsong : List EndsongRow} {history : List HistoryRow}
    {st st' : PassState} (h : clusterPass endsong history st = .ok st') :
    (∃ t, st'.modified = st.modified ++ t)
    ∧ st'.noneIds = st.noneIds ∧ st'.missing = st.missing ∧ st'.unsure = st.unsure
    ∧ st'.noExtra = st.noExtra ∧ st'.skipped = st.skipped :=
  foldlM_clusterStep_fields st.multiple st st' h

/-- Outcome analysis of one fallback step that did not abort: the record
was either already reconciled, or sent to Missing, or sent to Unsure, or
reconciled now — and nothing else changes. -/
theorem noMatchStep_ok_cases {endsong : List EndsongRow} {history : List HistoryRow}
    {op : Nat → Str} {st : PassState} {a : Nat} {st₁ : PassState}
    (h : noMatchStep endsong history op st a = .ok st₁) :
    st₁.noneIds = st.noneIds ∧ st₁.multiple = st.multiple
    ∧ st₁.noExtra = st.noExtra ∧ st₁.skipped = st.skipped
    ∧ ((modifiedHas st.modified a = true ∧ st₁.modified = st.modified ∧
          st₁.missing = st.missing ∧ st₁.unsure = st.unsure)
      ∨ (modifiedHas st.modified a = false ∧ st₁.modified = st.modified ∧
          st₁.missing = setAddNat st.missing a ∧ st₁.unsure = st.unsure)
      ∨ (modifiedHas st.modified a = false ∧ st₁.modified = st.modified ∧
          st₁.unsure = setAddNat st.unsure a ∧ st₁.missing = st.missing)
      ∨ (modifiedHas st.modified a = false ∧
          (∃ x, st₁.modified = st.modified ++ [x] ∧ x.id = a) ∧
          st₁.missing = st.missing ∧ st₁.unsure = st.unsure)) := by
  by_cases hmod : modifiedHas st.modified a
  · rw [noMatchStep, if_pos hmod] at h
    simp only [Except.ok.injEq] at h
    rw [← h]
    exact ⟨rfl, rfl, rfl, rfl, Or.inl ⟨hmod, rfl, rfl, rfl⟩⟩
  · rw [noMatchStep, if_neg hmod] at h
    rw [Bool.not_eq_true] at hmod
    match hfe : endsong.find? (fun x => x.id == a) with
    | none => rw [hfe] at h; cases h
    | some e =>
      rw [hfe] at h
      simp only at h
      have he : e.id = a := find?_id hfe
      match hfm : fallbackMatches history e with
      | [] =>
        rw [hfm] at h
        simp only [Except.ok.injEq] at h
        rw [← h]
        exact ⟨rfl, rfl, rfl, rfl, Or.inr (Or.inl ⟨hmod, rfl, rfl, rfl⟩)⟩
      | m0 :: rest =>
        rw [hfm] at h
        simp only at h
        by_cases hlen : 1 < (firstDedup (m0 :: rest)).length
        · rw [if_pos hlen] at h
          by_cases hu : op a = ['u'] ∨ op a = ['U']
          · rw [if_pos hu] at h
            simp only [Except.ok.injEq] at h
            rw [← h]
            exact ⟨rfl, rfl, rfl, rfl, Or.inr (Or.inr (Or.inl ⟨hmod, rfl, rfl, rfl⟩))⟩
          · rw [if_neg hu] at h
            match hk : parseInt (op a) with
            | none => rw [hk] at h; cases h
            | some k =>
              rw [hk] at h
              simp only at h
              match hg : pythonGet (firstDedup (m0 :: rest)) k with
              | none => rw [hg] at h; cases h
              | some chosen =>
                rw [hg] at h
                simp only [Except.ok.injEq] at h
                rw [← h]
                exact ⟨rfl, rfl, rfl, rfl,
                  Or.inr (Or.inr (Or.inr ⟨hmod, ⟨_, rfl, (resolveWith_id _ _ _).trans he⟩, rfl, rfl⟩))⟩
        · rw [if_neg hlen] at h
          simp only [Except.ok.injEq] at h
          rw [← h]
          exact ⟨rfl, rfl, rfl, rfl,
            Or.inr (Or.inr (Or.inr ⟨hmod, ⟨_, rfl, (resolveWith_id _ _ _).trans he⟩, rfl, rfl⟩))⟩

/-- Facts about a completed fallback fold: untouched ids keep their
status, reconciliations and reports only grow, and every processed entry
ends reconciled, Missing or Unsure. -/
theorem foldlM_noMatch_facts {endsong : List EndsongRow} {history : List HistoryRow}
    {op : Nat → Str} (l : List Nat) (st st' : PassState)
    (h : l.foldlM (noMatchStep endsong history op) st = .ok st') :
    st'.noneIds = st.noneIds ∧ st'.multiple = st.multiple
    ∧ st'.noExtra = st.noExtra ∧ st'.skipped = st.skipped
    ∧ (∀ i, i ∉ l → (modifiedHas st'.modified i = modifiedHas st.modified i
        ∧ (i ∈ st'.missing ↔ i ∈ st.missing) ∧ (i ∈ st'.unsure ↔ i ∈ st.unsure)))
    ∧ (∀ i, modifiedHas st.modified i = true → modifiedHas st'.modified i = true)
    ∧ (∀ i, i ∈ st.missing → i ∈ st'.missing)
    ∧ (∀ i, i ∈ st.unsure → i ∈ st'.unsure)
    ∧ (∀ i ∈ l, modifiedHas st'.modified i = true ∨ i ∈ st'.missing ∨ i ∈ st'.unsure) := by
  induction l generalizing st with
  | nil =>
    simp only [List.foldlM_nil, pure, Except.pure, Except.ok.injEq] at h
    rw [← h]
    exact ⟨rfl, rfl, rfl, rfl, fun i _ => ⟨rfl, Iff.rfl, Iff.rfl⟩,
      fun i hi => hi, fun i hi => hi, fun i hi => hi, fun i hi => absurd hi (by simp)⟩
  | cons a as ih =>
    rw [List.foldlM_cons] at h
    obtain ⟨st₁, hstep, hrest⟩ := except_bind_ok h
    obtain ⟨hn1, hm1, hx1, hs1, hcases⟩ := noMatchStep_ok_cases hstep
    obtain ⟨hn2, hm2, hx2, hs2, huntouched, hmono, hmiss, huns, hcover⟩ := ih st₁ hrest
    have hstepUntouched : ∀ i, i ≠ a →
        (modifiedHas st₁.modified i = modifiedHas st.modified i
          ∧ (i ∈ st₁.missing ↔ i ∈ st.missing) ∧ (i ∈ st₁.unsure ↔ i ∈ st.unsure)) := by
      intro i hia
      rcases hcases with ⟨_, hmo, hmi, hun⟩ | ⟨_, hmo, hmi, hun⟩ | ⟨_, hmo, hun, hmi⟩ |
        ⟨_, ⟨x, hmo, hx⟩, hmi, hun⟩
      · rw [hmo, hmi, hun]; exact ⟨rfl, Iff.rfl, Iff.rfl⟩
      · rw [hmo, hmi, hun]
        refine ⟨rfl, ?_, Iff.rfl⟩
        rw [mem_setAddNat]
        exact ⟨fun hh => hh.resolve_right hia, Or.inl⟩
      · rw [hmo, hmi, hun]
        refine ⟨rfl, Iff.rfl, ?_⟩
        rw [mem_setAddNat]
        exact ⟨fun hh => hh.resolve_right hia, Or.inl⟩
      · rw [hmo, hmi, hun]
        refine ⟨?_, Iff.rfl, Iff.rfl⟩
        rw [modifiedHas_append]
        have : modifiedHas [x] i = false := by
          simp [modifiedHas, hx, hia, Ne.symm hia]
        rw [this, Bool.or_false]
    have hstepMono : ∀ i, modifiedHas st.modified i = true →
        modifiedHas st₁.modified i = true := by
      intro i hi
      rcases hcases with ⟨_, hmo, _, _⟩ | ⟨_, hmo, _, _⟩ | ⟨_, hmo, _, _⟩ |
        ⟨_, ⟨x, hmo, _⟩, _, _⟩
      · rw [hmo]; exact hi
      · rw [hmo]; exact hi
      · rw [hmo]; exact hi
      · rw [hmo]; exact modifiedHas_mono hi
    have hstepMiss : ∀ i, i ∈ st.missing → i ∈ st₁.missing := by
      intro i hi
      rcases hcases with ⟨_, _, hmi, _⟩ | ⟨_, _, hmi, _⟩ | ⟨_, _, _, hmi⟩ | ⟨_, _, hmi, _⟩ <;>
        rw [hmi]
      · exact hi
      · exact mem_setAddNat.mpr (Or.inl hi)
      · exact hi
      · exact hi
    have hstepUns : ∀ i, i ∈ st.unsure → i ∈ st₁.unsure := by
      intro i hi
      rcases hcases with ⟨_, _, _, hun⟩ | ⟨_, _, _, hun⟩ | ⟨_, _, hun, _⟩ | ⟨_, _, _, hun⟩ <;>
        rw [hun]
      · exact hi
      · exact hi
      · exact mem_setAddNat.mpr (Or.inl hi)
      · exact hi
    refine ⟨hn2.trans hn1, hm2.trans hm1, hx2.trans hx1, hs2.trans hs1, ?_, ?_, ?_, ?_, ?_⟩
    · intro i hi
      have hia : i ≠ a := fun hh => hi (hh ▸ List.mem_cons_self a as)
      have hias : i ∉ as := fun hh => hi (List.mem_cons_of_mem a hh)
      obtain ⟨u1, u2, u3⟩ := huntouched i hias
      obtain ⟨v1, v2, v3⟩ := hstepUntouched i hia
      exact ⟨u1.trans v1, u2.trans v2, u3.trans v3⟩
    · intro i hi; exact hmono i (hstepMono i hi)
    · intro i hi; exact hmiss i (hstepMiss i hi)
    · intro i hi; exact huns i (hstepUns i hi)
    · intro i hi
      rcases List.mem_cons.mp hi with rfl | hias
      · rcases hcases with ⟨hg, hmo, _, _⟩ | ⟨_, _, hmi, _⟩ | ⟨_, _, hun, _⟩ |
          ⟨_, ⟨x, hmo, hx⟩, _, _⟩
        · exact Or.inl (hmono i (by rw [hmo]; exact hg))
        · exact Or.inr (Or.inl (hmiss i (by rw [hmi]; exact mem_setAddNat.mpr (Or.inr rfl))))
        · exact Or.inr (Or.inr (huns i (by rw [hun]; exact mem_setAddNat.mpr (Or.inr rfl))))
        · refine Or.inl (hmono i ?_)
          rw [hmo, modifiedHas_append]
          simp [modifiedHas, hx]
      · exact hcover i hias

/-- Fallback exclusivity: starting from duplicate-free pending entries
none of which is already reported, a record sent to Missing or Unsure has
no reconciled row and is in only one report. -/
theorem foldlM_noMatch_exclusive {endsong : List EndsongRow} {history : List HistoryRow}
    {op : Nat → Str} (l : List Nat) (st st' : PassState)
    (h : l.foldlM (noMatchStep endsong history op) st = .ok st')
    (hl : l.Nodup)
    (hpre : ∀ i ∈ l, i ∉ st.missing ∧ i ∉ st.unsure)
    (hinv : ∀ i, (i ∈ st.missing → modifiedHas st.modified i = false ∧ i ∉ st.unsure)
      ∧ (i ∈ st.unsure → modifiedHas st.modified i = false ∧ i ∉ st.missing)) :
    ∀ i, (i ∈ st'.missing → modifiedHas st'.modified i = false ∧ i ∉ st'.unsure)
      ∧ (i ∈ st'.unsure → modifiedHas st'.modified i = false ∧ i ∉ st'.missing) := by
  induction l generalizing st with
  | nil =>
    simp only [List.foldlM_nil, pure, Except.pure, Except.ok.injEq] at h
    rw [← h]
    exact hinv
  | cons a as ih =>
    rw [List.foldlM_cons] at h
    obtain ⟨st₁, hstep, hrest⟩ := except_bind_ok h
    rw [List.nodup_cons] at hl
    have hpa := hpre a (List.mem_cons_self a as)
    obtain ⟨_, _, _, _, hcases⟩ := noMatchStep_ok_cases hstep
    refine ih st₁ hrest hl.2 ?_ ?_
    · intro i hi
      have hia : i ≠ a := fun hh => hl.1 (hh ▸ hi)
      obtain ⟨hi1, hi2⟩ := hpre i (List.mem_cons_of_mem a hi)
      rcases hcases with ⟨_, _, hmi, hun⟩ | ⟨_, _, hmi, hun⟩ | ⟨_, _, hun, hmi⟩ |
        ⟨_, _, hmi, hun⟩
      · rw [hmi, hun]; exact ⟨hi1, hi2⟩
      · rw [hmi, hun]
        exact ⟨fun hh => (mem_setAddNat.mp hh).elim hi1 hia, hi2⟩
      · rw [hmi, hun]
        exact ⟨hi1, fun hh => (mem_setAddNat.mp hh).elim hi2 hia⟩
      · rw [hmi, hun]; exact ⟨hi1, hi2⟩
    · intro i
      rcases hcases with ⟨_, hmo, hmi, hun⟩ | ⟨hg, hmo, hmi, hun⟩ | ⟨hg, hmo, hun, hmi⟩ |
        ⟨_, ⟨x, hmo, hx⟩, hmi, hun⟩
      · rw [hmo, hmi, hun]; exact hinv i
      · rw [hmo, hmi, hun]
        constructor
        · intro hh
          rcases mem_setAddNat.mp hh with hh' | rfl
          · exact (hinv i).1 hh'
          · exact ⟨hg, hpa.2⟩
        · intro hh
          refine ⟨((hinv i).2 hh).1, ?_⟩
          intro hc
          rcases mem_setAddNat.mp hc with hc' | rfl
          · exact ((hinv i).2 hh).2 hc'
          · exact hpa.2 hh
      · rw [hmo, hmi, hun]
        constructor
        · intro hh
          refine ⟨((hinv i).1 hh).1, ?_⟩
          intro hc
          rcases mem_setAddNat.mp hc with hc' | rfl
          · exact ((hinv i).1 hh).2 hc'
          · exact hpa.1 hh
        · intro hh
          rcases mem_setAddNat.mp hh with hh' | rfl
          · exact (hinv i).2 hh'
          · exact ⟨hg, hpa.1⟩
      · rw [hmo, hmi, hun]
        constructor
        · intro hh
          refine ⟨?_, ((hinv i).1 hh).2⟩
          rw [modifiedHas_append, ((hinv i).1 hh).1]
          have : modifiedHas [x] i = false := by
            have hia : i ≠ a := fun hc => hpa.1 (hc ▸ hh)
            simp [modifiedHas, hx, Ne.symm hia]
          rw [this]
          rfl
        · intro hh
          refine ⟨?_, ((hinv i).2 hh).2⟩
          rw [modifiedHas_append, ((hinv i).2 hh).1]
          have : modifiedHas [x] i = false := by
            have hia : i ≠ a := fun hc => hpa.2 (hc ▸ hh)
            simp [modifiedHas, hx, Ne.symm hia]
          rw [this]
          rfl

theorem modifiedHas_map {m : List EndsongRow} {f : EndsongRow → EndsongRow}
    (hf : ∀ r, (f r).id = r.id) (j : Nat) :
    modifiedHas (m.map f) j = modifiedHas m j := by
  rw [modifiedHas, modifiedHas, List.any_map]
  congr 1
  funext r
  simp [Function.comp, hf]

/-- The enrichment pass rewrites album/uri values in place: row ids, the
reports and the pending sets are all unchanged. -/
theorem enrichStep_fields (endsong : List EndsongRow) (st : PassState) (t : EndsongRow) :
    (∀ j, modifiedHas (enrichStep endsong st t).modified j = modifiedHas st.modified j)
    ∧ (enrichStep endsong st t).missing = st.missing
    ∧ (enrichStep endsong st t).unsure = st.unsure
    ∧ (enrichStep endsong st t).noneIds = st.noneIds := by
  match hx : enrichLookup endsong t.track_name t.artist_name with
  | none =>
    simp only [enrichStep, hx]
    exact ⟨fun j => by simp, by simp, by simp, by simp⟩
  | some du =>
    simp only [enrichStep, hx]
    refine ⟨fun j => ?_, by simp, by simp, by simp⟩
    rw [updateById]
    exact modifiedHas_map (fun r => by
      by_cases hr : r.id = t.id
      · rw [if_pos hr]
      · rw [if_neg hr]) j

theorem enrichPass_fields (endsong : List EndsongRow) (st : PassState) :
    (∀ j, modifiedHas (enrichPass endsong st).modified j = modifiedHas st.modified j)
    ∧ (enrichPass endsong st).missing = st.missing
    ∧ (enrichPass endsong st).unsure = st.unsure
    ∧ (enrichPass endsong st).noneIds = st.noneIds := by
  rw [enrichPass]
  generalize enrichTargets st.modified = ts
  induction ts generalizing st with
  | nil => exact ⟨fun j => rfl, rfl, rfl, rfl⟩
  | cons t ts ih =>
    rw [List.foldl_cons]
    obtain ⟨h1, h2, h3, h4⟩ := enrichStep_fields endsong st t
    obtain ⟨g1, g2, g3, g4⟩ := ih (enrichStep endsong st t)
    exact ⟨fun j => (g1 j).trans (h1 j), g2.trans h2, g3.trans h3, g4.trans h4⟩

theorem delSentinel_ok_fields {st st₁ : PassState} (h : delSentinel st = .ok st₁) :
    st₁.modified = st.modified ∧ st₁.missing = st.missing ∧ st₁.unsure = st.unsure := by
  rw [delSentinel] at h
  by_cases hs : st.noExtra.any (fun p => p.1 = sentinelKey)
  · rw [if_pos hs] at h
    simp only [Except.ok.injEq] at h
    rw [← h]
    exact ⟨rfl, rfl, rfl⟩
  · rw [if_neg hs] at h; cases h

theorem oracleStep_fields (orc : Option Str × Option Str → OracleOutcome)
    (st : PassState) (kv : (Option Str × Option Str) × Nat) :
    (∀ j, modifiedHas (oracleStep orc st kv).modified j = modifiedHas st.modified j)
    ∧ (oracleStep orc st kv).missing = st.missing
    ∧ (oracleStep orc st kv).unsure = st.unsure := by
  rw [oracleStep]
  match orc kv.1 with
  | .timeout => exact ⟨fun j => rfl, rfl, rfl⟩
  | .reject => exact ⟨fun j => rfl, rfl, rfl⟩
  | .accept album clip =>
    refine ⟨fun j => ?_, rfl, rfl⟩
    exact modifiedHas_map (fun r => by
      by_cases hr : sqlEqO r.track_name kv.1.1 ∧ sqlEqO r.artist_name kv.1.2 <;>
        simp [hr]) j

theorem oraclePass_fields (orc : Option Str × Option Str → OracleOutcome)
    (st : PassState) :
    (∀ j, modifiedHas (oraclePass orc st).modified j = modifiedHas st.modified j)
    ∧ (oraclePass orc st).missing = st.missing
    ∧ (oraclePass orc st).unsure = st.unsure := by
  rw [oraclePass]
  generalize st.noExtra = kvs
  induction kvs generalizing st with
  | nil => exact ⟨fun j => rfl, rfl, rfl⟩
  | cons kv kvs ih =>
    rw [List.foldl_cons]
    obtain ⟨h1, h2, h3⟩ := oracleStep_fields orc st kv
    obtain ⟨g1, g2, g3⟩ := ih (oracleStep orc st kv)
    exact ⟨fun j => (g1 j).trans (h1 j), g2.trans h2, g3.trans h3⟩

theorem fixup_preserves_modifiedHas (m : List EndsongRow) (j : Nat) :
    modifiedHas (fixupPass2 (fixupPass1 m)) j = modifiedHas m j := by
  rw [fixupPass2, fixupPass1]
  rw [modifiedHas_map (fun r => by rw [fixupWrap]; cases r.track_uri; simp; simp; split; rfl; rfl)]
  rw [modifiedHas_map (fun r => by rw [fixupHttps]; cases r.track_uri; simp; simp; split; rfl; rfl)]

/-- Decompose a completed run into its stage results. -/
theorem runStages_ok_decomp {endsong : List EndsongRow} {history : List HistoryRow}
    {op : Nat → Str} {orc : Option Str × Option Str → OracleOutcome}
    {modified0 : List EndsongRow} {st : PassState}
    (h : runStages endsong history op orc modified0 = .ok st) :
    ∃ st₂ st₃ st₅,
      clusterPass endsong history (initialPass endsong history (PassState.initial modified0)) = .ok st₂
      ∧ nonePass endsong history op st₂ = .ok st₃
      ∧ delSentinel (enrichPass endsong st₃) = .ok st₅
      ∧ st = { oraclePass orc st₅ with
               modified := fixupPass2 (fixupPass1 (oraclePass orc st₅).modified) } := by
  rw [runStages] at h
  obtain ⟨st₂, h2, h'⟩ := except_bind_ok h
  obtain ⟨st₃, h3, h''⟩ := except_bind_ok h'
  obtain ⟨st₅, h5, h'''⟩ := except_bind_ok h''
  simp only [pure, Except.pure, Except.ok.injEq] at h'''
  exact ⟨st₂, st₃, st₅, h2, h3, h5, h'''.symm⟩

theorem nodup_setAddNat {s : List Nat} {n : Nat} (h : s.Nodup) :
    (setAddNat s n).Nodup := by
  by_cases hn : n ∈ s
  · rw [setAddNat, if_pos hn]; exact h
  · rw [setAddNat, if_neg hn]
    simp [List.nodup_append, h, hn]

theorem foldl_initialStep_noneIds_nodup (history : List HistoryRow)
    (l : List EndsongRow) (st : PassState) (h : st.noneIds.Nodup) :
    ((l.foldl (initialStep history) st).noneIds).Nodup := by
  induction l generalizing st with
  | nil => exact h
  | cons r rs ih =>
    rw [List.foldl_cons]
    refine ih _ ?_
    match hx : exactMatches history r with
    | [] =>
      simp only [initialStep, hx]
      exact nodup_setAddNat h
    | [m] =>
      by_cases hmod : modifiedHas st.modified r.id
      · simp only [initialStep, hx, if_pos hmod]; exact h
      · simp only [initialStep, hx, if_neg hmod]; exact h
    | a :: b :: t =>
      simp only [initialStep, hx]; exact h

theorem sqlEqO_some {a : Option Str} {s : Str} :
    sqlEqO a (some s) = true ↔ a = some s := by
  match a with
  | none => simp [sqlEqO]
  | some x => simp [sqlEqO]

/-! ### C5: coverage of defective records -/

/-- C5 counterexample: in a completed run, the surplus member of an
ambiguous cluster (endsong id 13: three defective rows collide with only
two secondary records) ends with no reconciled record and appears in
neither the Missing nor the Unsure set — it is silently dropped. -/
theorem claimC5_cex :
    exE13 ∈ exEndsong ∧ exE13.platform = iosStr ∧
    runOkCheck (runPipeline exEndsong exHistory exOp exOrc [])
      (fun st => !(modifiedHas st.modified 13) && !(st.missing.contains 13) &&
        !(st.unsure.contains 13)) = true := by
  decide

/-- C5 (amended): after the resolver stages of a completed run, every
defective-platform record with at most one exact match ends reconciled,
in Missing, or in Unsure (conjunct 1), a record in Missing or Unsure has
no reconciled row and is in only that one report (conjuncts 2 and 3) —
records in collision clusters carry no such guarantee (the
counterexample); the exporter then deletes exactly the rows whose
resolved names are the sentinel pair (conjuncts 4 and 5). -/
theorem claimC5 (endsong : List EndsongRow) (history : List HistoryRow)
    (op : Nat → Str) (orc : Option Str × Option Str → OracleOutcome)
    (modified0 : List EndsongRow) (st : PassState) (r : EndsongRow)
    (hrun : runStages endsong history op orc modified0 = .ok st)
    (hr : r ∈ endsong) (hios : r.platform = iosStr)
    (hm : (exactMatches history r).length ≤ 1) :
    (modifiedHas st.modified r.id = true ∨ r.id ∈ st.missing ∨ r.id ∈ st.unsure)
    ∧ (∀ i, i ∈ st.missing → modifiedHas st.modified i = false ∧ i ∉ st.unsure)
    ∧ (∀ i, i ∈ st.unsure → modifiedHas st.modified i = false ∧ i ∉ st.missing)
    ∧ (∀ x, x ∈ exportDelete st.modified ↔ x ∈ st.modified ∧
        ¬(x.track_name = some sentinelTrack ∧ x.artist_name = some sentinelArtist))
    ∧ runPipeline endsong history op orc modified0 =
        .ok { st with modified := exportDelete st.modified } := by
  obtain ⟨st₂, st₃, st₅, h2, h3, h5, hst⟩ := runStages_ok_decomp hrun
  rw [nonePass] at h3
  have hcf := clusterPass_ok_fields h2
  have hnf := foldlM_noMatch_facts st₂.noneIds st₂ st₃ h3
  have hef := enrichPass_fields endsong st₃
  have hdf := delSentinel_ok_fields h5
  have hof := oraclePass_fields orc st₅
  have hstMiss : st.missing = st₃.missing := by
    rw [hst]
    show (oraclePass orc st₅).missing = st₃.missing
    rw [hof.2.1, hdf.2.1, hef.2.1]
  have hstUns : st.unsure = st₃.unsure := by
    rw [hst]
    show (oraclePass orc st₅).unsure = st₃.unsure
    rw [hof.2.2, hdf.2.2, hef.2.2.1]
  have hstMod : ∀ j, modifiedHas st.modified j = modifiedHas st₃.modified j := by
    intro j
    rw [hst]
    show modifiedHas (fixupPass2 (fixupPass1 (oraclePass orc st₅).modified)) j = _
    rw [fixup_preserves_modifiedHas, hof.1 j, hdf.1, hef.1 j]
  have hn21 : st₂.noneIds =
      (initialPass endsong history (PassState.initial modified0)).noneIds := hcf.2.1
  have hmiss2 : st₂.missing = [] := by
    rw [hcf.2.2.1, (initialPass_fields endsong history (PassState.initial modified0)).2.1]
    rfl
  have huns2 : st₂.unsure = [] := by
    rw [hcf.2.2.2.1, (initialPass_fields endsong history (PassState.initial modified0)).2.2]
    rfl
  refine ⟨?_, ?_, ?_, ?_, ?_⟩
  · match hx : exactMatches history r with
    | [] =>
      have hmem : r.id ∈ st₂.noneIds := by
        rw [hn21, initialPass_noneIds]
        exact Or.inr ⟨r, hr, hios, rfl, hx⟩
      rcases hnf.2.2.2.2.2.2.2.2 r.id hmem with hc | hc | hc
      · exact Or.inl ((hstMod r.id).trans hc)
      · exact Or.inr (Or.inl (hstMiss ▸ hc))
      · exact Or.inr (Or.inr (hstUns ▸ hc))
    | [m] =>
      have h1 : modifiedHas (initialPass endsong history (PassState.initial modified0)).modified r.id = true :=
        initialPass_covers endsong history _ r m hr hios hx
      obtain ⟨t, ht⟩ := hcf.1
      have h2' : modifiedHas st₂.modified r.id = true := by
        rw [ht]; exact modifiedHas_mono h1
      exact Or.inl ((hstMod r.id).trans (hnf.2.2.2.2.2.1 r.id h2'))
    | a :: b :: ts => rw [hx] at hm; simp at hm
  · intro i hi
    have hexc := foldlM_noMatch_exclusive st₂.noneIds st₂ st₃ h3
      (by
        rw [hn21]
        exact foldl_initialStep_noneIds_nodup history _ _ (by simp [PassState.initial]))
      (by intro j _; rw [hmiss2, huns2]; simp)
      (by intro j; rw [hmiss2, huns2]; simp)
    obtain ⟨hm1, hm2⟩ := (hexc i).1 (hstMiss ▸ hi)
    exact ⟨(hstMod i).trans hm1, fun hc => hm2 (hstUns ▸ hc)⟩
  · intro i hi
    have hexc := foldlM_noMatch_exclusive st₂.noneIds st₂ st₃ h3
      (by
        rw [hn21]
        exact foldl_initialStep_noneIds_nodup history _ _ (by simp [PassState.initial]))
      (by intro j _; rw [hmiss2, huns2]; simp)
      (by intro j; rw [hmiss2, huns2]; simp)
    obtain ⟨hm1, hm2⟩ := (hexc i).2 (hstUns ▸ hi)
    exact ⟨(hstMod i).trans hm1, fun hc => hm2 (hstMiss ▸ hc)⟩
  · intro x
    rw [exportDelete, List.mem_filter]
    constructor
    · rintro ⟨hx1, hx2⟩
      refine ⟨hx1, ?_⟩
      intro ⟨ht, ha⟩
      simp only [decide_eq_true_eq, Decidable.not_not] at hx2
      exact hx2 ⟨by rw [ht]; exact sqlEqO_some.mpr rfl, by rw [ha]; exact sqlEqO_some.mpr rfl⟩
    · rintro ⟨hx1, hx2⟩
      refine ⟨hx1, ?_⟩
      simp only [decide_eq_true_eq, Decidable.not_not]
      intro ⟨ht, ha⟩
      exact hx2 ⟨sqlEqO_some.mp ht, sqlEqO_some.mp ha⟩
  · rw [runPipeline, hrun]
    rfl

theorem claimC5_witness :
    runStages exEndsong exHistory exOp exOrc [] = .ok exStagesSt ∧
    exE10 ∈ exEndsong ∧ exE10.platform = iosStr ∧
    (exactMatches exHistory exE10).length ≤ 1 ∧
    (modifiedHas exStagesSt.modified exE10.id = true ∨
      exE10.id ∈ exStagesSt.missing ∨ exE10.id ∈ exStagesSt.unsure) :=
  ⟨by decide, by decide, by decide, by decide,
    (claimC5 exEndsong exHistory exOp exOrc [] exStagesSt exE10
      (by decide) (by decide) (by decide) (by decide)).1⟩

/-! ### C7: surplus cluster members and the fallback resolver -/

/-- C7 counterexample: the surplus cluster member (endsong id 13) never
becomes eligible for the duration fallback — it is not in the `none` set
the fallback iterates over (which holds only zero-match ids), and after a
complete run it is neither reconciled nor reported. -/
theorem claimC7_cex :
    2 ≤ (exactMatches exHistory exE13).length ∧
    exE13 ∈ exEndsong ∧ exE13.platform = iosStr ∧
    exE13.id ∉ (initialPass exEndsong exHistory (PassState.initial [])).noneIds ∧
    runOkCheck (runPipeline exEndsong exHistory exOp exOrc [])
      (fun st => !(modifiedHas st.modified 13) && !(st.missing.contains 13) &&
        !(st.unsure.contains 13)) = true := by
  decide

/-- C7 (amended): the fallback resolver never revisits the surplus of an
ambiguous cluster. The `none` set built by the initial pass holds exactly
the ids of defective-platform rows with zero exact matches (conjunct 1),
so a collision member is never in it (conjunct 2); the cluster pass does
not extend it (conjunct 3); and the fallback pass leaves every id outside
the `none` set untouched — unreconciled and unreported (conjunct 4). -/
theorem claimC7 (endsong : List EndsongRow) (history : List HistoryRow)
    (op : Nat → Str) (modified0 : List EndsongRow) :
    (∀ i, i ∈ (initialPass endsong history (PassState.initial modified0)).noneIds ↔
        ∃ r ∈ endsong, r.platform = iosStr ∧ r.id = i ∧ exactMatches history r = [])
    ∧ (∀ r ∈ endsong, (endsong.map (fun x => x.id)).Nodup → r.platform = iosStr →
        2 ≤ (exactMatches history r).length →
        r.id ∉ (initialPass endsong history (PassState.initial modified0)).noneIds)
    ∧ (∀ st st', clusterPass endsong history st = .ok st' → st'.noneIds = st.noneIds)
    ∧ (∀ st st' i, nonePass endsong history op st = .ok st' → i ∉ st.noneIds →
        modifiedHas st'.modified i = modifiedHas st.modified i
        ∧ (i ∈ st'.missing ↔ i ∈ st.missing) ∧ (i ∈ st'.unsure ↔ i ∈ st.unsure)) := by
  have hchar : ∀ i, i ∈ (initialPass endsong history (PassState.initial modified0)).noneIds ↔
      ∃ r ∈ endsong, r.platform = iosStr ∧ r.id = i ∧ exactMatches history r = [] := by
    intro i
    rw [initialPass_noneIds]
    simp [PassState.initial]
  refine ⟨hchar, ?_, ?_, ?_⟩
  · intro r hr hnd hios hlen hmem
    obtain ⟨r', hr', _, hid, hz⟩ := (hchar r.id).mp hmem
    have : r' = r := List.inj_on_of_nodup_map hnd hr' hr hid
    rw [this] at hz
    rw [hz] at hlen
    simp at hlen
  · intro st st' h
    exact (clusterPass_ok_fields h).2.1
  · intro st st' i h hni
    rw [nonePass] at h
    exact (foldlM_noMatch_facts st.noneIds st st' h).2.2.2.2.1 i hni

theorem claimC7_witness :
    exE13 ∈ exEndsong ∧ (exEndsong.map (fun x => x.id)).Nodup ∧
    exE13.platform = iosStr ∧ 2 ≤ (exactMatches exHistory exE13).length ∧
    exE13.id ∉ (initialPass exEndsong exHistory (PassState.initial [])).noneIds :=
  ⟨by decide, by decide, by decide, by decide,
    (claimC7 exEndsong exHistory exOp []).2.1 exE13 (by decide) (by decide)
      (by decide) (by decide)⟩

/-! ### C8: the enrichment pass -/

theorem insertTsDesc_ne_nil (p : (Option Str × Option Str) × Str)
    (l : List ((Option Str × Option Str) × Str)) : insertTsDesc p l ≠ [] := by
  match l with
  | [] => simp [insertTsDesc]
  | q :: qs =>
    rw [insertTsDesc]
    split
    · simp
    · simp

theorem sortTsDesc_eq_nil {l : List ((Option Str × Option Str) × Str)} :
    sortTsDesc l = [] ↔ l = [] := by
  match l with
  | [] => simp [sortTsDesc]
  | p :: ps =>
    constructor
    · intro h
      exact absurd h (insertTsDesc_ne_nil p (sortTsDesc ps))
    · intro h; cases h

theorem mem_insertTsDesc {b p : (Option Str × Option Str) × Str}
    {l : List ((Option Str × Option Str) × Str)} :
    b ∈ insertTsDesc p l ↔ b = p ∨ b ∈ l := by
  induction l with
  | nil => simp [insertTsDesc]
  | cons q qs ih =>
    by_cases h : lexLe q.2 p.2 = true
    · simp [insertTsDesc, h]
    · simp only [insertTsDesc, if_neg h, List.mem_cons, ih]
      tauto

theorem mem_sortTsDesc {b : (Option Str × Option Str) × Str}
    {l : List ((Option Str × Option Str) × Str)} :
    b ∈ sortTsDesc l ↔ b ∈ l := by
  induction l with
  | nil => simp [sortTsDesc]
  | cons p ps ih =>
    show b ∈ insertTsDesc p (sortTsDesc ps) ↔ _
    simp [mem_insertTsDesc, ih]

theorem foldl_tags_prefix (l acc : List ((Option Str × Option Str) × Str)) :
    ∃ t, l.foldl (fun acc p => if acc.any (fun q => q.1 = p.1) then acc else acc ++ [p]) acc =
      acc ++ t := by
  induction l generalizing acc with
  | nil => exact ⟨[], by simp⟩
  | cons p ps ih =>
    rw [List.foldl_cons]
    by_cases h : acc.any (fun q => q.1 = p.1)
    · rw [if_pos h]; exact ih acc
    · rw [if_neg h]
      obtain ⟨t, ht⟩ := ih (acc ++ [p])
      exact ⟨p :: t, by rw [ht, List.append_assoc]; rfl⟩

theorem firstOccTags_eq_nil {l : List ((Option Str × Option Str) × Str)} :
    firstOccTags l = [] ↔ l = [] := by
  match l with
  | [] => simp [firstOccTags]
  | p :: ps =>
    constructor
    · intro h
      rw [firstOccTags, List.foldl_cons] at h
      have hstep : (if ([] : List ((Option Str × Option Str) × Str)).any (fun q => q.1 = p.1)
          then ([] : List ((Option Str × Option Str) × Str)) else [] ++ [p]) = [p] := by simp
      rw [hstep] at h
      obtain ⟨t, ht⟩ := foldl_tags_prefix ps [p]
      rw [ht] at h
      cases h
    · intro h; cases h

theorem foldl_tags_subset {b : (Option Str × Option Str) × Str}
    (l acc : List ((Option Str × Option Str) × Str))
    (h : b ∈ l.foldl (fun acc p => if acc.any (fun q => q.1 = p.1) then acc else acc ++ [p]) acc) :
    b ∈ acc ∨ b ∈ l := by
  induction l generalizing acc with
  | nil => exact Or.inl (by simpa using h)
  | cons p ps ih =>
    rw [List.foldl_cons] at h
    by_cases hp : acc.any (fun q => q.1 = p.1)
    · rw [if_pos hp] at h
      rcases ih acc h with h' | h'
      · exact Or.inl h'
      · exact Or.inr (List.mem_cons_of_mem p h')
    · rw [if_neg hp] at h
      rcases ih (acc ++ [p]) h with h' | h'
      · rcases List.mem_append.mp h' with h'' | h''
        · exact Or.inl h''
        · exact Or.inr (List.mem_cons.mpr (Or.inl (List.mem_singleton.mp h'')))
      · exact Or.inr (List.mem_cons_of_mem p h')

theorem mem_firstOccTags {b : (Option Str × Option Str) × Str}
    {l : List ((Option Str × Option Str) × Str)} (h : b ∈ firstOccTags l) : b ∈ l := by
  rcases foldl_tags_subset l [] h with h' | h'
  · cases h'
  · exact h'

/-- C8 counterexample: with matching rows, in table order, carrying pair
A at ts 2021-01, pair B at ts 2021-02 and pair A again at ts 2021-03, the
enrichment query returns pair B — not the most recent non-null pair,
which is A (the most recent matching row): distinct pairs are keyed by
their first occurrence, not their latest. -/
theorem claimC8_cex :
    enrichLookup exC8Endsong (some (S "T")) (some (S "A")) =
      some (some (S "AlbB"), some (S "spotify:track:uB")) ∧
    specMostRecentNonNull exC8Endsong (some (S "T")) (some (S "A")) =
      some (S "AlbA", S "spotify:track:uA") ∧
    ¬(enrichLookup exC8Endsong (some (S "T")) (some (S "A")) =
      some (some (S "AlbA"), some (S "spotify:track:uA"))) := by
  decide

/-- C8 (amended): the enrichment pass targets exactly the reconciled rows
with NULL album or uri (conjunct 1); its lookup returns nothing exactly
when no primary row matches the names (conjunct 2), and otherwise fills
in the (album, uri) pair of one of the matching rows — the distinct pair
whose first occurrence in table order has the greatest timestamp, which
need not be the most recent non-null pair and may itself hold NULLs
(conjunct 3); a row with an empty lookup queues its name pair for the
oracle, a non-empty lookup updates the row in place (conjuncts 4 and 5);
the sentinel pair is then removed from the queue (conjunct 6) and the
oracle is consulted only on the keys remaining in the queue (conjunct
7). -/
theorem claimC8 (endsong : List EndsongRow) (tn an : Option Str) :
    (∀ (m : List EndsongRow) (x : EndsongRow), x ∈ enrichTargets m ↔
        x ∈ m ∧ (x.album_name = none ∨ x.track_uri = none))
    ∧ (enrichLookup endsong tn an = none ↔
        endsong.filter (fun e => sqlEqO e.track_name tn ∧ sqlEqO e.artist_name an) = [])
    ∧ (∀ p, enrichLookup endsong tn an = some p →
        ∃ e ∈ endsong, (sqlEqO e.track_name tn = true ∧ sqlEqO e.artist_name an = true)
          ∧ p = (e.album_name, e.track_uri))
    ∧ (∀ (st : PassState) (t : EndsongRow),
        enrichLookup endsong t.track_name t.artist_name = none →
        enrichStep endsong st t =
          { st with noExtra := dictInsert st.noExtra (t.track_name, t.artist_name) t.id })
    ∧ (∀ (st : PassState) (t : EndsongRow) (du : Option Str × Option Str),
        enrichLookup endsong t.track_name t.artist_name = some du →
        enrichStep endsong st t =
          { st with modified := updateById st.modified t.id (fun r => { r with album_name := du.1, track_uri := du.2 }) })
    ∧ (∀ (st st₁ : PassState), delSentinel st = .ok st₁ →
        ∀ kv, kv ∈ st₁.noExtra ↔ kv ∈ st.noExtra ∧ ¬(kv.1 = sentinelKey))
    ∧ (∀ (orc orc' : Option Str × Option Str → OracleOutcome) (st : PassState),
        (∀ kv ∈ st.noExtra, orc kv.1 = orc' kv.1) →
        oraclePass orc st = oraclePass orc' st) := by
  refine ⟨?_, ?_, ?_, ?_, ?_, ?_, ?_⟩
  · intro m x
    rw [enrichTargets, List.mem_filter]
    simp [Option.isNone_iff_eq_none]
  · rw [enrichLookup]
    match hs : sortTsDesc (firstOccTags ((endsong.filter (fun e =>
        sqlEqO e.track_name tn ∧ sqlEqO e.artist_name an)).map
          (fun e => ((e.album_name, e.track_uri), e.ts)))) with
    | [] =>
      rw [hs]
      have h2 := List.map_eq_nil_iff.mp (firstOccTags_eq_nil.mp (sortTsDesc_eq_nil.mp hs))
      exact ⟨fun _ => h2, fun _ => rfl⟩
    | p :: ps =>
      rw [hs]
      simp only [reduceCtorEq, false_iff]
      intro hc
      rw [hc] at hs
      simp [sortTsDesc, firstOccTags] at hs
  · intro p hp
    rw [enrichLookup] at hp
    match hs : sortTsDesc (firstOccTags ((endsong.filter (fun e =>
        sqlEqO e.track_name tn ∧ sqlEqO e.artist_name an)).map
          (fun e => ((e.album_name, e.track_uri), e.ts)))) with
    | [] => rw [hs] at hp; cases hp
    | q :: qs =>
      rw [hs] at hp
      simp only [Option.some.injEq] at hp
      have hq : q ∈ sortTsDesc (firstOccTags _) := hs ▸ List.mem_cons_self q qs
      have hq2 := mem_firstOccTags (mem_sortTsDesc.mp hq)
      rcases List.mem_map.mp hq2 with ⟨e, he, heq⟩
      rcases List.mem_filter.mp he with ⟨he1, he2⟩
      simp only [decide_eq_true_eq] at he2
      refine ⟨e, he1, he2, ?_⟩
      rw [← hp, ← heq]
  · intro st t hx
    simp [enrichStep, hx]
  · intro st t du hx
    simp [enrichStep, hx]
  · intro st st₁ h kv
    rw [delSentinel] at h
    by_cases hs : st.noExtra.any (fun p => p.1 = sentinelKey)
    · rw [if_pos hs] at h
      simp only [Except.ok.injEq] at h
      rw [← h]
      simp [List.mem_filter]
    · rw [if_neg hs] at h; cases h
  · intro orc orc' st hagree
    rw [oraclePass, oraclePass]
    have : ∀ (l : List ((Option Str × Option Str) × Nat)) (st0 : PassState),
        (∀ kv ∈ l, orc kv.1 = orc' kv.1) →
        l.foldl (oracleStep orc) st0 = l.foldl (oracleStep orc') st0 := by
      intro l
      induction l with
      | nil => intro st0 _; rfl
      | cons kv kvs ih =>
        intro st0 hag
        rw [List.foldl_cons, List.foldl_cons]
        have hstep : oracleStep orc st0 kv = oracleStep orc' st0 kv := by
          rw [oracleStep, oracleStep, hag kv (List.mem_cons_self kv kvs)]
        rw [hstep]
        exact ih _ (fun kv' h' => hag kv' (List.mem_cons_of_mem kv h'))
    exact this st.noExtra st hagree

theorem claimC8_witness :
    enrichLookup exC8Endsong (some (S "T")) (some (S "A")) =
      some (some (S "AlbB"), some (S "spotify:track:uB")) ∧
    (∃ e ∈ exC8Endsong,
      (sqlEqO e.track_name (some (S "T")) = true ∧ sqlEqO e.artist_name (some (S "A")) = true)
      ∧ (some (S "AlbB"), some (S "spotify:track:uB")) = (e.album_name, e.track_uri)) :=
  ⟨by decide,
    (claimC8 exC8Endsong (some (S "T")) (some (S "A"))).2.2.1
      (some (S "AlbB"), some (S "spotify:track:uB")) (by decide)⟩

/-! ### C9: per-record failures and run-aborting errors -/

/-- C9 counterexample: a single malformed operator response ("oops" for
record 14) aborts the whole run with an uncaught `ValueError` — the run
is not robust against a single unexpected operator input. -/
theorem claimC9_cex :
    runPipeline exEndsong exHistory exOpBad exOrc [] = .error "ValueError" := by
  decide

/-- C9 (amended): zero-match and operator-unsure outcomes degrade to the
Missing and Unsure reports without aborting (conjuncts 1 and 2), but the
run is not abort-free: an operator answer that is neither `u`/`U` nor a
parseable integer raises `ValueError` (conjunct 3), a parseable but
out-of-range index raises `IndexError` (conjunct 4), the unconditional
sentinel dequeue raises `KeyError` when no sentinel pair was queued
(conjunct 5), and any stage error aborts the whole run (conjunct 6). -/
theorem claimC9 (endsong : List EndsongRow) (history : List HistoryRow)
    (op : Nat → Str) (st : PassState) (entry : Nat) (e : EndsongRow)
    (hfind : endsong.find? (fun x => x.id == entry) = some e)
    (hmod : modifiedHas st.modified entry = false) :
    (fallbackMatches history e = [] →
        noMatchStep endsong history op st entry =
          .ok { st with missing := setAddNat st.missing entry })
    ∧ (∀ m0 rest, fallbackMatches history e = m0 :: rest →
        1 < (firstDedup (m0 :: rest)).length →
        (op entry = ['u'] ∨ op entry = ['U']) →
        noMatchStep endsong history op st entry =
          .ok { st with unsure := setAddNat st.unsure entry, prompts := st.prompts ++ [(e.ts, firstDedup (m0 :: rest))] })
    ∧ (∀ m0 rest, fallbackMatches history e = m0 :: rest →
        1 < (firstDedup (m0 :: rest)).length →
        ¬(op entry = ['u'] ∨ op entry = ['U']) →
        parseInt (op entry) = none →
        noMatchStep endsong history op st entry = .error "ValueError")
    ∧ (∀ m0 rest k, fallbackMatches history e = m0 :: rest →
        1 < (firstDedup (m0 :: rest)).length →
        ¬(op entry = ['u'] ∨ op entry = ['U']) →
        parseInt (op entry) = some k →
        pythonGet (firstDedup (m0 :: rest)) k = none →
        noMatchStep endsong history op st entry = .error "IndexError")
    ∧ (∀ st' : PassState, st'.noExtra.any (fun p => p.1 = sentinelKey) = false →
        delSentinel st' = .error "KeyError")
    ∧ (∀ (e' : List EndsongRow) (h' : List HistoryRow) (op' : Nat → Str)
        (orc' : Option Str × Option Str → OracleOutcome) (m0' : List EndsongRow)
        (msg : String), runStages e' h' op' orc' m0' = .error msg →
        runPipeline e' h' op' orc' m0' = .error msg) := by
  refine ⟨?_, ?_, ?_, ?_, ?_, ?_⟩
  · intro hz
    simp [noMatchStep, hmod, hfind, hz]
  · intro m0 rest hm hlen hu
    simp only [noMatchStep, hmod, Bool.false_eq_true, if_false, hfind, hm]
    rw [if_pos hlen, if_pos hu]
  · intro m0 rest hm hlen hu hk
    simp only [noMatchStep, hmod, Bool.false_eq_true, if_false, hfind, hm]
    rw [if_pos hlen, if_neg hu, hk]
  · intro m0 rest k hm hlen hu hk hget
    simp only [noMatchStep, hmod, Bool.false_eq_true, if_false, hfind, hm]
    rw [if_pos hlen, if_neg hu, hk]
    simp only [hget]
  · intro st' hs
    simp [delSentinel, hs]
  · intro e' h' op' orc' m0' msg hrun
    rw [runPipeline, hrun]
    rfl

theorem claimC9_witness :
    exEndsong.find? (fun x => x.id == 14) = some exE14 ∧
    modifiedHas (PassState.initial []).modified 14 = false ∧
    fallbackMatches exHistory exE14 =
      (some (S "AF1"), some (S "TF1")) :: [(some (S "AF2"), some (S "TF2")), (some (S "AF1"), some (S "TF1"))] ∧
    1 < (firstDedup ((some (S "AF1"), some (S "TF1")) :: [(some (S "AF2"), some (S "TF2")), (some (S "AF1"), some (S "TF1"))])).length ∧
    ¬(exOpBad 14 = ['u'] ∨ exOpBad 14 = ['U']) ∧
    parseInt (exOpBad 14) = none ∧
    noMatchStep exEndsong exHistory exOpBad (PassState.initial []) 14 = .error "ValueError" :=
  ⟨by decide, by decide, by decide, by decide, by decide, by decide,
    (claimC9 exEndsong exHistory exOpBad (PassState.initial []) 14 exE14
        (by decide) (by decide)).2.2.1
      (some (S "AF1"), some (S "TF1"))
      [(some (S "AF2"), some (S "TF2")), (some (S "AF1"), some (S "TF1"))]
      (by decide) (by decide) (by decide) (by decide)⟩

/-! ### C6: pipeline entry is decided by the platform flag alone -/

/-- C6 counterexample: a defective-platform record whose `track_name` and
`artist_name` are both non-null is not excluded from matching — the
initial pass matches it and overwrites its names. -/
theorem claimC6_cex :
    exC6Row.track_name = some (S "Already") ∧
    exC6Row.artist_name = some (S "Here") ∧
    exC6Row.platform = iosStr ∧
    (initialPass [exC6Row] exHistory (PassState.initial [])).modified =
      [resolveWith exC6Row exH1.trackName exH1.artistName] ∧
    (initialPass [exC6Row] exHistory (PassState.initial [])).updated = 1 := by
  decide

/-- C6 (amended): entry into the matching pipeline is decided solely by
the platform flag: a primary record on another platform never enters the
initial pass (conjunct 1), a record with `platform = 'ios'` always does
(conjunct 2), and the pass never consults the record's `track_name` or
`artist_name` — its behaviour is identical whatever those fields hold
(conjunct 3). -/
theorem claimC6 :
    (∀ (history : List HistoryRow) (st : PassState) (r : EndsongRow)
        (pre post : List EndsongRow), ¬(r.platform = iosStr) →
        initialPass (pre ++ r :: post) history st = initialPass (pre ++ post) history st)
    ∧ (∀ (history : List HistoryRow) (st : PassState) (r : EndsongRow),
        r.platform = iosStr →
        initialPass [r] history st = initialStep history st r)
    ∧ (∀ (history : List HistoryRow) (st : PassState) (r : EndsongRow)
        (tn an : Option Str),
        initialStep history st { r with track_name := tn, artist_name := an } =
          initialStep history st r) := by
  refine ⟨?_, ?_, ?_⟩
  · intro history st r pre post hr
    simp [initialPass, List.filter_append, List.filter_cons, hr]
  · intro history st r hr
    simp [initialPass, List.filter, hr]
  · intro history st r tn an
    obtain ⟨ts, pf, ms, tn0, an0, al, tu, ot, i⟩ := r
    rfl

theorem claimC6_witness :
    ¬(exE20.platform = iosStr) ∧
    initialPass ([exE10] ++ exE20 :: []) exHistory (PassState.initial []) =
      initialPass ([exE10] ++ []) exHistory (PassState.initial []) ∧
    exE10.platform = iosStr ∧
    initialPass [exE10] exHistory (PassState.initial []) =
      initialStep exHistory (PassState.initial []) exE10 :=
  ⟨by decide,
    claimC6.1 exHistory (PassState.initial []) exE20 [exE10] [] (by decide),
    by decide,
    claimC6.2.1 exHistory (PassState.initial []) exE10 (by decide)⟩

/-! ### C10: the identifier normalizer -/

theorem takeWhile_notQ_append (l qs : Str) (hl : ∀ c ∈ l, ¬(c = '?')) :
    (l ++ '?' :: qs).takeWhile (fun c => ¬(c = '?')) = l := by
  induction l with
  | nil => simp
  | cons c cs ih =>
    have hc : ¬(c = '?') := hl c (List.mem_cons_self c cs)
    simp only [List.cons_append, List.takeWhile_cons]
    rw [if_pos (by simpa using hc)]
    rw [ih (fun d hd => hl d (List.mem_cons_of_mem c hd))]

/-- The two URI fixup passes act on each row as `normalizeUri` on its
`spotify_track_uri` value. -/
theorem fixup_composition (r : EndsongRow) :
    fixupWrap (fixupHttps r) = { r with track_uri := normalizeUri r.track_uri } := by
  match hu : r.track_uri with
  | none =>
    simp only [fixupHttps, fixupWrap, normalizeUri, hu]
    rw [← hu]
  | some s =>
    by_cases h1 : likePrefix httpsStr s = true
    · have h2 : ∀ x : Str, likePrefix spotifyStr (spotifyTrackPrefix ++ x) = true :=
        fun x => rfl
      simp [fixupHttps, fixupWrap, normalizeUri, hu, h1, h2]
    · by_cases h2 : likePrefix spotifyStr s = true
      · simp only [fixupHttps, fixupWrap, normalizeUri, hu, h1, h2]
        simp only [Bool.false_eq_true, if_false, hu, h2, if_true]
        rw [← hu]
      · simp [fixupHttps, fixupWrap, normalizeUri, hu, h1, h2]

/-- C10: normalizing an already-canonical `spotify:track:<id>` value is a
no-op (conjunct 1); normalizing the URL form of a track (https URL with
the fixed 31-character path prefix and a query string) and normalizing
the bare-identifier form of the same track both yield the canonical
compact identifier `spotify:track:<id>` (conjuncts 2 and 3). -/
theorem claimC10 (tid qs : Str) (hq : '?' ∉ tid)
    (hh : likePrefix httpsStr tid = false)
    (hs : likePrefix spotifyStr tid = false) :
    (∀ u : Str, normalizeUri (some (spotifyTrackPrefix ++ u)) =
        some (spotifyTrackPrefix ++ u))
    ∧ normalizeUri (some (trackUrlPrefix ++ tid ++ '?' :: qs)) =
        some (spotifyTrackPrefix ++ tid)
    ∧ normalizeUri (some tid) = some (spotifyTrackPrefix ++ tid) := by
  have hsp : ∀ x : Str, likePrefix spotifyStr (spotifyTrackPrefix ++ x) = true :=
    fun x => rfl
  refine ⟨?_, ?_, ?_⟩
  · intro u
    have h1 : likePrefix httpsStr (spotifyTrackPrefix ++ u) = false := rfl
    have h2 : likePrefix spotifyStr (spotifyTrackPrefix ++ u) = true := rfl
    simp [normalizeUri, h1, h2]
  · have h1 : likePrefix httpsStr (trackUrlPrefix ++ tid ++ '?' :: qs) = true := rfl
    have hnq : ∀ c ∈ trackUrlPrefix ++ tid, ¬(c = '?') := by
      intro c hc
      rcases List.mem_append.mp hc with h | h
      · intro hcq; subst hcq; revert h; decide
      · exact fun hcq => hq (hcq ▸ h)
    have h2 : (trackUrlPrefix ++ tid ++ '?' :: qs).takeWhile (fun c => ¬(c = '?')) =
        trackUrlPrefix ++ tid :=
      takeWhile_notQ_append (trackUrlPrefix ++ tid) qs hnq
    have h3 : (trackUrlPrefix ++ tid).drop 31 = tid := by
      have hl : trackUrlPrefix.length = 31 := by decide
      rw [← hl, List.drop_left]
    simp only [normalizeUri, h1, if_true]
    rw [h2, h3]
    simp [hsp]
  · simp [normalizeUri, hh, hs]

theorem claimC10_witness :
    ('?' ∉ S "4uLU6hMCjMI75M1A2tKUQC") ∧
    likePrefix httpsStr (S "4uLU6hMCjMI75M1A2tKUQC") = false ∧
    likePrefix spotifyStr (S "4uLU6hMCjMI75M1A2tKUQC") = false ∧
    (normalizeUri (some (trackUrlPrefix ++ S "4uLU6hMCjMI75M1A2tKUQC" ++ '?' :: S "si=abc")) =
        some (spotifyTrackPrefix ++ S "4uLU6hMCjMI75M1A2tKUQC")
      ∧ normalizeUri (some (S "4uLU6hMCjMI75M1A2tKUQC")) =
        some (spotifyTrackPrefix ++ S "4uLU6hMCjMI75M1A2tKUQC")) :=
  ⟨by decide, by decide, by decide,
    (claimC10 (S "4uLU6hMCjMI75M1A2tKUQC") (S "si=abc")
      (by decide) (by decide) (by decide)).2.1,
    (claimC10 (S "4uLU6hMCjMI75M1A2tKUQC") (S "si=abc")
      (by decide) (by decide) (by decide)).2.2⟩

/-! ### C3: guards, per-id uniqueness and idempotence

The development below follows the run in three layers: generic facts
about the guarded inserts (no duplicate ids ever arise), a pointwise map
presentation of the update stages (enrichment, oracle, fixups), and a
replay analysis showing that a second session over the snapshot of a
completed first session reconciles nothing new. -/

theorem modifiedHas_true_iff {m : List EndsongRow} {i : Nat} :
    modifiedHas m i = true ↔ ∃ r ∈ m, r.id = i := by
  simp [modifiedHas, List.any_eq_true]

theorem except_map_ok {α β : Type} {f : α → β} {x : Except String α} {b : β}
    (h : x.map f = .ok b) : ∃ a, x = .ok a ∧ f a = b := by
  match x with
  | .ok a =>
    refine ⟨a, rfl, ?_⟩
    simpa [Except.map] using h
  | .error m => simp [Except.map] at h

theorem eq_of_ids_nodup {α β : Type} (f : α → β) {l : List α}
    (h : (l.map f).Nodup) {a b : α} (ha : a ∈ l) (hb : b ∈ l)
    (hf : f a = f b) : a = b := by
  induction l with
  | nil => cases ha
  | cons x xs ih =>
    rw [List.map_cons, List.nodup_cons] at h
    rcases List.mem_cons.mp ha with rfl | ha' <;>
      rcases List.mem_cons.mp hb with rfl | hb'
    · rfl
    · exact absurd (hf ▸ List.mem_map_of_mem f hb') h.1
    · exact absurd (hf ▸ List.mem_map_of_mem f ha') h.1
    · exact ih h.2 ha' hb'

theorem not_mem_both_of_nodup_append {α β : Type} (f : α → β)
    {m g : List α} (h : ((m ++ g).map f).Nodup) {x : α}
    (hm : x ∈ m) (hg : x ∈ g) : False := by
  rw [List.map_append, List.nodup_append] at h
  exact h.2.2 (List.mem_map_of_mem f hm) (List.mem_map_of_mem f hg)

theorem nodup_ids_append_fresh {m : List EndsongRow} {x : EndsongRow}
    (h : (m.map (fun r => r.id)).Nodup) (hx : modifiedHas m x.id = false) :
    ((m ++ [x]).map (fun r => r.id)).Nodup := by
  rw [List.map_append, List.nodup_append]
  refine ⟨h, List.nodup_singleton _, ?_⟩
  intro a ha hb
  rcases List.mem_map.mp ha with ⟨r, hr, rfl⟩
  rcases List.mem_map.mp hb with ⟨r', hr', h2⟩
  rw [List.mem_singleton] at hr'
  rw [hr'] at h2
  exact modifiedHas_eq_false.mp hx r hr (by rw [h2])

theorem mem_setAddList {b t : List Nat} {s : List (List Nat)}
    (h : b ∈ setAddList s t) : b ∈ s ∨ b = t := by
  rw [setAddList] at h
  by_cases hmem : t ∈ s
  · rw [if_pos hmem] at h; exact Or.inl h
  · rw [if_neg hmem] at h
    rcases List.mem_append.mp h with h' | h'
    · exact Or.inl h'
    · exact Or.inr (List.mem_singleton.mp h')

theorem mem_sortNat {b : Nat} {l : List Nat} : b ∈ sortNat l ↔ b ∈ l := by
  induction l with
  | nil => simp [sortNat]
  | cons n ns ih =>
    rw [sortNat, List.foldr_cons, mem_insertNat,
      show ns.foldr insertNat [] = sortNat ns from rfl, ih, List.mem_cons]

theorem perm_insertByOT (r : EndsongRow) (l : List EndsongRow) :
    (insertByOT r l).Perm (r :: l) := by
  induction l with
  | nil => exact List.Perm.refl _
  | cons s ss ih =>
    rw [insertByOT]
    by_cases h : otLe r.offline_timestamp s.offline_timestamp
    · rw [if_pos h]
    · rw [if_neg h]
      exact (List.Perm.cons s ih).trans (List.Perm.swap r s ss)

theorem perm_sortByOT (l : List EndsongRow) : (sortByOT l).Perm l := by
  induction l with
  | nil => exact List.Perm.refl _
  | cons r rs ih =>
    rw [sortByOT, List.foldr_cons,
      show rs.foldr insertByOT [] = sortByOT rs from rfl]
    exact (perm_insertByOT r (sortByOT rs)).trans (List.Perm.cons r ih)

theorem mem_clusterCands {endsong : List EndsongRow} {h0 : HistoryRow}
    {e : EndsongRow} :
    e ∈ clusterCands endsong h0 ↔
      e ∈ endsong ∧ e.platform = iosStr ∧ e.ms_played = h0.msPlayed ∧
        likePrefix (tsLikeKey h0.endTime) e.ts = true := by
  rw [clusterCands, mem_sortByOT]
  simp [List.mem_filter]

theorem mem_clusterHistory {history : List HistoryRow} {entry : List Nat}
    {h : HistoryRow} :
    h ∈ clusterHistory history entry ↔ h ∈ history ∧ h.id ∈ entry := by
  rw [clusterHistory, mem_sortById]
  simp [List.mem_filter]

theorem ids_clusterCands_nodup {endsong : List EndsongRow} {h0 : HistoryRow}
    (h : (endsong.map (fun r => r.id)).Nodup) :
    ((clusterCands endsong h0).map (fun r => r.id)).Nodup := by
  have hperm := (perm_sortByOT (endsong.filter (fun e =>
    e.platform = iosStr ∧ e.ms_played = h0.msPlayed ∧
      likePrefix (tsLikeKey h0.endTime) e.ts))).map (fun r => r.id)
  refine (List.Perm.nodup_iff hperm).mpr ?_
  exact (h.sublist (List.Sublist.map _ (List.filter_sublist _)))

theorem zip_snd_ids_nodup {endsong : List EndsongRow} {h0 : HistoryRow}
    (hl : List HistoryRow)
    (hnd : ((clusterCands endsong h0).map (fun r => r.id)).Nodup) :
    ((hl.zip (clusterCands endsong h0)).map (fun p => p.2.id)).Nodup := by
  have h1 : (hl.zip (clusterCands endsong h0)).map (fun p => p.2.id) =
      ((clusterCands endsong h0).take hl.length).map (fun e => e.id) := by
    have := zip_map_snd hl (clusterCands endsong h0)
    rw [← this, List.map_map]; rfl
  rw [h1]
  exact hnd.sublist (List.Sublist.map _ (List.take_sublist _ _))

/-! #### Guarded inserts never duplicate a reconciled id -/

theorem nodup_ids_initialStep {history : List HistoryRow} {st : PassState}
    {r : EndsongRow} (h : (st.modified.map (fun x => x.id)).Nodup) :
    (((initialStep history st r).modified).map (fun x => x.id)).Nodup := by
  match hx : exactMatches history r with
  | [] => simp only [initialStep, hx]; exact h
  | [m] =>
    by_cases hmod : modifiedHas st.modified r.id
    · simp only [initialStep, hx, if_pos hmod]; exact h
    · simp only [initialStep, hx, if_neg hmod]
      rw [Bool.not_eq_true] at hmod
      exact nodup_ids_append_fresh h (by rw [resolveWith_id]; exact hmod)
  | a :: b :: t => simp only [initialStep, hx]; exact h

theorem nodup_ids_foldl_initialStep {history : List HistoryRow}
    (l : List EndsongRow) (st : PassState)
    (h : (st.modified.map (fun x => x.id)).Nodup) :
    (((l.foldl (initialStep history) st).modified).map (fun x => x.id)).Nodup := by
  induction l generalizing st with
  | nil => exact h
  | cons r rs ih => exact ih _ (nodup_ids_initialStep h)

theorem nodup_ids_resolvePairs (pairs : List (HistoryRow × EndsongRow))
    (st : PassState) (h : (st.modified.map (fun x => x.id)).Nodup) :
    (((resolvePairs pairs st).modified).map (fun x => x.id)).Nodup := by
  induction pairs generalizing st with
  | nil => exact h
  | cons p ps ih =>
    rw [resolvePairs, List.foldl_cons,
      show (ps.foldl _ _) = resolvePairs ps _ from rfl]
    by_cases hmod : modifiedHas st.modified p.2.id
    · rw [if_pos hmod]; exact ih _ h
    · rw [if_neg hmod]
      rw [Bool.not_eq_true] at hmod
      exact ih _ (nodup_ids_append_fresh h (by rw [resolveWith_id]; exact hmod))

theorem nodup_ids_clusterStep {endsong : List EndsongRow}
    {history : List HistoryRow} {st : PassState} {entry : List Nat}
    {st₁ : PassState} (h : clusterStep endsong history st entry = .ok st₁)
    (hnd : (st.modified.map (fun x => x.id)).Nodup) :
    (st₁.modified.map (fun x => x.id)).Nodup := by
  rw [clusterStep] at h
  match hch : clusterHistory history entry with
  | [] => rw [hch] at h; cases h
  | h0 :: hrest =>
    rw [hch] at h
    simp only [Except.ok.injEq] at h
    rw [← h]
    exact nodup_ids_resolvePairs _ _ hnd

theorem nodup_ids_foldlM_clusterStep {endsong : List EndsongRow}
    {history : List HistoryRow} (l : List (List Nat)) (st st' : PassState)
    (h : l.foldlM (clusterStep endsong history) st = .ok st')
    (hnd : (st.modified.map (fun x => x.id)).Nodup) :
    (st'.modified.map (fun x => x.id)).Nodup := by
  induction l generalizing st with
  | nil =>
    simp only [List.foldlM_nil, pure, Except.pure, Except.ok.injEq] at h
    rw [← h]; exact hnd
  | cons a as ih =>
    rw [List.foldlM_cons] at h
    obtain ⟨st₁, hstep, hrest⟩ := except_bind_ok h
    exact ih st₁ hrest (nodup_ids_clusterStep hstep hnd)

theorem nodup_ids_noMatchStep {endsong : List EndsongRow}
    {history : List HistoryRow} {op : Nat → Str} {st : PassState} {a : Nat}
    {st₁ : PassState} (h : noMatchStep endsong history op st a = .ok st₁)
    (hnd : (st.modified.map (fun x => x.id)).Nodup) :
    (st₁.modified.map (fun x => x.id)).Nodup := by
  obtain ⟨_, _, _, _, hcases⟩ := noMatchStep_ok_cases h
  rcases hcases with ⟨_, hmo, _, _⟩ | ⟨_, hmo, _, _⟩ | ⟨_, hmo, _, _⟩ |
    ⟨hg, ⟨x, hmo, hx⟩, _, _⟩
  · rw [hmo]; exact hnd
  · rw [hmo]; exact hnd
  · rw [hmo]; exact hnd
  · rw [hmo]
    exact nodup_ids_append_fresh hnd (by rw [hx]; exact hg)

theorem nodup_ids_foldlM_noMatch {endsong : List EndsongRow}
    {history : List HistoryRow} {op : Nat → Str} (l : List Nat)
    (st st' : PassState)
    (h : l.foldlM (noMatchStep endsong history op) st = .ok st')
    (hnd : (st.modified.map (fun x => x.id)).Nodup) :
    (st'.modified.map (fun x => x.id)).Nodup := by
  induction l generalizing st with
  | nil =>
    simp only [List.foldlM_nil, pure, Except.pure, Except.ok.injEq] at h
    rw [← h]; exact hnd
  | cons a as ih =>
    rw [List.foldlM_cons] at h
    obtain ⟨st₁, hstep, hrest⟩ := except_bind_ok h
    exact ih st₁ hrest (nodup_ids_noMatchStep hstep hnd)

theorem foldlM_noMatch_append {endsong : List EndsongRow}
    {history : List HistoryRow} {op : Nat → Str} (l : List Nat)
    (st st' : PassState)
    (h : l.foldlM (noMatchStep endsong history op) st = .ok st') :
    ∃ t, st'.modified = st.modified ++ t := by
  induction l generalizing st with
  | nil =>
    simp only [List.foldlM_nil, pure, Except.pure, Except.ok.injEq] at h
    rw [← h]; exact ⟨[], by simp⟩
  | cons a as ih =>
    rw [List.foldlM_cons] at h
    obtain ⟨st₁, hstep, hrest⟩ := except_bind_ok h
    obtain ⟨t2, ht2⟩ := ih st₁ hrest
    obtain ⟨_, _, _, _, hcases⟩ := noMatchStep_ok_cases hstep
    rcases hcases with ⟨_, hmo, _, _⟩ | ⟨_, hmo, _, _⟩ | ⟨_, hmo, _, _⟩ |
      ⟨_, ⟨x, hmo, _⟩, _, _⟩
    · exact ⟨t2, by rw [ht2, hmo]⟩
    · exact ⟨t2, by rw [ht2, hmo]⟩
    · exact ⟨t2, by rw [ht2, hmo]⟩
    · exact ⟨[x] ++ t2, by rw [ht2, hmo, List.append_assoc]⟩

/-! #### The update stages as pointwise maps -/

theorem map_congr_mem {α β : Type} {f g : α → β} {l : List α}
    (h : ∀ a ∈ l, f a = g a) : l.map f = l.map g := by
  induction l with
  | nil => rfl
  | cons x xs ih =>
    rw [List.map_cons, List.map_cons, h x (List.mem_cons_self _ _),
      ih (fun a ha => h a (List.mem_cons_of_mem _ ha))]

theorem ids_map_eq {m : List EndsongRow} {f : EndsongRow → EndsongRow}
    (hf : ∀ r, (f r).id = r.id) :
    (m.map f).map (fun r => r.id) = m.map (fun r => r.id) := by
  rw [List.map_map]
  exact map_congr_mem (fun a _ => hf a)

theorem foldl_enrichStep_modified (endsong : List EndsongRow)
    (ts : List EndsongRow) (st : PassState) :
    ((ts.foldl (enrichStep endsong) st).modified) =
      st.modified.map (enrichFoldFun endsong ts) := by
  induction ts generalizing st with
  | nil =>
    rw [List.foldl_nil]
    have h : st.modified.map (enrichFoldFun endsong []) =
        st.modified.map (fun r => r) := map_congr_mem (fun a _ => rfl)
    rw [h, List.map_id']
  | cons t ts ih =>
    rw [List.foldl_cons, ih]
    have hcons : ∀ r, enrichFoldFun endsong (t :: ts) r =
        enrichFoldFun endsong ts (enrichStepFun endsong t r) := fun r => rfl
    match hx : enrichLookup endsong t.track_name t.artist_name with
    | none =>
      simp only [enrichStep, hx]
      refine map_congr_mem (fun a _ => ?_)
      rw [hcons a]
      have : enrichStepFun endsong t a = a := by simp only [enrichStepFun, hx]
      rw [this]
    | some du =>
      simp only [enrichStep, hx]
      rw [updateById, List.map_map]
      refine map_congr_mem (fun a _ => ?_)
      rw [hcons a]
      have : enrichStepFun endsong t a =
          if a.id = t.id then { a with album_name := du.1, track_uri := du.2 }
          else a := by simp only [enrichStepFun, hx]
      rw [Function.comp, this]

theorem enrichStepFun_id (endsong : List EndsongRow) (t r : EndsongRow) :
    (enrichStepFun endsong t r).id = r.id := by
  match hx : enrichLookup endsong t.track_name t.artist_name with
  | none => simp only [enrichStepFun, hx]
  | some du =>
    simp only [enrichStepFun, hx]
    split
    · rfl
    · rfl

theorem enrichFoldFun_id (endsong : List EndsongRow) (ts : List EndsongRow)
    (r : EndsongRow) : (enrichFoldFun endsong ts r).id = r.id := by
  induction ts generalizing r with
  | nil => rfl
  | cons t ts ih =>
    have hcons : enrichFoldFun endsong (t :: ts) r =
        enrichFoldFun endsong ts (enrichStepFun endsong t r) := rfl
    rw [hcons, ih, enrichStepFun_id]

theorem oracleFun_cons (orc : Option Str × Option Str → OracleOutcome)
    (kv : (Option Str × Option Str) × Nat)
    (kvs : List ((Option Str × Option Str) × Nat)) (r : EndsongRow) :
    oracleFun orc (kv :: kvs) r = oracleFun orc kvs (oracleStepFun orc kv r) := rfl

theorem oracleStepFun_timeout {orc : Option Str × Option Str → OracleOutcome}
    {kv : (Option Str × Option Str) × Nat} (ho : orc kv.1 = .timeout)
    (r : EndsongRow) : oracleStepFun orc kv r = r := by
  simp only [oracleStepFun, ho]

theorem oracleStepFun_reject {orc : Option Str × Option Str → OracleOutcome}
    {kv : (Option Str × Option Str) × Nat} (ho : orc kv.1 = .reject)
    (r : EndsongRow) : oracleStepFun orc kv r = r := by
  simp only [oracleStepFun, ho]

theorem oracleStepFun_accept_pos {orc : Option Str × Option Str → OracleOutcome}
    {kv : (Option Str × Option Str) × Nat} {album clip : Str}
    (ho : orc kv.1 = .accept album clip) {r : EndsongRow}
    (hm : sqlEqO r.track_name kv.1.1 ∧ sqlEqO r.artist_name kv.1.2) :
    oracleStepFun orc kv r = { r with album_name := some album, track_uri := some (spotifyUriOf clip) } := by
  simp only [oracleStepFun, ho, if_pos hm]

theorem oracleStepFun_accept_neg {orc : Option Str × Option Str → OracleOutcome}
    {kv : (Option Str × Option Str) × Nat} {album clip : Str}
    (ho : orc kv.1 = .accept album clip) {r : EndsongRow}
    (hm : ¬(sqlEqO r.track_name kv.1.1 ∧ sqlEqO r.artist_name kv.1.2)) :
    oracleStepFun orc kv r = r := by
  simp only [oracleStepFun, ho, if_neg hm]

theorem oracleStepFun_names (orc : Option Str × Option Str → OracleOutcome)
    (kv : (Option Str × Option Str) × Nat) (r : EndsongRow) :
    (oracleStepFun orc kv r).id = r.id
    ∧ (oracleStepFun orc kv r).track_name = r.track_name
    ∧ (oracleStepFun orc kv r).artist_name = r.artist_name := by
  match ho : orc kv.1 with
  | .timeout => rw [oracleStepFun_timeout ho]; exact ⟨rfl, rfl, rfl⟩
  | .reject => rw [oracleStepFun_reject ho]; exact ⟨rfl, rfl, rfl⟩
  | .accept album clip =>
    by_cases hm : sqlEqO r.track_name kv.1.1 ∧ sqlEqO r.artist_name kv.1.2
    · rw [oracleStepFun_accept_pos ho hm]; exact ⟨rfl, rfl, rfl⟩
    · rw [oracleStepFun_accept_neg ho hm]; exact ⟨rfl, rfl, rfl⟩

theorem foldl_oracleStep_modified (orc : Option Str × Option Str → OracleOutcome)
    (kvs : List ((Option Str × Option Str) × Nat)) (st : PassState) :
    ((kvs.foldl (oracleStep orc) st).modified) =
      st.modified.map (oracleFun orc kvs) := by
  induction kvs generalizing st with
  | nil =>
    rw [List.foldl_nil]
    have h : st.modified.map (oracleFun orc []) =
        st.modified.map (fun r => r) := map_congr_mem (fun a _ => rfl)
    rw [h, List.map_id']
  | cons kv kvs ih =>
    rw [List.foldl_cons, ih]
    match ho : orc kv.1 with
    | .timeout =>
      simp only [oracleStep, ho]
      refine map_congr_mem (fun a _ => ?_)
      rw [oracleFun_cons, oracleStepFun_timeout ho]
    | .reject =>
      simp only [oracleStep, ho]
      refine map_congr_mem (fun a _ => ?_)
      rw [oracleFun_cons, oracleStepFun_reject ho]
    | .accept album clip =>
      simp only [oracleStep, ho]
      rw [updateByNames, List.map_map]
      refine map_congr_mem (fun a _ => ?_)
      rw [Function.comp, oracleFun_cons]
      by_cases hm : sqlEqO a.track_name kv.1.1 ∧ sqlEqO a.artist_name kv.1.2
      · rw [if_pos hm, oracleStepFun_accept_pos ho hm]
      · rw [if_neg hm, oracleStepFun_accept_neg ho hm]

theorem oraclePass_modified_map (orc : Option Str × Option Str → OracleOutcome)
    (st : PassState) :
    (oraclePass orc st).modified = st.modified.map (oracleFun orc st.noExtra) := by
  rw [oraclePass]
  exact foldl_oracleStep_modified orc st.noExtra st

theorem oracleFun_names (orc : Option Str × Option Str → OracleOutcome)
    (kvs : List ((Option Str × Option Str) × Nat)) (r : EndsongRow) :
    (oracleFun orc kvs r).id = r.id
    ∧ (oracleFun orc kvs r).track_name = r.track_name
    ∧ (oracleFun orc kvs r).artist_name = r.artist_name := by
  induction kvs generalizing r with
  | nil => exact ⟨rfl, rfl, rfl⟩
  | cons kv kvs ih =>
    rw [oracleFun_cons]
    obtain ⟨s1, s2, s3⟩ := oracleStepFun_names orc kv r
    obtain ⟨h1, h2, h3⟩ := ih (oracleStepFun orc kv r)
    exact ⟨h1.trans s1, h2.trans s2, h3.trans s3⟩

theorem fixupPasses_map (m : List EndsongRow) :
    fixupPass2 (fixupPass1 m) =
      m.map (fun r => { r with track_uri := normalizeUri r.track_uri }) := by
  rw [fixupPass2, fixupPass1, List.map_map]
  exact map_congr_mem (fun a _ => fixup_composition a)

theorem ids_fixups (m : List EndsongRow) :
    (fixupPass2 (fixupPass1 m)).map (fun r => r.id) = m.map (fun r => r.id) := by
  rw [fixupPasses_map]
  exact ids_map_eq (fun r => rfl)

theorem nodup_ids_st3 {endsong : List EndsongRow} {history : List HistoryRow}
    {op : Nat → Str} {m0 : List EndsongRow} {st₂ st₃ : PassState}
    (h2 : clusterPass endsong history
        (initialPass endsong history (PassState.initial m0)) = .ok st₂)
    (h3 : nonePass endsong history op st₂ = .ok st₃)
    (h0 : (m0.map (fun r => r.id)).Nodup) :
    (st₃.modified.map (fun r => r.id)).Nodup := by
  have h1 : ((initialPass endsong history (PassState.initial m0)).modified.map
      (fun r => r.id)).Nodup := by
    rw [initialPass]
    exact nodup_ids_foldl_initialStep _ _ h0
  have hA2 : (st₂.modified.map (fun r => r.id)).Nodup := by
    rw [clusterPass] at h2
    exact nodup_ids_foldlM_clusterStep _ _ _ h2 h1
  rw [nonePass] at h3
  exact nodup_ids_foldlM_noMatch _ _ _ h3 hA2

theorem nodup_ids_runStages {endsong : List EndsongRow} {history : List HistoryRow}
    {op : Nat → Str} {orc : Option Str × Option Str → OracleOutcome}
    {m0 : List EndsongRow} {st : PassState}
    (h : runStages endsong history op orc m0 = .ok st)
    (h0 : (m0.map (fun r => r.id)).Nodup) :
    (st.modified.map (fun r => r.id)).Nodup := by
  obtain ⟨st₂, st₃, st₅, h2, h3, h5, hst⟩ := runStages_ok_decomp h
  have h3' := nodup_ids_st3 h2 h3 h0
  have h4 : ((enrichPass endsong st₃).modified.map (fun r => r.id)).Nodup := by
    rw [enrichPass, foldl_enrichStep_modified,
      ids_map_eq (fun r => enrichFoldFun_id endsong _ r)]
    exact h3'
  have h5m : st₅.modified = (enrichPass endsong st₃).modified :=
    (delSentinel_ok_fields h5).1
  have h6 : ((oraclePass orc st₅).modified.map (fun r => r.id)).Nodup := by
    rw [oraclePass_modified_map,
      ids_map_eq (fun r => (oracleFun_names orc st₅.noExtra r).1), h5m]
    exact h4
  rw [hst]
  show ((fixupPass2 (fixupPass1 (oraclePass orc st₅).modified)).map
    (fun r => r.id)).Nodup
  rw [ids_fixups]
  exact h6

theorem pipeline_nodup {endsong : List EndsongRow} {history : List HistoryRow}
    {op : Nat → Str} {orc : Option Str × Option Str → OracleOutcome}
    {m0 : List EndsongRow} {st : PassState}
    (h : runPipeline endsong history op orc m0 = .ok st)
    (h0 : (m0.map (fun r => r.id)).Nodup) :
    (st.modified.map (fun r => r.id)).Nodup := by
  rw [runPipeline] at h
  obtain ⟨S, hS, hmap⟩ := except_map_ok h
  have hnod := nodup_ids_runStages hS h0
  rw [← hmap]
  show ((exportDelete S.modified).map (fun r => r.id)).Nodup
  rw [exportDelete]
  exact hnod.sublist (List.Sublist.map _ (List.filter_sublist _))

/-! #### Provenance of inserted rows, and independence from the snapshot -/

theorem foldl_initialStep_new_rows (history : List HistoryRow)
    (l : List EndsongRow) (st : PassState) :
    ∀ row ∈ (l.foldl (initialStep history) st).modified,
      row ∈ st.modified ∨
        ∃ r ∈ l, (∃ m, exactMatches history r = [m] ∧
            row = resolveWith r m.trackName m.artistName) ∧
          modifiedHas st.modified r.id = false := by
  induction l generalizing st with
  | nil => exact fun row h => Or.inl h
  | cons a as ih =>
    intro row hrow
    rw [List.foldl_cons] at hrow
    rcases ih (initialStep history st a) row hrow with hmem | ⟨r, hr, hdata, hguard⟩
    · match hx : exactMatches history a with
      | [] =>
        simp only [initialStep, hx] at hmem
        exact Or.inl hmem
      | [m] =>
        by_cases hmod : modifiedHas st.modified a.id
        · simp only [initialStep, hx, if_pos hmod] at hmem
          exact Or.inl hmem
        · simp only [initialStep, hx, if_neg hmod] at hmem
          rcases List.mem_append.mp hmem with hmem' | hmem'
          · exact Or.inl hmem'
          · rw [Bool.not_eq_true] at hmod
            exact Or.inr ⟨a, List.mem_cons_self _ _,
              ⟨m, hx, (List.mem_singleton.mp hmem')⟩, hmod⟩
      | m1 :: m2 :: ms =>
        simp only [initialStep, hx] at hmem
        exact Or.inl hmem
    · obtain ⟨t, ht⟩ := (initialStep_fields history st a).1
      rw [ht, modifiedHas_append, Bool.or_eq_false_iff] at hguard
      exact Or.inr ⟨r, List.mem_cons_of_mem _ hr, hdata, hguard.1⟩

theorem resolvePairs_new_rows (pairs : List (HistoryRow × EndsongRow))
    (st : PassState) :
    ∀ row ∈ (resolvePairs pairs st).modified,
      row ∈ st.modified ∨
        ∃ p ∈ pairs, row = resolveWith p.2 p.1.trackName p.1.artistName ∧
          modifiedHas st.modified p.2.id = false := by
  induction pairs generalizing st with
  | nil => exact fun row h => Or.inl h
  | cons q qs ih =>
    intro row hrow
    rw [resolvePairs, List.foldl_cons,
      show (qs.foldl _ _) = resolvePairs qs _ from rfl] at hrow
    by_cases hmod : modifiedHas st.modified q.2.id
    · rw [if_pos hmod] at hrow
      rcases ih st row hrow with hmem | ⟨p, hp, hdata, hguard⟩
      · exact Or.inl hmem
      · exact Or.inr ⟨p, List.mem_cons_of_mem _ hp, hdata, hguard⟩
    · rw [if_neg hmod] at hrow
      rw [Bool.not_eq_true] at hmod
      rcases ih _ row hrow with hmem | ⟨p, hp, hdata, hguard⟩
      · rcases List.mem_append.mp hmem with hmem' | hmem'
        · exact Or.inl hmem'
        · exact Or.inr ⟨q, List.mem_cons_self _ _,
            List.mem_singleton.mp hmem', hmod⟩
      · rw [modifiedHas_append, Bool.or_eq_false_iff] at hguard
        exact Or.inr ⟨p, List.mem_cons_of_mem _ hp, hdata, hguard.1⟩

theorem foldlM_clusterStep_new_rows {endsong : List EndsongRow}
    {history : List HistoryRow} (l : List (List Nat)) (st st' : PassState)
    (h : l.foldlM (clusterStep endsong history) st = .ok st') :
    ∀ row ∈ st'.modified,
      row ∈ st.modified ∨
        ∃ t ∈ l, ∃ h0 hrest, clusterHistory history t = h0 :: hrest ∧
          ∃ p ∈ (h0 :: hrest).zip (clusterCands endsong h0),
            row = resolveWith p.2 p.1.trackName p.1.artistName ∧
              modifiedHas st.modified p.2.id = false := by
  induction l generalizing st with
  | nil =>
    simp only [List.foldlM_nil, pure, Except.pure, Except.ok.injEq] at h
    rw [← h]
    exact fun row hrow => Or.inl hrow
  | cons a as ih =>
    rw [List.foldlM_cons] at h
    obtain ⟨st₁, hstep, hrest'⟩ := except_bind_ok h
    intro row hrow
    rcases ih st₁ hrest' row hrow with hmem | ⟨t, ht, h0, hrest, hch, p, hp, hdata, hguard⟩
    · rw [clusterStep] at hstep
      match hch : clusterHistory history a with
      | [] => rw [hch] at hstep; cases hstep
      | h0 :: hr =>
        rw [hch] at hstep
        simp only [Except.ok.injEq] at hstep
        rw [← hstep] at hmem
        rcases resolvePairs_new_rows _ st row hmem with hmem' | ⟨p, hp, hdata, hguard⟩
        · exact Or.inl hmem'
        · exact Or.inr ⟨a, List.mem_cons_self _ _, h0, hr, hch, p, hp, hdata, hguard⟩
    · obtain ⟨tt, htt⟩ := (clusterStep_ok_fields hstep).1
      rw [htt, modifiedHas_append, Bool.or_eq_false_iff] at hguard
      exact Or.inr ⟨t, List.mem_cons_of_mem _ ht, h0, hrest, hch, p, hp, hdata, hguard.1⟩

theorem resolvePairs_covers (pairs : List (HistoryRow × EndsongRow))
    (st : PassState) :
    ∀ p ∈ pairs, modifiedHas (resolvePairs pairs st).modified p.2.id = true := by
  induction pairs generalizing st with
  | nil => intro p hp; cases hp
  | cons q qs ih =>
    intro p hp
    rw [resolvePairs, List.foldl_cons,
      show (qs.foldl _ _) = resolvePairs qs _ from rfl]
    rcases List.mem_cons.mp hp with rfl | hp'
    · have hq : modifiedHas (if modifiedHas st.modified p.2.id then st
          else { st with modified := st.modified ++ [resolveWith p.2 p.1.trackName p.1.artistName], updated := st.updated + 1 }).modified p.2.id = true := by
        by_cases hmod : modifiedHas st.modified p.2.id
        · rw [if_pos hmod]; exact hmod
        · rw [if_neg hmod]
          simp [modifiedHas_append, modifiedHas, resolveWith_id]
      obtain ⟨t, ht⟩ := (resolvePairs_fields qs _).1
      rw [ht]
      exact modifiedHas_mono hq
    · exact ih _ p hp'

theorem foldlM_clusterStep_covers {endsong : List EndsongRow}
    {history : List HistoryRow} (l : List (List Nat)) (st st' : PassState)
    (h : l.foldlM (clusterStep endsong history) st = .ok st') :
    ∀ t ∈ l, ∀ h0 hrest, clusterHistory history t = h0 :: hrest →
      ∀ p ∈ (h0 :: hrest).zip (clusterCands endsong h0),
        modifiedHas st'.modified p.2.id = true := by
  induction l generalizing st with
  | nil => intro t ht; cases ht
  | cons a as ih =>
    rw [List.foldlM_cons] at h
    obtain ⟨st₁, hstep, hrest'⟩ := except_bind_ok h
    intro t ht h0 hrest hch p hp
    rcases List.mem_cons.mp ht with rfl | ht'
    · rw [clusterStep, hch] at hstep
      simp only [Except.ok.injEq] at hstep
      have hcov : modifiedHas st₁.modified p.2.id = true := by
        rw [← hstep]
        exact resolvePairs_covers _ st p hp
      obtain ⟨tt, htt⟩ := (foldlM_clusterStep_fields as st₁ st' hrest').1
      rw [htt]
      exact modifiedHas_mono hcov
    · exact ih st₁ hrest' t ht' h0 hrest hch p hp

theorem foldl_initialStep_indep (history : List HistoryRow)
    (l : List EndsongRow) (st st' : PassState)
    (hm : st.multiple = st'.multiple) (hn : st.noneIds = st'.noneIds) :
    (l.foldl (initialStep history) st).multiple =
        (l.foldl (initialStep history) st').multiple
    ∧ (l.foldl (initialStep history) st).noneIds =
        (l.foldl (initialStep history) st').noneIds := by
  induction l generalizing st st' with
  | nil => exact ⟨hm, hn⟩
  | cons r rs ih =>
    rw [List.foldl_cons, List.foldl_cons]
    refine ih _ _ ?_ ?_
    · match hx : exactMatches history r with
      | [] => simp only [initialStep, hx]; exact hm
      | [m] =>
        have h1 : (initialStep history st r).multiple = st.multiple := by
          simp only [initialStep, hx]
          split
          · rfl
          · rfl
        have h2 : (initialStep history st' r).multiple = st'.multiple := by
          simp only [initialStep, hx]
          split
          · rfl
          · rfl
        rw [h1, h2]; exact hm
      | m1 :: m2 :: ms =>
        simp only [initialStep, hx]
        rw [hm]
    · match hx : exactMatches history r with
      | [] =>
        simp only [initialStep, hx]
        rw [hn]
      | [m] =>
        have h1 : (initialStep history st r).noneIds = st.noneIds := by
          simp only [initialStep, hx]
          split
          · rfl
          · rfl
        have h2 : (initialStep history st' r).noneIds = st'.noneIds := by
          simp only [initialStep, hx]
          split
          · rfl
          · rfl
        rw [h1, h2]; exact hn
      | m1 :: m2 :: ms =>
        simp only [initialStep, hx]; exact hn

theorem initialPass_indep (endsong : List EndsongRow) (history : List HistoryRow)
    (m0 m0' : List EndsongRow) :
    (initialPass endsong history (PassState.initial m0)).multiple =
        (initialPass endsong history (PassState.initial m0')).multiple
    ∧ (initialPass endsong history (PassState.initial m0)).noneIds =
        (initialPass endsong history (PassState.initial m0')).noneIds := by
  rw [initialPass, initialPass]
  exact foldl_initialStep_indep history _ _ _ rfl rfl

theorem foldl_initialStep_multiple_prov (history : List HistoryRow)
    (l : List EndsongRow) (st : PassState) :
    ∀ t ∈ (l.foldl (initialStep history) st).multiple,
      t ∈ st.multiple ∨
        ∃ r ∈ l, (∃ m1 m2 ms, exactMatches history r = m1 :: m2 :: ms) ∧
          t = sortNat ((exactMatches history r).map (fun h => h.id)) := by
  induction l generalizing st with
  | nil => exact fun t ht => Or.inl ht
  | cons a as ih =>
    intro t ht
    rw [List.foldl_cons] at ht
    rcases ih (initialStep history st a) t ht with hmem | ⟨r, hr, hdata, hsort⟩
    · match hx : exactMatches history a with
      | [] =>
        simp only [initialStep, hx] at hmem
        exact Or.inl hmem
      | [m] =>
        have h1 : (initialStep history st a).multiple = st.multiple := by
          simp only [initialStep, hx]
          split
          · rfl
          · rfl
        rw [h1] at hmem
        exact Or.inl hmem
      | m1 :: m2 :: ms =>
        simp only [initialStep, hx] at hmem
        rcases mem_setAddList hmem with hmem' | rfl
        · exact Or.inl hmem'
        · exact Or.inr ⟨a, List.mem_cons_self _ _, ⟨m1, m2, ms, hx⟩, by rw [hx]⟩
    · exact Or.inr ⟨r, List.mem_cons_of_mem _ hr, hdata, hsort⟩

/-! #### The fallback step commits exactly the state-independent resolution -/

theorem noMatchStep_modified_char {endsong : List EndsongRow}
    {history : List HistoryRow} {op : Nat → Str} {st : PassState} {entry : Nat}
    {st₁ : PassState} (h : noMatchStep endsong history op st entry = .ok st₁)
    (hg : modifiedHas st.modified entry = false) :
    match fallbackRow endsong history op entry with
    | some x => st₁.modified = st.modified ++ [x]
    | none => st₁.modified = st.modified := by
  have hmod : ¬(modifiedHas st.modified entry = true) := by
    rw [hg]; exact Bool.false_ne_true
  rw [noMatchStep, if_neg hmod] at h
  rw [fallbackRow]
  match hfe : endsong.find? (fun x => x.id == entry) with
  | none => rw [hfe] at h; cases h
  | some e =>
    rw [hfe] at h
    rw [hfe]
    simp only at h
    simp only
    match hfm : fallbackMatches history e with
    | [] =>
      rw [hfm] at h
      simp only [Except.ok.injEq] at h
      simp only
      rw [← h]
    | m0 :: mrest =>
      rw [hfm] at h
      simp only at h
      simp only
      by_cases hlen : 1 < (firstDedup (m0 :: mrest)).length
      · rw [if_pos hlen] at h
        rw [if_pos hlen]
        by_cases hu : op entry = ['u'] ∨ op entry = ['U']
        · rw [if_pos hu] at h
          rw [if_pos hu]
          simp only [Except.ok.injEq] at h
          simp only
          rw [← h]
        · rw [if_neg hu] at h
          rw [if_neg hu]
          match hk : parseInt (op entry) with
          | none => rw [hk] at h; cases h
          | some k =>
            rw [hk] at h
            simp only at h
            simp only
            match hgt : pythonGet (firstDedup (m0 :: mrest)) k with
            | none => rw [hgt] at h; cases h
            | some chosen =>
              rw [hgt] at h
              simp only [Except.ok.injEq] at h
              simp only
              rw [← h]
      · rw [if_neg hlen] at h
        rw [if_neg hlen]
        simp only [Except.ok.injEq] at h
        simp only
        rw [← h]

theorem fallbackRow_id {endsong : List EndsongRow} {history : List HistoryRow}
    {op : Nat → Str} {entry : Nat} {x : EndsongRow}
    (h : fallbackRow endsong history op entry = some x) : x.id = entry := by
  rw [fallbackRow] at h
  match hfe : endsong.find? (fun z => z.id == entry) with
  | none => rw [hfe] at h; cases h
  | some e =>
    rw [hfe] at h
    simp only at h
    have he : e.id = entry := find?_id hfe
    match hfm : fallbackMatches history e with
    | [] => rw [hfm] at h; cases h
    | m0 :: mrest =>
      rw [hfm] at h
      simp only at h
      by_cases hlen : 1 < (firstDedup (m0 :: mrest)).length
      · rw [if_pos hlen] at h
        by_cases hu : op entry = ['u'] ∨ op entry = ['U']
        · rw [if_pos hu] at h; cases h
        · rw [if_neg hu] at h
          match hk : parseInt (op entry) with
          | none => rw [hk] at h; cases h
          | some k =>
            rw [hk] at h
            simp only at h
            match hgt : pythonGet (firstDedup (m0 :: mrest)) k with
            | none => rw [hgt] at h; cases h
            | some chosen =>
              rw [hgt] at h
              simp only [Option.some.injEq] at h
              rw [← h, resolveWith_id]
              exact he
      · rw [if_neg hlen] at h
        simp only [Option.some.injEq] at h
        rw [← h, resolveWith_id]
        exact he

theorem foldlM_noMatch_new_rows {endsong : List EndsongRow}
    {history : List HistoryRow} {op : Nat → Str} (l : List Nat)
    (st st' : PassState)
    (h : l.foldlM (noMatchStep endsong history op) st = .ok st') :
    ∀ row ∈ st'.modified,
      row ∈ st.modified ∨
        ∃ entry ∈ l, fallbackRow endsong history op entry = some row ∧
          modifiedHas st.modified entry = false := by
  induction l generalizing st with
  | nil =>
    simp only [List.foldlM_nil, pure, Except.pure, Except.ok.injEq] at h
    rw [← h]
    exact fun row hrow => Or.inl hrow
  | cons a as ih =>
    rw [List.foldlM_cons] at h
    obtain ⟨st₁, hstep, hrest⟩ := except_bind_ok h
    intro row hrow
    rcases ih st₁ hrest row hrow with hmem | ⟨entry, hent, hfb, hguard⟩
    · by_cases hg : modifiedHas st.modified a = true
      · obtain ⟨_, _, _, _, hcases⟩ := noMatchStep_ok_cases hstep
        rcases hcases with ⟨_, hmo, _, _⟩ | ⟨hgf, _, _, _⟩ | ⟨hgf, _, _, _⟩ |
          ⟨hgf, _, _, _⟩
        · rw [hmo] at hmem; exact Or.inl hmem
        · rw [hg] at hgf; cases hgf
        · rw [hg] at hgf; cases hgf
        · rw [hg] at hgf; cases hgf
      · rw [Bool.not_eq_true] at hg
        have hchar := noMatchStep_modified_char hstep hg
        match hfb : fallbackRow endsong history op a with
        | some x =>
          rw [hfb] at hchar
          rw [hchar] at hmem
          rcases List.mem_append.mp hmem with hmem' | hmem'
          · exact Or.inl hmem'
          · rcases List.mem_singleton.mp hmem' with rfl
            exact Or.inr ⟨a, List.mem_cons_self _ _, hfb, hg⟩
        | none =>
          rw [hfb] at hchar
          rw [hchar] at hmem
          exact Or.inl hmem
    · obtain ⟨_, _, _, _, hcases⟩ := noMatchStep_ok_cases hstep
      have hguard' : modifiedHas st.modified entry = false := by
        rcases hcases with ⟨_, hmo, _, _⟩ | ⟨_, hmo, _, _⟩ | ⟨_, hmo, _, _⟩ |
          ⟨_, ⟨x, hmo, _⟩, _, _⟩
        · rw [hmo] at hguard; exact hguard
        · rw [hmo] at hguard; exact hguard
        · rw [hmo] at hguard; exact hguard
        · rw [hmo, modifiedHas_append, Bool.or_eq_false_iff] at hguard
          exact hguard.1
      exact Or.inr ⟨entry, List.mem_cons_of_mem _ hent, hfb, hguard'⟩

theorem foldlM_noMatch_pos {endsong : List EndsongRow}
    {history : List HistoryRow} {op : Nat → Str} (l : List Nat)
    (st st' : PassState)
    (h : l.foldlM (noMatchStep endsong history op) st = .ok st')
    (hl : l.Nodup) {entry : Nat} (he : entry ∈ l)
    (hg : modifiedHas st.modified entry = false) {x : EndsongRow}
    (hfb : fallbackRow endsong history op entry = some x) :
    x ∈ st'.modified := by
  induction l generalizing st with
  | nil => cases he
  | cons a as ih =>
    rw [List.foldlM_cons] at h
    obtain ⟨st₁, hstep, hrest⟩ := except_bind_ok h
    rw [List.nodup_cons] at hl
    rcases List.mem_cons.mp he with rfl | he'
    · have hchar := noMatchStep_modified_char hstep hg
      rw [hfb] at hchar
      obtain ⟨t, ht⟩ := foldlM_noMatch_append as st₁ st' hrest
      rw [ht, hchar]
      exact List.mem_append_left _ (List.mem_append_right _ (List.mem_singleton_self _))
    · have hae : a ≠ entry := fun hc => hl.1 (hc ▸ he')
      have hg₁ : modifiedHas st₁.modified entry = false := by
        obtain ⟨_, _, _, _, hcases⟩ := noMatchStep_ok_cases hstep
        rcases hcases with ⟨_, hmo, _, _⟩ | ⟨_, hmo, _, _⟩ | ⟨_, hmo, _, _⟩ |
          ⟨_, ⟨y, hmo, hy⟩, _, _⟩
        · rw [hmo]; exact hg
        · rw [hmo]; exact hg
        · rw [hmo]; exact hg
        · rw [hmo, modifiedHas_append, hg, Bool.false_or]
          rw [modifiedHas_eq_false]
          intro r hr
          rcases List.mem_singleton.mp hr with rfl
          rw [hy]
          exact hae
      exact ih st₁ hrest hl.2 he' hg₁

/-! #### Oracle-loop behaviour on rows and queued keys -/

theorem sqlEqO_none_right (a : Option Str) : sqlEqO a none = false := by
  match a with
  | none => rfl
  | some x => rfl

theorem oracleFun_nonnull (orc : Option Str × Option Str → OracleOutcome)
    (kvs : List ((Option Str × Option Str) × Nat)) {r : EndsongRow}
    (ha : ¬(r.album_name = none)) (hu : ¬(r.track_uri = none)) :
    ¬((oracleFun orc kvs r).album_name = none)
    ∧ ¬((oracleFun orc kvs r).track_uri = none) := by
  induction kvs generalizing r with
  | nil => exact ⟨ha, hu⟩
  | cons kv kvs ih =>
    rw [oracleFun_cons]
    match ho : orc kv.1 with
    | .timeout => rw [oracleStepFun_timeout ho]; exact ih ha hu
    | .reject => rw [oracleStepFun_reject ho]; exact ih ha hu
    | .accept album clip =>
      by_cases hm : sqlEqO r.track_name kv.1.1 ∧ sqlEqO r.artist_name kv.1.2
      · rw [oracleStepFun_accept_pos ho hm]
        exact ih (by simp) (by simp)
      · rw [oracleStepFun_accept_neg ho hm]
        exact ih ha hu

theorem oracleFun_id_of_nullish (orc : Option Str × Option Str → OracleOutcome)
    (kvs : List ((Option Str × Option Str) × Nat)) {r : EndsongRow}
    (h : (oracleFun orc kvs r).album_name = none ∨
      (oracleFun orc kvs r).track_uri = none) :
    oracleFun orc kvs r = r := by
  induction kvs generalizing r with
  | nil => rfl
  | cons kv kvs ih =>
    rw [oracleFun_cons] at h ⊢
    match ho : orc kv.1 with
    | .timeout =>
      rw [oracleStepFun_timeout ho] at h ⊢
      exact ih h
    | .reject =>
      rw [oracleStepFun_reject ho] at h ⊢
      exact ih h
    | .accept album clip =>
      by_cases hm : sqlEqO r.track_name kv.1.1 ∧ sqlEqO r.artist_name kv.1.2
      · rw [oracleStepFun_accept_pos ho hm] at h
        obtain ⟨hna, hnu⟩ := oracleFun_nonnull orc kvs
          (r := { r with album_name := some album, track_uri := some (spotifyUriOf clip) })
          (by simp) (by simp)
        rcases h with h | h
        · exact absurd h hna
        · exact absurd h hnu
      · rw [oracleStepFun_accept_neg ho hm] at h ⊢
        exact ih h

theorem oracleFun_hit (orc : Option Str × Option Str → OracleOutcome)
    (kvs : List ((Option Str × Option Str) × Nat))
    {kv : (Option Str × Option Str) × Nat} {a c : Str} {r : EndsongRow}
    (hkv : kv ∈ kvs) (ho : orc kv.1 = .accept a c)
    (ht : sqlEqO r.track_name kv.1.1 = true)
    (har : sqlEqO r.artist_name kv.1.2 = true) :
    ¬((oracleFun orc kvs r).album_name = none)
    ∧ ¬((oracleFun orc kvs r).track_uri = none) := by
  induction kvs generalizing r with
  | nil => cases hkv
  | cons kv0 kvs ih =>
    rw [oracleFun_cons]
    rcases List.mem_cons.mp hkv with rfl | hkv'
    · rw [oracleStepFun_accept_pos ho ⟨ht, har⟩]
      exact oracleFun_nonnull orc kvs (by simp) (by simp)
    · obtain ⟨s1, s2, s3⟩ := oracleStepFun_names orc kv0 r
      exact ih hkv' (by rw [s2]; exact ht) (by rw [s3]; exact har)

theorem oracleFun_safe_id (orc : Option Str × Option Str → OracleOutcome)
    (kvs : List ((Option Str × Option Str) × Nat))
    (hsafe : ∀ kv ∈ kvs, ∀ a c, orc kv.1 = .accept a c →
      kv.1.1 = none ∨ kv.1.2 = none)
    (r : EndsongRow) : oracleFun orc kvs r = r := by
  induction kvs with
  | nil => rfl
  | cons kv0 kvs ih =>
    rw [oracleFun_cons]
    have hstep : oracleStepFun orc kv0 r = r := by
      match ho : orc kv0.1 with
      | .timeout => exact oracleStepFun_timeout ho r
      | .reject => exact oracleStepFun_reject ho r
      | .accept a c =>
        refine oracleStepFun_accept_neg ho ?_
        rintro ⟨hc1, hc2⟩
        rcases hsafe kv0 (List.mem_cons_self _ _) a c ho with hn | hn
        · rw [hn, sqlEqO_none_right] at hc1
          cases hc1
        · rw [hn, sqlEqO_none_right] at hc2
          cases hc2
    rw [hstep]
    exact ih (fun kv hkv => hsafe kv (List.mem_cons_of_mem _ hkv))

theorem enrichFun_names (endsong : List EndsongRow) (r : EndsongRow) :
    (enrichFun endsong r).id = r.id
    ∧ (enrichFun endsong r).track_name = r.track_name
    ∧ (enrichFun endsong r).artist_name = r.artist_name := by
  rw [enrichFun]
  by_cases hn : r.album_name = none ∨ r.track_uri = none
  · rw [if_pos hn]
    match hx : enrichLookup endsong r.track_name r.artist_name with
    | none => exact ⟨rfl, rfl, rfl⟩
    | some du => exact ⟨rfl, rfl, rfl⟩
  · rw [if_neg hn]
    exact ⟨rfl, rfl, rfl⟩

/-! #### The oracle work queue after enrichment -/

theorem mem_dictInsert {d : List ((Option Str × Option Str) × Nat)}
    {k : Option Str × Option Str} {v : Nat}
    {kv : (Option Str × Option Str) × Nat} (h : kv ∈ dictInsert d k v) :
    kv ∈ d ∨ kv.1 = k := by
  rw [dictInsert] at h
  by_cases hk : d.any (fun p => p.1 = k)
  · rw [if_pos hk] at h
    rcases List.mem_map.mp h with ⟨p, hp, hkv⟩
    by_cases hpk : p.1 = k
    · rw [if_pos hpk] at hkv
      right
      rw [← hkv]
    · rw [if_neg hpk] at hkv
      left
      rw [← hkv]
      exact hp
  · rw [if_neg hk] at h
    rcases List.mem_append.mp h with h' | h'
    · exact Or.inl h'
    · right
      rw [List.mem_singleton.mp h']

theorem dictInsert_hasKey_mono {d : List ((Option Str × Option Str) × Nat)}
    {k : Option Str × Option Str} {v : Nat} {k0 : Option Str × Option Str}
    (h : d.any (fun p => p.1 = k0) = true) :
    (dictInsert d k v).any (fun p => p.1 = k0) = true := by
  rw [dictInsert]
  simp only [List.any_eq_true, decide_eq_true_eq] at h
  obtain ⟨p, hp, hpk⟩ := h
  by_cases hk : d.any (fun p => p.1 = k)
  · rw [if_pos hk]
    simp only [List.any_eq_true, decide_eq_true_eq]
    refine ⟨if p.1 = k then (k, v) else p, List.mem_map_of_mem _ hp, ?_⟩
    by_cases hpkk : p.1 = k
    · rw [if_pos hpkk]
      rw [← hpkk, hpk]
    · rw [if_neg hpkk]
      exact hpk
  · rw [if_neg hk]
    simp only [List.any_eq_true, decide_eq_true_eq]
    exact ⟨p, List.mem_append_left _ hp, hpk⟩

theorem dictInsert_hasKey_self (d : List ((Option Str × Option Str) × Nat))
    (k : Option Str × Option Str) (v : Nat) :
    (dictInsert d k v).any (fun p => p.1 = k) = true := by
  rw [dictInsert]
  by_cases hk : d.any (fun p => p.1 = k)
  · rw [if_pos hk]
    simp only [List.any_eq_true, decide_eq_true_eq] at hk
    obtain ⟨p, hp, hpk⟩ := hk
    simp only [List.any_eq_true, decide_eq_true_eq]
    refine ⟨if p.1 = k then (k, v) else p, List.mem_map_of_mem _ hp, ?_⟩
    rw [if_pos hpk]
  · rw [if_neg hk]
    simp only [List.any_eq_true, decide_eq_true_eq]
    exact ⟨(k, v), List.mem_append_right _ (List.mem_singleton_self _), rfl⟩

theorem foldl_enrichStep_noExtra_sub (endsong : List EndsongRow)
    (ts : List EndsongRow) (st : PassState) :
    ∀ kv ∈ (ts.foldl (enrichStep endsong) st).noExtra,
      kv ∈ st.noExtra ∨ ∃ t ∈ ts, kv.1 = (t.track_name, t.artist_name) ∧
        enrichLookup endsong t.track_name t.artist_name = none := by
  induction ts generalizing st with
  | nil => exact fun kv h => Or.inl h
  | cons t ts ih =>
    intro kv hkv
    rw [List.foldl_cons] at hkv
    rcases ih (enrichStep endsong st t) kv hkv with hmem | ⟨t', ht', hk, hl⟩
    · match hx : enrichLookup endsong t.track_name t.artist_name with
      | none =>
        simp only [enrichStep, hx] at hmem
        rcases mem_dictInsert hmem with h' | h'
        · exact Or.inl h'
        · exact Or.inr ⟨t, List.mem_cons_self _ _, h', hx⟩
      | some du =>
        simp only [enrichStep, hx] at hmem
        exact Or.inl hmem
    · exact Or.inr ⟨t', List.mem_cons_of_mem _ ht', hk, hl⟩

theorem foldl_enrichStep_noExtra_mono (endsong : List EndsongRow)
    (ts : List EndsongRow) (st : PassState) {k : Option Str × Option Str}
    (h : st.noExtra.any (fun p => p.1 = k) = true) :
    ((ts.foldl (enrichStep endsong) st).noExtra.any (fun p => p.1 = k)) = true := by
  induction ts generalizing st with
  | nil => exact h
  | cons t ts ih =>
    rw [List.foldl_cons]
    refine ih _ ?_
    match hx : enrichLookup endsong t.track_name t.artist_name with
    | none =>
      simp only [enrichStep, hx]
      exact dictInsert_hasKey_mono h
    | some du =>
      simp only [enrichStep, hx]
      exact h

theorem foldl_enrichStep_noExtra_pos (endsong : List EndsongRow)
    (ts : List EndsongRow) (st : PassState) {t : EndsongRow} (ht : t ∈ ts)
    (hl : enrichLookup endsong t.track_name t.artist_name = none) :
    ((ts.foldl (enrichStep endsong) st).noExtra.any
      (fun p => p.1 = (t.track_name, t.artist_name))) = true := by
  induction ts generalizing st with
  | nil => cases ht
  | cons a ts ih =>
    rw [List.foldl_cons]
    rcases List.mem_cons.mp ht with rfl | ht'
    · refine foldl_enrichStep_noExtra_mono endsong ts _ ?_
      simp only [enrichStep, hl]
      exact dictInsert_hasKey_self _ _ _
    · exact ih _ ht'

theorem delSentinel_noExtra {st st₁ : PassState} (h : delSentinel st = .ok st₁) :
    st₁.noExtra = st.noExtra.filter (fun p => ¬(p.1 = sentinelKey)) := by
  rw [delSentinel] at h
  by_cases hs : st.noExtra.any (fun p => p.1 = sentinelKey)
  · rw [if_pos hs] at h
    simp only [Except.ok.injEq] at h
    rw [← h]
  · rw [if_neg hs] at h
    cases h

/-! #### Normalized URIs are a fixed point of the fixup passes -/

theorem lowerStr_take (n : Nat) (s : Str) :
    lowerStr (s.take n) = (lowerStr s).take n := by
  rw [lowerStr, lowerStr, List.map_take]

theorem likePrefix_spotify_wrap (u : Str) :
    likePrefix spotifyStr (spotifyTrackPrefix ++ u) = true := by
  have h : (spotifyTrackPrefix ++ u).take spotifyStr.length =
      spotifyTrackPrefix.take spotifyStr.length := by
    rw [List.take_append_eq_append_take,
      show (spotifyStr.length - spotifyTrackPrefix.length) = 0 from rfl,
      List.take_zero, List.append_nil]
  rw [likePrefix, h]
  decide

theorem not_https_of_spotify {u : Str} (h : likePrefix spotifyStr u = true) :
    likePrefix httpsStr u = false := by
  simp only [likePrefix, decide_eq_true_eq] at h
  simp only [likePrefix, decide_eq_false_iff_not]
  intro hc
  have h5 : (lowerStr u).take httpsStr.length = lowerStr httpsStr := by
    rw [← lowerStr_take]
    exact hc
  have h7 : (lowerStr u).take spotifyStr.length = lowerStr spotifyStr := by
    rw [← lowerStr_take]
    exact h
  have hmin : ((lowerStr u).take spotifyStr.length).take httpsStr.length =
      (lowerStr u).take httpsStr.length := by
    rw [List.take_take,
      show List.length httpsStr ⊓ List.length spotifyStr = List.length httpsStr
        from by decide]
  rw [h7, h5] at hmin
  exact absurd hmin (by decide)

theorem normalizeUri_some_ex (s : Str) :
    ∃ t, normalizeUri (some s) = some t := by
  simp only [normalizeUri]
  by_cases hA : likePrefix httpsStr s = true
  · rw [if_pos hA]
    by_cases hB : likePrefix spotifyStr
        (spotifyTrackPrefix ++ ((s.takeWhile (fun c => ¬(c = '?'))).drop 31)) = true
    · rw [if_pos hB]
      exact ⟨_, rfl⟩
    · rw [if_neg hB]
      exact ⟨_, rfl⟩
  · rw [if_neg hA]
    by_cases hB : likePrefix spotifyStr s = true
    · rw [if_pos hB]
      exact ⟨_, rfl⟩
    · rw [if_neg hB]
      exact ⟨_, rfl⟩

theorem normalizeUri_eq_none {u : Option Str} :
    normalizeUri u = none ↔ u = none := by
  match u with
  | none => simp [normalizeUri]
  | some s =>
    constructor
    · intro h
      obtain ⟨t, ht⟩ := normalizeUri_some_ex s
      rw [ht] at h
      exact Option.noConfusion h
    · intro h
      cases h

theorem normalizeUri_some_spotify {u s : Str}
    (h : normalizeUri (some u) = some s) : likePrefix spotifyStr s = true := by
  simp only [normalizeUri] at h
  by_cases hA : likePrefix httpsStr u = true
  · rw [if_pos hA] at h
    by_cases hB : likePrefix spotifyStr
        (spotifyTrackPrefix ++ ((u.takeWhile (fun c => ¬(c = '?'))).drop 31)) = true
    · rw [if_pos hB] at h
      simp only [Option.some.injEq] at h
      rw [← h]
      exact hB
    · rw [if_neg hB] at h
      simp only [Option.some.injEq] at h
      rw [← h]
      exact likePrefix_spotify_wrap _
  · rw [if_neg hA] at h
    by_cases hB : likePrefix spotifyStr u = true
    · rw [if_pos hB] at h
      simp only [Option.some.injEq] at h
      rw [← h]
      exact hB
    · rw [if_neg hB] at h
      simp only [Option.some.injEq] at h
      rw [← h]
      exact likePrefix_spotify_wrap _

theorem normalizeUri_fix {u : Str} (h : likePrefix spotifyStr u = true) :
    normalizeUri (some u) = some u := by
  have hh := not_https_of_spotify h
  simp [normalizeUri, hh, h]

theorem normalizeUri_fix_row {r : EndsongRow}
    (h : r.track_uri = none ∨
      ∃ u, r.track_uri = some u ∧ likePrefix spotifyStr u = true) :
    ({ r with track_uri := normalizeUri r.track_uri }) = r := by
  rcases h with h | ⟨u, hu, hsp⟩
  · rw [h, show normalizeUri none = none from rfl, ← h]
  · rw [hu, normalizeUri_fix hsp, ← hu]

theorem fixups_output_normalized (m : List EndsongRow) :
    ∀ row ∈ fixupPass2 (fixupPass1 m),
      row.track_uri = none ∨
        ∃ u, row.track_uri = some u ∧ likePrefix spotifyStr u = true := by
  rw [fixupPasses_map]
  intro row hrow
  rcases List.mem_map.mp hrow with ⟨x, hx, hrw⟩
  rw [← hrw]
  show normalizeUri x.track_uri = none ∨
    ∃ u, normalizeUri x.track_uri = some u ∧ likePrefix spotifyStr u = true
  match hu : x.track_uri with
  | none => exact Or.inl rfl
  | some s =>
    have hne : normalizeUri (some s) ≠ none := fun hc =>
      Option.noConfusion (normalizeUri_eq_none.mp hc)
    obtain ⟨s', hs'⟩ := Option.ne_none_iff_exists'.mp hne
    exact Or.inr ⟨s', hs', normalizeUri_some_spotify hs'⟩

/-! #### The exporter's sentinel filter -/

theorem mem_exportDelete {m : List EndsongRow} {row : EndsongRow} :
    row ∈ exportDelete m ↔ row ∈ m ∧ ¬sentinelNamed row := by
  rw [exportDelete, List.mem_filter]
  constructor
  · rintro ⟨h1, h2⟩
    refine ⟨h1, fun hs => ?_⟩
    have hs' : row.track_name = some sentinelTrack ∧
        row.artist_name = some sentinelArtist := hs
    simp only [decide_eq_true_eq] at h2
    exact h2 ⟨sqlEqO_some.mpr hs'.1, sqlEqO_some.mpr hs'.2⟩
  · rintro ⟨h1, h2⟩
    refine ⟨h1, ?_⟩
    simp only [decide_eq_true_eq]
    rintro ⟨ha, hb⟩
    exact h2 ⟨sqlEqO_some.mp ha, sqlEqO_some.mp hb⟩

theorem exportDelete_eq_self {m : List EndsongRow}
    (h : ∀ r ∈ m, ¬sentinelNamed r) : exportDelete m = m := by
  rw [exportDelete, List.filter_eq_self]
  intro r hr
  simp only [decide_eq_true_eq]
  rintro ⟨ha, hb⟩
  exact h r hr ⟨sqlEqO_some.mp ha, sqlEqO_some.mp hb⟩

theorem exportDelete_eq_nil {m : List EndsongRow}
    (h : ∀ r ∈ m, sentinelNamed r) : exportDelete m = [] := by
  rw [exportDelete, List.filter_eq_nil_iff]
  intro r hr
  have hs : r.track_name = some sentinelTrack ∧
      r.artist_name = some sentinelArtist := h r hr
  simp only [decide_eq_true_eq, Decidable.not_not]
  exact ⟨sqlEqO_some.mpr hs.1, sqlEqO_some.mpr hs.2⟩

theorem exportDelete_append (m g : List EndsongRow) :
    exportDelete (m ++ g) = exportDelete m ++ exportDelete g := by
  rw [exportDelete, exportDelete, exportDelete, List.filter_append]

/-! #### Over duplicate-free ids the enrichment fold acts pointwise -/

theorem enrichTargets_subset {m : List EndsongRow} {t : EndsongRow}
    (h : t ∈ enrichTargets m) : t ∈ m := by
  rw [enrichTargets] at h
  exact (List.mem_filter.mp h).1

theorem enrichTargets_nullish {m : List EndsongRow} {t : EndsongRow}
    (h : t ∈ enrichTargets m) : t.album_name = none ∨ t.track_uri = none := by
  rw [enrichTargets] at h
  have h2 := (List.mem_filter.mp h).2
  simp only [decide_eq_true_eq, Option.isNone_iff_eq_none] at h2
  exact h2

theorem mem_enrichTargets {m : List EndsongRow} {t : EndsongRow} (htm : t ∈ m)
    (hn : t.album_name = none ∨ t.track_uri = none) : t ∈ enrichTargets m := by
  rw [enrichTargets, List.mem_filter]
  refine ⟨htm, ?_⟩
  simp only [decide_eq_true_eq, Option.isNone_iff_eq_none]
  exact hn

theorem enrichFoldFun_skip (endsong : List EndsongRow) (ts : List EndsongRow)
    {i : Nat} (h : ∀ t ∈ ts, ¬(t.id = i)) :
    ∀ r, r.id = i → enrichFoldFun endsong ts r = r := by
  induction ts with
  | nil => intro r _; rfl
  | cons t ts ih =>
    intro r hr
    have hcons : enrichFoldFun endsong (t :: ts) r =
        enrichFoldFun endsong ts (enrichStepFun endsong t r) := rfl
    have hstep : enrichStepFun endsong t r = r := by
      match hx : enrichLookup endsong t.track_name t.artist_name with
      | none => simp only [enrichStepFun, hx]
      | some du =>
        simp only [enrichStepFun, hx]
        exact if_neg (fun hc => h t (List.mem_cons_self _ _) (by rw [← hc, hr]))
    rw [hcons, hstep]
    exact ih (fun t' ht' => h t' (List.mem_cons_of_mem _ ht')) r hr

theorem enrichStepFun_self (endsong : List EndsongRow) {t : EndsongRow}
    (hn : t.album_name = none ∨ t.track_uri = none) :
    enrichStepFun endsong t t = enrichFun endsong t := by
  rw [enrichFun, if_pos hn]
  match hx : enrichLookup endsong t.track_name t.artist_name with
  | none => simp only [enrichStepFun, hx]
  | some du =>
    simp only [enrichStepFun, hx]
    rw [if_pos trivial]

theorem enrichFoldFun_eval (endsong : List EndsongRow) {m : List EndsongRow}
    (hnd : (m.map (fun r => r.id)).Nodup) {r : EndsongRow} (hr : r ∈ m) :
    enrichFoldFun endsong (enrichTargets m) r = enrichFun endsong r := by
  by_cases hn : r.album_name = none ∨ r.track_uri = none
  · have hrt : r ∈ enrichTargets m := mem_enrichTargets hr hn
    obtain ⟨ts₁, ts₂, hsplit⟩ := List.append_of_mem hrt
    have hndm : m.Nodup := List.Nodup.of_map _ hnd
    have hts : (enrichTargets m).Nodup := by
      rw [enrichTargets]
      exact hndm.filter _
    rw [hsplit] at hts
    have hparts := List.nodup_append.mp hts
    have hrts₁ : r ∉ ts₁ := fun hc => hparts.2.2 hc (List.mem_cons_self _ _)
    have hrts₂ : r ∉ ts₂ := (List.nodup_cons.mp hparts.2.1).1
    have hskip1 : ∀ t ∈ ts₁, ¬(t.id = r.id) := by
      intro t ht hc
      have htm : t ∈ m := enrichTargets_subset
        (by rw [hsplit]; exact List.mem_append_left _ ht)
      have hteq : t = r := eq_of_ids_nodup (fun x => x.id) hnd htm hr hc
      exact hrts₁ (hteq ▸ ht)
    have hskip2 : ∀ t ∈ ts₂, ¬(t.id = r.id) := by
      intro t ht hc
      have htm : t ∈ m := enrichTargets_subset
        (by rw [hsplit]
            exact List.mem_append_right _ (List.mem_cons_of_mem _ ht))
      have hteq : t = r := eq_of_ids_nodup (fun x => x.id) hnd htm hr hc
      exact hrts₂ (hteq ▸ ht)
    rw [hsplit]
    have hfold : enrichFoldFun endsong (ts₁ ++ r :: ts₂) r =
        enrichFoldFun endsong ts₂
          (enrichStepFun endsong r (enrichFoldFun endsong ts₁ r)) := by
      rw [enrichFoldFun, List.foldl_append, List.foldl_cons]
      rfl
    rw [hfold, enrichFoldFun_skip endsong ts₁ hskip1 r rfl,
      enrichStepFun_self endsong hn]
    exact enrichFoldFun_skip endsong ts₂ hskip2 _ (enrichFun_names endsong r).1
  · have hskip : ∀ t ∈ enrichTargets m, ¬(t.id = r.id) := by
      intro t ht hc
      have htm : t ∈ m := enrichTargets_subset ht
      have hteq : t = r := eq_of_ids_nodup (fun x => x.id) hnd htm hr hc
      exact hn (hteq ▸ enrichTargets_nullish ht)
    rw [enrichFoldFun_skip endsong _ hskip r rfl, enrichFun, if_neg hn]

theorem enrichPass_modified_map (endsong : List EndsongRow) (st : PassState)
    (hnd : (st.modified.map (fun r => r.id)).Nodup) :
    (enrichPass endsong st).modified = st.modified.map (enrichFun endsong) := by
  rw [enrichPass, foldl_enrichStep_modified]
  exact map_congr_mem (fun a ha => enrichFoldFun_eval endsong hnd ha)

/-! #### Chasing a reconciled row of the first run into its snapshot -/

theorem runStages_tail_map (endsong : List EndsongRow)
    (orc : Option Str × Option Str → OracleOutcome) {st₃ st₅ : PassState}
    (hnd : (st₃.modified.map (fun r => r.id)).Nodup)
    (h5 : delSentinel (enrichPass endsong st₃) = .ok st₅) :
    fixupPass2 (fixupPass1 (oraclePass orc st₅).modified) =
      st₃.modified.map (fun r => { oracleFun orc st₅.noExtra (enrichFun endsong r) with track_uri := normalizeUri (oracleFun orc st₅.noExtra (enrichFun endsong r)).track_uri }) := by
  rw [oraclePass_modified_map, (delSentinel_ok_fields h5).1,
    enrichPass_modified_map endsong st₃ hnd, fixupPasses_map,
    List.map_map, List.map_map]
  rfl

theorem run1_chase (endsong : List EndsongRow) (history : List HistoryRow)
    (op : Nat → Str) (orc : Option Str × Option Str → OracleOutcome)
    {st₂ st₃ st₅ : PassState}
    (h2 : clusterPass endsong history
        (initialPass endsong history (PassState.initial [])) = .ok st₂)
    (h3 : nonePass endsong history op st₂ = .ok st₃)
    (h5 : delSentinel (enrichPass endsong st₃) = .ok st₅)
    {x : EndsongRow} (hx : x ∈ st₃.modified) (hsent : ¬sentinelNamed x) :
    ∃ row ∈ exportDelete (fixupPass2 (fixupPass1 (oraclePass orc st₅).modified)),
      row.id = x.id ∧ row.track_name = x.track_name ∧
        row.artist_name = x.artist_name := by
  have hnd : (st₃.modified.map (fun r => r.id)).Nodup :=
    nodup_ids_st3 h2 h3 (by simp)
  rw [runStages_tail_map endsong orc hnd h5]
  obtain ⟨e1, e2, e3⟩ := enrichFun_names endsong x
  obtain ⟨o1, o2, o3⟩ := oracleFun_names orc st₅.noExtra (enrichFun endsong x)
  refine ⟨{ oracleFun orc st₅.noExtra (enrichFun endsong x) with track_uri := normalizeUri (oracleFun orc st₅.noExtra (enrichFun endsong x)).track_uri }, ?_, o1.trans e1, o2.trans e2, o3.trans e3⟩
  rw [mem_exportDelete]
  refine ⟨List.mem_map_of_mem _ hx, fun hs => hsent ?_⟩
  have hs' : (oracleFun orc st₅.noExtra (enrichFun endsong x)).track_name =
        some sentinelTrack ∧
      (oracleFun orc st₅.noExtra (enrichFun endsong x)).artist_name =
        some sentinelArtist := hs
  exact ⟨by rw [← o2.trans e2]; exact hs'.1, by rw [← o3.trans e3]; exact hs'.2⟩

/-! #### All candidates of a collision cluster share its exact-match list -/

theorem cluster_cands_matches {endsong : List EndsongRow}
    {history : List HistoryRow} (hTs : tsConsistent endsong history)
    (hH : (history.map (fun h => h.id)).Nodup) {r : EndsongRow} {t : List Nat}
    (ht : t = sortNat ((exactMatches history r).map (fun h => h.id)))
    {h0 : HistoryRow} {hrest : List HistoryRow}
    (hch : clusterHistory history t = h0 :: hrest) {e' : EndsongRow}
    (he' : e' ∈ clusterCands endsong h0) :
    exactMatches history e' = exactMatches history r := by
  have hh0 : h0 ∈ clusterHistory history t := by
    rw [hch]
    exact List.mem_cons_self _ _
  rw [mem_clusterHistory] at hh0
  obtain ⟨hh0hist, hh0t⟩ := hh0
  rw [ht, mem_sortNat] at hh0t
  rcases List.mem_map.mp hh0t with ⟨h', hh', hh'id⟩
  have hh'hist : h' ∈ history := by
    rw [exactMatches] at hh'
    exact (List.mem_filter.mp hh').1
  have hh'eq : h' = h0 := eq_of_ids_nodup (fun h => h.id) hH hh'hist hh0hist hh'id
  rw [hh'eq] at hh'
  rw [exactMatches, List.mem_filter] at hh'
  have hcond := hh'.2
  simp only [decide_eq_true_eq] at hcond
  rw [mem_clusterCands] at he'
  obtain ⟨he'mem, he'ios, he'ms, he'like⟩ := he'
  have hmk : minuteKey e'.ts = h0.endTime := (hTs e' he'mem h0 hh0hist).mp he'like
  rw [exactMatches, exactMatches]
  refine List.filter_congr ?_
  intro a _
  rw [hmk, hcond.1, he'ms, hcond.2]

/-! #### Where a reconciled row of the exact-key stages comes from -/

theorem run1_st2_rows (endsong : List EndsongRow) (history : List HistoryRow)
    {st₂ : PassState}
    (h2 : clusterPass endsong history
        (initialPass endsong history (PassState.initial [])) = .ok st₂)
    {row : EndsongRow} (hrow : row ∈ st₂.modified) :
    (∃ r ∈ endsong, r.platform = iosStr ∧ ∃ m, exactMatches history r = [m] ∧
        row = resolveWith r m.trackName m.artistName)
    ∨ (∃ t ∈ (initialPass endsong history (PassState.initial [])).multiple,
        ∃ h0 hrest, clusterHistory history t = h0 :: hrest ∧
          ∃ p ∈ (h0 :: hrest).zip (clusterCands endsong h0),
            row = resolveWith p.2 p.1.trackName p.1.artistName) := by
  rw [clusterPass] at h2
  rcases foldlM_clusterStep_new_rows _ _ _ h2 row hrow with
    hmem | ⟨t, ht, h0, hrest, hch, p, hp, hdata, _⟩
  · rw [initialPass] at hmem
    rcases foldl_initialStep_new_rows history _ _ row hmem with
      hmem' | ⟨r, hr, ⟨m, hEM, hrw⟩, _⟩
    · simp [PassState.initial] at hmem'
    · rw [List.mem_filter] at hr
      refine Or.inl ⟨r, hr.1, ?_, m, hEM, hrw⟩
      have hios := hr.2
      simp only [decide_eq_true_eq] at hios
      exact hios
  · exact Or.inr ⟨t, ht, h0, hrest, hch, p, hp, hdata⟩

/-! #### Non-sentinel resolutions of the first run survive into its snapshot -/

theorem run1_block_singleton (endsong : List EndsongRow)
    (history : List HistoryRow) (op : Nat → Str)
    (orc : Option Str × Option Str → OracleOutcome) {st₂ st₃ st₅ : PassState}
    (hE : (endsong.map (fun r => r.id)).Nodup)
    (hH : (history.map (fun h => h.id)).Nodup)
    (hTs : tsConsistent endsong history)
    (h2 : clusterPass endsong history
        (initialPass endsong history (PassState.initial [])) = .ok st₂)
    (h3 : nonePass endsong history op st₂ = .ok st₃)
    (h5 : delSentinel (enrichPass endsong st₃) = .ok st₅)
    {r : EndsongRow} (hr : r ∈ endsong) (hios : r.platform = iosStr)
    {m : HistoryRow} (hm : exactMatches history r = [m])
    (hsent : ¬sentinelNamed (resolveWith r m.trackName m.artistName)) :
    modifiedHas
      (exportDelete (fixupPass2 (fixupPass1 (oraclePass orc st₅).modified)))
      r.id = true := by
  have hcov : modifiedHas
      (initialPass endsong history (PassState.initial [])).modified r.id = true :=
    initialPass_covers endsong history _ r m hr hios hm
  obtain ⟨t2, ht2⟩ := (clusterPass_ok_fields h2).1
  have hcov2 : modifiedHas st₂.modified r.id = true := by
    rw [ht2]
    exact modifiedHas_mono hcov
  rcases modifiedHas_true_iff.mp hcov2 with ⟨row, hrow, hrowid⟩
  have hrowval : row = resolveWith r m.trackName m.artistName := by
    rcases run1_st2_rows endsong history h2 hrow with
      ⟨r', hr', hios', m', hEM', hrw'⟩ | ⟨t, ht, h0, hrest, hch, p, hp, hrw'⟩
    · have hid' : r'.id = r.id := by
        rw [hrw', resolveWith_id] at hrowid
        exact hrowid
      have hr'r : r' = r := eq_of_ids_nodup (fun x => x.id) hE hr' hr hid'
      rw [hr'r] at hEM'
      have hmm : m' = m := by
        have hcomb := hEM'.symm.trans hm
        simp only [List.cons.injEq, and_true] at hcomb
        exact hcomb
      rw [hrw', hr'r, hmm]
    · exfalso
      have htf : t ∈ ((endsong.filter (fun z => z.platform = iosStr)).foldl
          (initialStep history) (PassState.initial [])).multiple := by
        rw [initialPass] at ht
        exact ht
      rcases foldl_initialStep_multiple_prov history _ _ t htf with
        hmem0 | ⟨r'', hr'', ⟨m1, m2, ms, hEM2⟩, hsort⟩
      · simp [PassState.initial] at hmem0
      · have hEMp2 : exactMatches history p.2 = exactMatches history r'' :=
          cluster_cands_matches hTs hH hsort hch (List.of_mem_zip hp).2
        have hidp : p.2.id = r.id := by
          rw [hrw', resolveWith_id] at hrowid
          exact hrowid
        have hp2e : p.2 ∈ endsong := (mem_clusterCands.mp (List.of_mem_zip hp).2).1
        have hp2r : p.2 = r := eq_of_ids_nodup (fun x => x.id) hE hp2e hr hidp
        rw [hp2r, hm, hEM2] at hEMp2
        simp at hEMp2
  have hrowst3 : row ∈ st₃.modified := by
    rw [nonePass] at h3
    obtain ⟨t3, ht3⟩ := foldlM_noMatch_append _ _ _ h3
    rw [ht3]
    exact List.mem_append_left _ hrow
  have hsent' : ¬sentinelNamed row := by
    rw [hrowval]
    exact hsent
  obtain ⟨row', hrow', hid', _, _⟩ :=
    run1_chase endsong history op orc h2 h3 h5 hrowst3 hsent'
  rw [modifiedHas_true_iff]
  exact ⟨row', hrow', hid'.trans hrowid⟩

theorem run1_block_cluster (endsong : List EndsongRow)
    (history : List HistoryRow) (op : Nat → Str)
    (orc : Option Str × Option Str → OracleOutcome) {st₂ st₃ st₅ : PassState}
    (hE : (endsong.map (fun r => r.id)).Nodup)
    (hH : (history.map (fun h => h.id)).Nodup)
    (hTs : tsConsistent endsong history)
    (h2 : clusterPass endsong history
        (initialPass endsong history (PassState.initial [])) = .ok st₂)
    (h3 : nonePass endsong history op st₂ = .ok st₃)
    (h5 : delSentinel (enrichPass endsong st₃) = .ok st₅)
    {t : List Nat}
    (ht : t ∈ (initialPass endsong history (PassState.initial [])).multiple)
    {h0 : HistoryRow} {hrest : List HistoryRow}
    (hch : clusterHistory history t = h0 :: hrest)
    {p : HistoryRow × EndsongRow}
    (hp : p ∈ (h0 :: hrest).zip (clusterCands endsong h0))
    (hsent : ¬sentinelNamed (resolveWith p.2 p.1.trackName p.1.artistName)) :
    modifiedHas
      (exportDelete (fixupPass2 (fixupPass1 (oraclePass orc st₅).modified)))
      p.2.id = true := by
  have htf : t ∈ ((endsong.filter (fun z => z.platform = iosStr)).foldl
      (initialStep history) (PassState.initial [])).multiple := by
    rw [initialPass] at ht
    exact ht
  rcases foldl_initialStep_multiple_prov history _ _ t htf with
    hmem0 | ⟨r'', hr'', ⟨m1, m2, ms, hEM2⟩, hsort⟩
  · simp [PassState.initial] at hmem0
  have hcov : modifiedHas st₂.modified p.2.id = true := by
    rw [clusterPass] at h2
    exact foldlM_clusterStep_covers _ _ _ h2 t ht h0 hrest hch p hp
  rcases modifiedHas_true_iff.mp hcov with ⟨row, hrow, hrowid⟩
  have hp2cand := (List.of_mem_zip hp).2
  have hp2e : p.2 ∈ endsong := (mem_clusterCands.mp hp2cand).1
  have hEMp2 : exactMatches history p.2 = exactMatches history r'' :=
    cluster_cands_matches hTs hH hsort hch hp2cand
  have hrowval : row = resolveWith p.2 p.1.trackName p.1.artistName := by
    rcases run1_st2_rows endsong history h2 hrow with
      ⟨r', hr', hios', m', hEM', hrw'⟩ |
      ⟨t', ht', h0', hrest', hch', p', hp', hrw'⟩
    · exfalso
      have hid' : r'.id = p.2.id := by
        rw [hrw', resolveWith_id] at hrowid
        exact hrowid
      have hr'p2 : r' = p.2 := eq_of_ids_nodup (fun x => x.id) hE hr' hp2e hid'
      rw [hr'p2] at hEM'
      rw [hEM', hEM2] at hEMp2
      simp at hEMp2
    · have ht'f : t' ∈ ((endsong.filter (fun z => z.platform = iosStr)).foldl
          (initialStep history) (PassState.initial [])).multiple := by
        rw [initialPass] at ht'
        exact ht'
      rcases foldl_initialStep_multiple_prov history _ _ t' ht'f with
        hmem0' | ⟨r₃, hr₃, ⟨n1, n2, ns, hEM3⟩, hsort'⟩
      · simp [PassState.initial] at hmem0'
      · have hp'2cand := (List.of_mem_zip hp').2
        have hp'2e : p'.2 ∈ endsong := (mem_clusterCands.mp hp'2cand).1
        have hid' : p'.2.id = p.2.id := by
          rw [hrw', resolveWith_id] at hrowid
          exact hrowid
        have hp'2p2 : p'.2 = p.2 := eq_of_ids_nodup (fun x => x.id) hE hp'2e hp2e hid'
        have hEMp'2 : exactMatches history p'.2 = exactMatches history r₃ :=
          cluster_cands_matches hTs hH hsort' hch' hp'2cand
        have htt : t' = t := by
          rw [hsort', hsort, ← hEMp'2, hp'2p2, hEMp2]
        rw [htt] at hch'
        obtain ⟨hh0eq, hrest'eq⟩ : h0' = h0 ∧ hrest' = hrest := by
          have hc := hch.symm.trans hch'
          simp only [List.cons.injEq] at hc
          exact ⟨hc.1.symm, hc.2.symm⟩
        rw [hh0eq, hrest'eq] at hp'
        have hznd : (((h0 :: hrest).zip (clusterCands endsong h0)).map
            (fun q => q.2.id)).Nodup :=
          zip_snd_ids_nodup _ (ids_clusterCands_nodup hE)
        have hpp : p' = p := eq_of_ids_nodup (fun q => q.2.id) hznd hp' hp hid'
        rw [hrw', hpp]
  have hrowst3 : row ∈ st₃.modified := by
    rw [nonePass] at h3
    obtain ⟨t3, ht3⟩ := foldlM_noMatch_append _ _ _ h3
    rw [ht3]
    exact List.mem_append_left _ hrow
  have hsent' : ¬sentinelNamed row := by
    rw [hrowval]
    exact hsent
  obtain ⟨row', hrow', hid', _, _⟩ :=
    run1_chase endsong history op orc h2 h3 h5 hrowst3 hsent'
  rw [modifiedHas_true_iff]
  exact ⟨row', hrow', hid'.trans hrowid⟩

theorem run1_block_fallback (endsong : List EndsongRow)
    (history : List HistoryRow) (op : Nat → Str)
    (orc : Option Str × Option Str → OracleOutcome) {st₂ st₃ st₅ : PassState}
    (hE : (endsong.map (fun r => r.id)).Nodup)
    (hH : (history.map (fun h => h.id)).Nodup)
    (hTs : tsConsistent endsong history)
    (h2 : clusterPass endsong history
        (initialPass endsong history (PassState.initial [])) = .ok st₂)
    (h3 : nonePass endsong history op st₂ = .ok st₃)
    (h5 : delSentinel (enrichPass endsong st₃) = .ok st₅)
    {entry : Nat}
    (hent : entry ∈ (initialPass endsong history (PassState.initial [])).noneIds)
    {x : EndsongRow} (hfb : fallbackRow endsong history op entry = some x)
    (hsent : ¬sentinelNamed x) :
    modifiedHas
      (exportDelete (fixupPass2 (fixupPass1 (oraclePass orc st₅).modified)))
      entry = true := by
  rcases (initialPass_noneIds endsong history (PassState.initial []) entry).mp hent
    with hmem0 | ⟨rN, hrN, hiosN, hidN, hEMN⟩
  · simp [PassState.initial] at hmem0
  have hguard : modifiedHas st₂.modified entry = false := by
    by_contra hc
    rw [Bool.not_eq_false] at hc
    rcases modifiedHas_true_iff.mp hc with ⟨row, hrow, hrowid⟩
    rcases run1_st2_rows endsong history h2 hrow with
      ⟨r', hr', hios', m', hEM', hrw'⟩ |
      ⟨t', ht', h0', hrest', hch', p', hp', hrw'⟩
    · have hid' : r'.id = entry := by
        rw [hrw', resolveWith_id] at hrowid
        exact hrowid
      have hr'rN : r' = rN := eq_of_ids_nodup (fun z => z.id) hE hr' hrN
        (by show r'.id = rN.id; rw [hid', ← hidN])
      rw [hr'rN, hEMN] at hEM'
      cases hEM'
    · have ht'f : t' ∈ ((endsong.filter (fun z => z.platform = iosStr)).foldl
          (initialStep history) (PassState.initial [])).multiple := by
        rw [initialPass] at ht'
        exact ht'
      rcases foldl_initialStep_multiple_prov history _ _ t' ht'f with
        hmem0' | ⟨r₃, hr₃, ⟨n1, n2, ns, hEM3⟩, hsort'⟩
      · simp [PassState.initial] at hmem0'
      · have hp'2cand := (List.of_mem_zip hp').2
        have hp'2e : p'.2 ∈ endsong := (mem_clusterCands.mp hp'2cand).1
        have hid' : p'.2.id = entry := by
          rw [hrw', resolveWith_id] at hrowid
          exact hrowid
        have hp'2rN : p'.2 = rN := eq_of_ids_nodup (fun z => z.id) hE hp'2e hrN
          (by show p'.2.id = rN.id; rw [hid', ← hidN])
        have hEMp'2 : exactMatches history p'.2 = exactMatches history r₃ :=
          cluster_cands_matches hTs hH hsort' hch' hp'2cand
        rw [hp'2rN, hEMN, hEM3] at hEMp'2
        cases hEMp'2
  have hnds : (initialPass endsong history (PassState.initial [])).noneIds.Nodup := by
    rw [initialPass]
    exact foldl_initialStep_noneIds_nodup history _ _ (by simp [PassState.initial])
  have hn2 : st₂.noneIds =
      (initialPass endsong history (PassState.initial [])).noneIds :=
    (clusterPass_ok_fields h2).2.1
  have hx3 : x ∈ st₃.modified := by
    rw [nonePass] at h3
    refine foldlM_noMatch_pos _ _ _ h3 ?_ ?_ hguard hfb
    · rw [hn2]
      exact hnds
    · rw [hn2]
      exact hent
  obtain ⟨row', hrow', hid', _, _⟩ :=
    run1_chase endsong history op orc h2 h3 h5 hx3 hsent
  rw [modifiedHas_true_iff]
  exact ⟨row', hrow', by rw [hid', fallbackRow_id hfb]⟩

theorem sqlEqO_self {a : Option Str} {s : Str} (h : a = some s) :
    sqlEqO a a = true := by
  rw [h]
  simp [sqlEqO]

/-- A row of the exported snapshot that is still missing album or URI is
stable under re-enrichment: a successful lookup reproduces exactly the
stored album and (normalized) URI, and an empty lookup queues a key the
oracle does not accept with usable (non-NULL) names — otherwise the row
would have been filled in during the first run. -/
theorem run1_enrich_stable (endsong : List EndsongRow) (history : List HistoryRow)
    (op : Nat → Str) (orc : Option Str × Option Str → OracleOutcome)
    {st₂ st₃ st₅ : PassState}
    (h2 : clusterPass endsong history
        (initialPass endsong history (PassState.initial [])) = .ok st₂)
    (h3 : nonePass endsong history op st₂ = .ok st₃)
    (h5 : delSentinel (enrichPass endsong st₃) = .ok st₅)
    {row : EndsongRow}
    (hrow : row ∈ exportDelete (fixupPass2 (fixupPass1 (oraclePass orc st₅).modified)))
    (hnl : row.album_name = none ∨ row.track_uri = none) :
    (∀ du, enrichLookup endsong row.track_name row.artist_name = some du →
        du.1 = row.album_name ∧ normalizeUri du.2 = row.track_uri)
    ∧ (enrichLookup endsong row.track_name row.artist_name = none →
        ∀ a c, orc (row.track_name, row.artist_name) = OracleOutcome.accept a c →
          row.track_name = none ∨ row.artist_name = none) := by
  have hnd : (st₃.modified.map (fun r => r.id)).Nodup :=
    nodup_ids_st3 h2 h3 (by simp)
  rw [mem_exportDelete] at hrow
  obtain ⟨hrowmem, hrowsent⟩ := hrow
  rw [runStages_tail_map endsong orc hnd h5] at hrowmem
  rcases List.mem_map.mp hrowmem with ⟨t₀, ht₀, hΨ⟩
  obtain ⟨e1, e2, e3⟩ := enrichFun_names endsong t₀
  obtain ⟨o1, o2, o3⟩ := oracleFun_names orc st₅.noExtra (enrichFun endsong t₀)
  have hralb : row.album_name =
      (oracleFun orc st₅.noExtra (enrichFun endsong t₀)).album_name := by
    rw [← hΨ]
  have hruri : row.track_uri =
      normalizeUri (oracleFun orc st₅.noExtra (enrichFun endsong t₀)).track_uri := by
    rw [← hΨ]
  have hrtn : row.track_name = t₀.track_name := by
    rw [← hΨ]
    exact o2.trans e2
  have hran : row.artist_name = t₀.artist_name := by
    rw [← hΨ]
    exact o3.trans e3
  have ht₂n : (oracleFun orc st₅.noExtra (enrichFun endsong t₀)).album_name = none
      ∨ (oracleFun orc st₅.noExtra (enrichFun endsong t₀)).track_uri = none := by
    rcases hnl with h | h
    · exact Or.inl (by rw [← hralb]; exact h)
    · right
      rw [hruri] at h
      exact normalizeUri_eq_none.mp h
  have hO : oracleFun orc st₅.noExtra (enrichFun endsong t₀) = enrichFun endsong t₀ :=
    oracleFun_id_of_nullish orc st₅.noExtra ht₂n
  have ht₁n : (enrichFun endsong t₀).album_name = none
      ∨ (enrichFun endsong t₀).track_uri = none := by
    rw [← hO]
    exact ht₂n
  by_cases hn₀ : t₀.album_name = none ∨ t₀.track_uri = none
  · match hlk : enrichLookup endsong t₀.track_name t₀.artist_name with
    | none =>
      constructor
      · intro du hdu
        rw [hrtn, hran, hlk] at hdu
        cases hdu
      · intro _ a c hacc
        cases htn : row.track_name with
        | none => exact Or.inl rfl
        | some tn =>
          cases han : row.artist_name with
          | none => exact Or.inr rfl
          | some an =>
            exfalso
            have htn₀ : t₀.track_name = some tn := hrtn.symm.trans htn
            have han₀ : t₀.artist_name = some an := hran.symm.trans han
            have ht₀t : t₀ ∈ enrichTargets st₃.modified := mem_enrichTargets ht₀ hn₀
            have hq : ((enrichPass endsong st₃).noExtra.any
                (fun q => q.1 = (t₀.track_name, t₀.artist_name))) = true := by
              rw [enrichPass]
              exact foldl_enrichStep_noExtra_pos endsong _ _ ht₀t hlk
            have hknots : ¬((t₀.track_name, t₀.artist_name) = sentinelKey) := by
              intro hk
              apply hrowsent
              have hk1 : t₀.track_name = some sentinelTrack := congrArg Prod.fst hk
              have hk2 : t₀.artist_name = some sentinelArtist := congrArg Prod.snd hk
              exact ⟨by rw [hrtn]; exact hk1, by rw [hran]; exact hk2⟩
            have hq5 : ∃ kv ∈ st₅.noExtra, kv.1 = (t₀.track_name, t₀.artist_name) := by
              rw [delSentinel_noExtra h5]
              simp only [List.any_eq_true, decide_eq_true_eq] at hq
              obtain ⟨kv, hkv, hkvk⟩ := hq
              refine ⟨kv, ?_, hkvk⟩
              rw [List.mem_filter]
              refine ⟨hkv, ?_⟩
              simp only [decide_eq_true_eq]
              rw [hkvk]
              exact hknots
            obtain ⟨kv, hkv5, hkvk⟩ := hq5
            have hacc' : orc kv.1 = OracleOutcome.accept a c := by
              rw [hkvk, ← hrtn, ← hran]
              exact hacc
            have hsq1 : sqlEqO (enrichFun endsong t₀).track_name kv.1.1 = true := by
              rw [e2, hkvk]
              show sqlEqO t₀.track_name t₀.track_name = true
              exact sqlEqO_self htn₀
            have hsq2 : sqlEqO (enrichFun endsong t₀).artist_name kv.1.2 = true := by
              rw [e3, hkvk]
              show sqlEqO t₀.artist_name t₀.artist_name = true
              exact sqlEqO_self han₀
            obtain ⟨hha, hhu⟩ := oracleFun_hit orc st₅.noExtra hkv5 hacc' hsq1 hsq2
            rcases ht₂n with hcontra | hcontra
            · exact hha hcontra
            · exact hhu hcontra
    | some du =>
      have hE1 : enrichFun endsong t₀ =
          { t₀ with album_name := du.1, track_uri := du.2 } := by
        rw [enrichFun, if_pos hn₀]
        simp only [hlk]
      constructor
      · intro du' hdu'
        rw [hrtn, hran, hlk] at hdu'
        have hdd : du = du' := by
          simp only [Option.some.injEq] at hdu'
          exact hdu'
        constructor
        · rw [hralb, hO, hE1, ← hdd]
        · rw [hruri, hO, hE1, ← hdd]
      · intro hnone
        rw [hrtn, hran, hlk] at hnone
        cases hnone
  · exfalso
    have hE1 : enrichFun endsong t₀ = t₀ := by
      rw [enrichFun, if_neg hn₀]
    rw [hE1] at ht₁n
    exact hn₀ ht₁n

/-- Replaying the whole session on the snapshot left by a completed first
session reconciles nothing new: every row the second run inserts carries
the sentinel names (and is deleted again by the exporter), the re-run
enrichment rewrites every surviving row to exactly its stored values, and
the oracle is never consulted on a usable key — so the exported
collections coincide. -/
theorem pipeline_idempotent (endsong : List EndsongRow) (history : List HistoryRow)
    (op : Nat → Str) (orc : Option Str × Option Str → OracleOutcome)
    {st₁ st₂ : PassState}
    (hE : (endsong.map (fun r => r.id)).Nodup)
    (hH : (history.map (fun h => h.id)).Nodup)
    (hTs : tsConsistent endsong history)
    (run1 : runPipeline endsong history op orc [] = .ok st₁)
    (run2 : runPipeline endsong history op orc st₁.modified = .ok st₂) :
    st₂.modified = st₁.modified := by
  rw [runPipeline] at run1 run2
  obtain ⟨S₁, hS₁, hmap₁⟩ := except_map_ok run1
  obtain ⟨S₂, hS₂, hmap₂⟩ := except_map_ok run2
  have hm₁ : st₁.modified = exportDelete S₁.modified := by rw [← hmap₁]
  have hm₂ : st₂.modified = exportDelete S₂.modified := by rw [← hmap₂]
  rw [hm₁, hm₂]
  obtain ⟨a₂, a₃, a₅, ha2, ha3, ha5, hS₁eq⟩ := runStages_ok_decomp hS₁
  obtain ⟨b₂, b₃, b₅, hb2, hb3, hb5, hS₂eq⟩ := runStages_ok_decomp hS₂
  have hS₁m : S₁.modified =
      fixupPass2 (fixupPass1 (oraclePass orc a₅).modified) := by rw [hS₁eq]
  have hS₂m : S₂.modified =
      fixupPass2 (fixupPass1 (oraclePass orc b₅).modified) := by rw [hS₂eq]
  rw [hm₁] at hb2
  -- facts about the exported snapshot of the first run
  have hMnodup : ((exportDelete S₁.modified).map (fun r => r.id)).Nodup := by
    have hn := nodup_ids_runStages hS₁ (by simp)
    rw [exportDelete]
    exact hn.sublist (List.Sublist.map _ (List.filter_sublist _))
  have hMnosent : ∀ r ∈ exportDelete S₁.modified, ¬sentinelNamed r :=
    fun r hr => (mem_exportDelete.mp hr).2
  have hMuris : ∀ r ∈ exportDelete S₁.modified,
      r.track_uri = none ∨
        ∃ u, r.track_uri = some u ∧ likePrefix spotifyStr u = true := by
    intro r hr
    have hrS : r ∈ S₁.modified := (mem_exportDelete.mp hr).1
    rw [hS₁m] at hrS
    exact fixups_output_normalized _ r hrS
  -- the second run's initial pass
  obtain ⟨g₁, hg₁⟩ := (initialPass_fields endsong history
    (PassState.initial (exportDelete S₁.modified))).1
  have hg₁' : (initialPass endsong history
      (PassState.initial (exportDelete S₁.modified))).modified =
      exportDelete S₁.modified ++ g₁ := hg₁
  have hB1nodup : ((initialPass endsong history
      (PassState.initial (exportDelete S₁.modified))).modified.map
      (fun r => r.id)).Nodup := by
    rw [initialPass]
    exact nodup_ids_foldl_initialStep _ _ hMnodup
  have hindep := initialPass_indep endsong history (exportDelete S₁.modified) []
  have hg₁sent : ∀ x ∈ g₁, sentinelNamed x := by
    intro x hx
    have hxB : x ∈ (initialPass endsong history
        (PassState.initial (exportDelete S₁.modified))).modified := by
      rw [hg₁']
      exact List.mem_append_right _ hx
    have hclass : x ∈ (PassState.initial (exportDelete S₁.modified)).modified ∨
        ∃ r ∈ endsong.filter (fun z => z.platform = iosStr),
          (∃ m, exactMatches history r = [m] ∧
            x = resolveWith r m.trackName m.artistName) ∧
          modifiedHas (PassState.initial (exportDelete S₁.modified)).modified r.id = false := by
      rw [initialPass] at hxB
      exact foldl_initialStep_new_rows history _ _ x hxB
    rcases hclass with hmem | ⟨r, hrf, ⟨m, hEM, hrw⟩, hguard⟩
    · exfalso
      have hmem' : x ∈ exportDelete S₁.modified := hmem
      exact not_mem_both_of_nodup_append (fun z => z.id)
        (by rw [← hg₁']; exact hB1nodup) hmem' hx
    · by_contra hns
      rw [List.mem_filter] at hrf
      have hios : r.platform = iosStr := by
        have h' := hrf.2
        simp only [decide_eq_true_eq] at h'
        exact h'
      have hblock := run1_block_singleton endsong history op orc hE hH hTs
        ha2 ha3 ha5 hrf.1 hios hEM (by rw [← hrw]; exact hns)
      rw [← hS₁m] at hblock
      have hguard' : modifiedHas (exportDelete S₁.modified) r.id = false := hguard
      rw [hguard'] at hblock
      cases hblock
  -- the second run's cluster pass
  obtain ⟨g₂, hg₂⟩ := (clusterPass_ok_fields hb2).1
  have hB2nodup : (b₂.modified.map (fun r => r.id)).Nodup := by
    rw [clusterPass] at hb2
    exact nodup_ids_foldlM_clusterStep _ _ _ hb2 hB1nodup
  have hg₂sent : ∀ x ∈ g₂, sentinelNamed x := by
    intro x hx
    have hxB : x ∈ b₂.modified := by
      rw [hg₂]
      exact List.mem_append_right _ hx
    have hclass : x ∈ (initialPass endsong history
        (PassState.initial (exportDelete S₁.modified))).modified ∨
        ∃ t ∈ (initialPass endsong history
            (PassState.initial (exportDelete S₁.modified))).multiple,
          ∃ h0 hrest, clusterHistory history t = h0 :: hrest ∧
            ∃ p ∈ (h0 :: hrest).zip (clusterCands endsong h0),
              x = resolveWith p.2 p.1.trackName p.1.artistName ∧
                modifiedHas (initialPass endsong history
                  (PassState.initial (exportDelete S₁.modified))).modified p.2.id = false := by
      rw [clusterPass] at hb2
      exact foldlM_clusterStep_new_rows _ _ _ hb2 x hxB
    rcases hclass with hmem | ⟨t, ht, h0, hrest, hch, p, hp, hrw, hguard⟩
    · exfalso
      exact not_mem_both_of_nodup_append (fun z => z.id)
        (by rw [← hg₂]; exact hB2nodup) hmem hx
    · by_contra hns
      have htA : t ∈ (initialPass endsong history (PassState.initial [])).multiple := by
        rw [← hindep.1]
        exact ht
      have hguardM : modifiedHas (exportDelete S₁.modified) p.2.id = false := by
        have hguard' : modifiedHas (exportDelete S₁.modified ++ g₁) p.2.id = false := by
          rw [← hg₁']
          exact hguard
        rw [modifiedHas_append, Bool.or_eq_false_iff] at hguard'
        exact hguard'.1
      have hblock := run1_block_cluster endsong history op orc hE hH hTs
        ha2 ha3 ha5 htA hch hp (by rw [← hrw]; exact hns)
      rw [← hS₁m] at hblock
      rw [hguardM] at hblock
      cases hblock
  -- the second run's fallback pass
  have hg₃ex : ∃ g₃, b₃.modified = b₂.modified ++ g₃ := by
    rw [nonePass] at hb3
    exact foldlM_noMatch_append _ _ _ hb3
  obtain ⟨g₃, hg₃⟩ := hg₃ex
  have hB3nodup : (b₃.modified.map (fun r => r.id)).Nodup := by
    rw [nonePass] at hb3
    exact nodup_ids_foldlM_noMatch _ _ _ hb3 hB2nodup
  have hg₃sent : ∀ x ∈ g₃, sentinelNamed x := by
    intro x hx
    have hxB : x ∈ b₃.modified := by
      rw [hg₃]
      exact List.mem_append_right _ hx
    have hclass : x ∈ b₂.modified ∨
        ∃ entry ∈ b₂.noneIds, fallbackRow endsong history op entry = some x ∧
          modifiedHas b₂.modified entry = false := by
      rw [nonePass] at hb3
      exact foldlM_noMatch_new_rows _ _ _ hb3 x hxB
    rcases hclass with hmem | ⟨entry, hent, hfb, hguard⟩
    · exfalso
      exact not_mem_both_of_nodup_append (fun z => z.id)
        (by rw [← hg₃]; exact hB3nodup) hmem hx
    · by_contra hns
      have hentA : entry ∈ (initialPass endsong history (PassState.initial [])).noneIds := by
        rw [(clusterPass_ok_fields hb2).2.1] at hent
        rw [hindep.2] at hent
        exact hent
      have hguardM : modifiedHas (exportDelete S₁.modified) entry = false := by
        have hb2m : b₂.modified = exportDelete S₁.modified ++ (g₁ ++ g₂) := by
          rw [hg₂, hg₁', List.append_assoc]
        rw [hb2m, modifiedHas_append, Bool.or_eq_false_iff] at hguard
        exact hguard.1
      have hblock := run1_block_fallback endsong history op orc hE hH hTs
        ha2 ha3 ha5 hentA hfb hns
      rw [← hS₁m] at hblock
      rw [hguardM] at hblock
      cases hblock
  -- assembled structure of the second run's reconciled table
  have hB3m : b₃.modified = exportDelete S₁.modified ++ (g₁ ++ g₂ ++ g₃) := by
    rw [hg₃, hg₂, hg₁']
    simp [List.append_assoc]
  have hΓsent : ∀ x ∈ g₁ ++ g₂ ++ g₃, sentinelNamed x := by
    intro x hx
    rcases List.mem_append.mp hx with hx' | hx3
    · rcases List.mem_append.mp hx' with hx1 | hx2
      · exact hg₁sent x hx1
      · exact hg₂sent x hx2
    · exact hg₃sent x hx3
  -- the second run queues no usable oracle key
  have hB3noExtra : b₃.noExtra = [] := by
    have h1 : (initialPass endsong history
        (PassState.initial (exportDelete S₁.modified))).noExtra = [] := by
      rw [initialPass]
      exact (foldl_initialStep_fields history _ _).2.2.2.1
    have h2' : b₂.noExtra = [] := by
      rw [(clusterPass_ok_fields hb2).2.2.2.2.1, h1]
    rw [nonePass] at hb3
    rw [(foldlM_noMatch_facts _ _ _ hb3).2.2.1, h2']
  have hsafe : ∀ kv ∈ b₅.noExtra, ∀ a c, orc kv.1 = OracleOutcome.accept a c →
      kv.1.1 = none ∨ kv.1.2 = none := by
    intro kv hkv a c hacc
    rw [delSentinel_noExtra hb5, List.mem_filter] at hkv
    obtain ⟨hkv4, hkvns⟩ := hkv
    simp only [decide_eq_true_eq] at hkvns
    have hclass : kv ∈ b₃.noExtra ∨
        ∃ t ∈ enrichTargets b₃.modified, kv.1 = (t.track_name, t.artist_name) ∧
          enrichLookup endsong t.track_name t.artist_name = none := by
      rw [enrichPass] at hkv4
      exact foldl_enrichStep_noExtra_sub endsong _ b₃ kv hkv4
    rcases hclass with hmem | ⟨t, htt, hk, hlk⟩
    · rw [hB3noExtra] at hmem
      cases hmem
    · have htmem : t ∈ b₃.modified := enrichTargets_subset htt
      have htnull : t.album_name = none ∨ t.track_uri = none :=
        enrichTargets_nullish htt
      rw [hB3m] at htmem
      rcases List.mem_append.mp htmem with htM | htΓ
      · have hst := (run1_enrich_stable endsong history op orc ha2 ha3 ha5
          (by rw [hS₁m] at htM; exact htM) htnull).2 hlk a c
          (by rw [hk] at hacc; exact hacc)
        rcases hst with h | h
        · exact Or.inl (by rw [hk]; exact h)
        · exact Or.inr (by rw [hk]; exact h)
      · exfalso
        apply hkvns
        have hts : t.track_name = some sentinelTrack ∧
            t.artist_name = some sentinelArtist := hΓsent t htΓ
        rw [hk, hts.1, hts.2]
        rfl
  -- the tail stages of the second run
  have hb₅m : b₅.modified = b₃.modified.map (enrichFun endsong) := by
    rw [(delSentinel_ok_fields hb5).1]
    exact enrichPass_modified_map endsong b₃ hB3nodup
  have hOid : (oraclePass orc b₅).modified = b₅.modified := by
    rw [oraclePass_modified_map,
      map_congr_mem (fun r _ => oracleFun_safe_id orc b₅.noExtra hsafe r),
      List.map_id']
  have hS₂m' : S₂.modified = (b₃.modified.map (enrichFun endsong)).map
      (fun r => { r with track_uri := normalizeUri r.track_uri }) := by
    rw [hS₂m, fixupPasses_map, hOid, hb₅m]
  rw [hS₂m', hB3m, List.map_append, List.map_append, exportDelete_append]
  have hΓzero : exportDelete (((g₁ ++ g₂ ++ g₃).map (enrichFun endsong)).map
      (fun r => { r with track_uri := normalizeUri r.track_uri })) = [] := by
    refine exportDelete_eq_nil ?_
    intro r hr
    rcases List.mem_map.mp hr with ⟨y, hy, hyr⟩
    rcases List.mem_map.mp hy with ⟨x, hxΓ, hxy⟩
    have hxs : x.track_name = some sentinelTrack ∧
        x.artist_name = some sentinelArtist := hΓsent x hxΓ
    obtain ⟨f1, f2, f3⟩ := enrichFun_names endsong x
    constructor
    · rw [← hyr]
      show y.track_name = some sentinelTrack
      rw [← hxy, f2]
      exact hxs.1
    · rw [← hyr]
      show y.artist_name = some sentinelArtist
      rw [← hxy, f3]
      exact hxs.2
  have hMfix : exportDelete (((exportDelete S₁.modified).map (enrichFun endsong)).map
      (fun r => { r with track_uri := normalizeUri r.track_uri })) =
      exportDelete S₁.modified := by
    have hpt : ∀ r ∈ exportDelete S₁.modified,
        ((fun r => { r with track_uri := normalizeUri r.track_uri }) ∘
          enrichFun endsong) r = r := by
      intro r hrM
      by_cases hn : r.album_name = none ∨ r.track_uri = none
      · match hlk : enrichLookup endsong r.track_name r.artist_name with
        | none =>
          have hE1 : enrichFun endsong r = r := by
            rw [enrichFun, if_pos hn]
            simp only [hlk]
          show { enrichFun endsong r with track_uri := normalizeUri (enrichFun endsong r).track_uri } = r
          rw [hE1]
          exact normalizeUri_fix_row (hMuris r hrM)
        | some du =>
          have hE1 : enrichFun endsong r =
              { r with album_name := du.1, track_uri := du.2 } := by
            rw [enrichFun, if_pos hn]
            simp only [hlk]
          have hst := (run1_enrich_stable endsong history op orc ha2 ha3 ha5
            (by rw [hS₁m] at hrM; exact hrM) hn).1 du hlk
          show { enrichFun endsong r with track_uri := normalizeUri (enrichFun endsong r).track_uri } = r
          rw [hE1]
          show { r with album_name := du.1, track_uri := normalizeUri du.2 } = r
          rw [hst.1, hst.2]
      · have hE1 : enrichFun endsong r = r := by
          rw [enrichFun, if_neg hn]
        show { enrichFun endsong r with track_uri := normalizeUri (enrichFun endsong r).track_uri } = r
        rw [hE1]
        exact normalizeUri_fix_row (hMuris r hrM)
    rw [List.map_map, map_congr_mem hpt, List.map_id']
    exact exportDelete_eq_self hMnosent
  rw [hΓzero, hMfix, List.append_nil]

/-- C3: every resolver checks for an existing reconciled record before
committing and skips when one exists (conjuncts 1-3: the initial pass,
the ambiguity resolver's per-pair insert and the duration fallback are
all no-ops on an already reconciled primary id); consequently at most one
reconciled record ever exists per primary id (conjunct 4: the exported
ids of a run started on a fresh snapshot are duplicate-free), and — on
tables whose primary ids are unique and whose timestamps are consistent
(the LIKE minute test of line 174 agrees with the minute-key equality of
line 149) — running the full pipeline a second time on the snapshot
produced by the first run, with identical operator input and oracle,
yields an identical reconciled collection (conjunct 5). -/
theorem claimC3 (endsong : List EndsongRow) (history : List HistoryRow)
    (op : Nat → Str) (orc : Option Str × Option Str → OracleOutcome)
    (st₁ st₂ : PassState)
    (hE : (endsong.map (fun r => r.id)).Nodup)
    (hH : (history.map (fun h => h.id)).Nodup)
    (hTs : tsConsistent endsong history)
    (run1 : runPipeline endsong history op orc [] = .ok st₁)
    (run2 : runPipeline endsong history op orc st₁.modified = .ok st₂) :
    (∀ st (r : EndsongRow), modifiedHas st.modified r.id = true →
        (initialStep history st r).modified = st.modified)
    ∧ (∀ st (p : HistoryRow × EndsongRow) ps,
        modifiedHas st.modified p.2.id = true →
          resolvePairs (p :: ps) st = resolvePairs ps st)
    ∧ (∀ st entry, modifiedHas st.modified entry = true →
        noMatchStep endsong history op st entry = .ok st)
    ∧ (st₁.modified.map (fun r => r.id)).Nodup
    ∧ st₂.modified = st₁.modified := by
  refine ⟨?_, ?_, ?_, ?_, ?_⟩
  · intro st r hg
    match hx : exactMatches history r with
    | [] => simp only [initialStep, hx]
    | [m] => simp only [initialStep, hx, if_pos hg]
    | m1 :: m2 :: ms => simp only [initialStep, hx]
  · intro st p ps hg
    rw [resolvePairs, List.foldl_cons, if_pos hg]
    rfl
  · intro st entry hg
    rw [noMatchStep, if_pos hg]
  · exact pipeline_nodup run1 (by simp)
  · exact pipeline_idempotent endsong history op orc hE hH hTs run1 run2

theorem claimC3_witness :
    ((exEndsong.map (fun r => r.id)).Nodup ∧
      (exHistory.map (fun h => h.id)).Nodup ∧
      tsConsistent exEndsong exHistory ∧
      runPipeline exEndsong exHistory exOp exOrc [] = .ok exPipeSt ∧
      runPipeline exEndsong exHistory exOp exOrc exPipeSt.modified = .ok exPipeSt2) ∧
    (exPipeSt.modified.map (fun r => r.id)).Nodup ∧
    exPipeSt2.modified = exPipeSt.modified :=
  ⟨⟨by decide, by decide, by decide, by decide, by decide⟩,
    (claimC3 exEndsong exHistory exOp exOrc exPipeSt exPipeSt2 (by decide)
      (by decide) (by decide) (by decide) (by decide)).2.2.2⟩

end Merge
